import Mathlib

/-!
Shallow embedding of the note-indexing core of the `zinnia` application
(`crates/core/src/notes.rs` and `crates/core/src/filesystem.rs`).

The filesystem is modelled as a flat list of files (full relative path,
content, mtime); a note directory exists exactly when some file lives under
it.  The SQLite `notes` table is a list of rows, the FTS5 shadow table a list
of entries, and `last_insert_rowid` is modelled by a monotonic id counter.
SQL `LIKE` (ASCII-case-insensitive, `%`/`_` wildcards, no `ESCAPE` clause) and
`LOWER` (ASCII-only) follow SQLite semantics.  `ORDER BY` over rows with
pairwise-distinct sort keys is modelled as an insertion sort by the key.
The `REAL` column `frecency_score` is modelled with exact rationals; no claim
depends on floating-point rounding.  The 64-bit `DefaultHasher` digest of
`compute_hash` is modelled by a deterministic 64-bit fold; the claims depend
only on the hash being a deterministic function of the content.

Operations return `St × Except Err α` so that states reached on failing paths
(where the Rust code has already mutated the filesystem) are still visible.
Clock reads (`SystemTime::now`) become explicit parameters.
-/

instance {ε α : Type} [DecidableEq ε] [DecidableEq α] : DecidableEq (Except ε α) := fun x y =>
  match x, y with
  | .ok a, .ok b =>
    if h : a = b then isTrue (by rw [h]) else isFalse (by intro hh; cases hh; exact h rfl)
  | .error a, .error b =>
    if h : a = b then isTrue (by rw [h]) else isFalse (by intro hh; cases hh; exact h rfl)
  | .ok _, .error _ => isFalse (by intro hh; cases hh)
  | .error _, .ok _ => isFalse (by intro hh; cases hh)

/-! ## Character and string toolkit -/

/-- ASCII-only lower-casing, as done by SQLite's `LOWER` and `LIKE`.
Rust's `str::to_lowercase` agrees with it on ASCII strings. -/
def asciiLower (c : Char) : Char :=
  if 'A' ≤ c ∧ c ≤ 'Z' then Char.ofNat (c.toNat + 32) else c

/-- SQLite `LIKE` compares non-wildcard characters ASCII-case-insensitively. -/
def charLikeEq (a b : Char) : Bool := asciiLower a = asciiLower b

/-- Fuel-indexed matcher for SQLite `LIKE` patterns (`%` matches any sequence,
`_` any single character, anything else itself up to ASCII case).  There is no
`ESCAPE` clause in any query of the source, so a backslash is an ordinary
pattern character. -/
def likeFuel : Nat → List Char → List Char → Bool
  | 0, _, _ => false
  | fuel + 1, ps, s =>
    match ps with
    | [] => s.isEmpty
    | c :: ps' =>
      if c = '%' then
        likeFuel fuel ps' s ||
          (match s with
           | [] => false
           | _ :: ss => likeFuel fuel (c :: ps') ss)
      else
        match s with
        | [] => false
        | d :: ss =>
          if c = '_' then likeFuel fuel ps' ss
          else charLikeEq c d && likeFuel fuel ps' ss

/-- `likeM pattern s`: does `s` match the `LIKE` pattern?  The fuel
`ps.length + s.length + 1` strictly dominates the recursion depth. -/
def likeM (ps s : List Char) : Bool := likeFuel (ps.length + s.length + 1) ps s

/-- SQL `path LIKE pattern` on strings. -/
def sqlLike (pattern s : String) : Bool := likeM pattern.data s.data

/-- SQLite `LOWER`, ASCII-only. -/
def sqlLower (s : String) : String := ⟨s.data.map asciiLower⟩

/-- Boolean string test: `a` is a prefix of `b`. -/
def strPrefixOf (a b : String) : Bool := a.data.isPrefixOf b.data

/-- Replace the first occurrence of `pat` (scanning left to right), as Rust's
`str::replacen(pat, rep, 1)`.  `pat` is never empty at any call site. -/
def replaceFirstL (pat rep : List Char) : List Char → List Char
  | [] => []
  | c :: cs =>
    if pat.isPrefixOf (c :: cs) then rep ++ (c :: cs).drop pat.length
    else c :: replaceFirstL pat rep cs

/-- Fuel-indexed replacement of every (non-overlapping, left-to-right)
occurrence of `pat`, as Rust's `str::replace`.  `pat` is never empty at any
call site; fuel `s.length` dominates the number of recursive steps. -/
def replaceAllFuel : Nat → List Char → List Char → List Char → List Char
  | 0, _, _, s => s
  | f + 1, pat, rep, s =>
    if pat.isEmpty then s
    else
      match s with
      | [] => []
      | c :: cs =>
        if pat.isPrefixOf (c :: cs) then
          rep ++ replaceAllFuel f pat rep ((c :: cs).drop pat.length)
        else c :: replaceAllFuel f pat rep cs

def replaceAllL (pat rep s : List Char) : List Char := replaceAllFuel s.length pat rep s

def strReplaceFirst (s pat rep : String) : String := ⟨replaceFirstL pat.data rep.data s.data⟩

def strReplaceAll (s pat rep : String) : String := ⟨replaceAllL pat.data rep.data s.data⟩

/-- Does `pat` occur as a contiguous substring (Rust `str::contains`)? -/
def occursL (pat : List Char) : List Char → Bool
  | [] => pat.isEmpty
  | c :: cs => pat.isPrefixOf (c :: cs) || occursL pat cs

def strContains (s pat : String) : Bool := occursL pat.data s.data

/-- Lexicographic order on character lists by code point; this is also the
byte order SQLite's default `BINARY` collation uses on UTF-8 text. -/
def charListLe : List Char → List Char → Bool
  | [], _ => true
  | _ :: _, [] => false
  | a :: as, b :: bs =>
    if a.toNat < b.toNat then true
    else if a.toNat = b.toNat then charListLe as bs
    else false

def strLe (a b : String) : Bool := charListLe a.data b.data

/-- Split a character list on `/` (used to model the directory structure of a
note path; note paths produced by the scanner have no empty segments). -/
def splitSegs : List Char → List (List Char)
  | [] => [[]]
  | c :: rest =>
    let r := splitSegs rest
    if c = '/' then [] :: r
    else
      match r with
      | [] => [[c]]
      | seg :: segs => (c :: seg) :: segs

/-! ## Path arithmetic (from `notes.rs` / `filesystem.rs` helpers) -/

/-- Source `get_parent_path`: Rust takes `Path::new(path).parent()` and filters
out the empty result.  For the slash-separated relative note paths of this
system that is everything before the last `/`, with `""` results and slashless
paths mapped to `none`. -/
def getParentPath (path : String) : Option String :=
  match path.data.reverse.dropWhile (fun c => c ≠ '/') with
  | [] => none
  | _ :: rest => if rest.isEmpty then none else some ⟨rest.reverse⟩

/-- Source `path.split('/').next_back().unwrap()`: the last `/`-separated
segment of a path. -/
def lastSegment (path : String) : String :=
  ⟨(path.data.reverse.takeWhile (fun c => c ≠ '/')).reverse⟩

/-- The file backing a note: `<root>/p/_index.md`, or `<root>/_index.md` for
the root note (source `note_to_fs_path`). -/
def fsIndexFile (p : String) : String :=
  if p = "" then "_index.md" else p ++ "/_index.md"

/-- Recover a note path from a file path: inverse of `fsIndexFile`.  (Relative
file paths never start with `/`, so the recovered directory part of a nested
`_index.md` is nonempty.) -/
def notePathOf (filePath : String) : Option String :=
  if filePath = "_index.md" then some ""
  else if "/_index.md".data.isSuffixOf filePath.data ∧ 10 < filePath.data.length then
    some ⟨filePath.data.take (filePath.data.length - "/_index.md".data.length)⟩
  else none

/-- A directory is reached by `scan_dir` iff no directory on the way down is
literally named `_backups`; for a note path that means no path segment equals
`_backups`. -/
def backupsFree (p : String) : Bool :=
  !((splitSegs p.data).contains "_backups".data)

/-! ## Data model -/

/-- Error kinds of `notes::Error`.  `io` stands for `Error::Io(..)`,
`database` for `Error::Database(..)`. -/
inductive Err where
  | io
  | database
  | databaseCorrupted
  | notFound (path : String)
  | alreadyExists (path : String)
  | parentNotFound (path : String)
deriving Repr, DecidableEq

/-- One row of the `notes` table (schema v3). -/
structure Row where
  id : Nat
  path : String
  parentPath : Option String
  mtime : Int
  contentHash : Nat
  archived : Bool
  archivedAt : Option Int
  accessCount : Int
  directAccessCount : Int
  lastAccessedAt : Option Int
  frecencyScore : Rat
deriving Repr, DecidableEq

/-- One entry of the `notes_fts` shadow table (`rowid`, `path`, `content`). -/
structure FtsEntry where
  rowid : Nat
  path : String
  content : String
deriving Repr, DecidableEq

/-- One file in the notes directory tree, addressed by its full relative
path (for a note `p` its content lives in the file `fsIndexFile p`). -/
structure FsFile where
  path : String
  content : String
  mtime : Int
deriving Repr, DecidableEq

/-- Metadata produced by `NoteFilesystem::scan_all`. -/
structure FsNoteMeta where
  path : String
  mtime : Int
deriving Repr, DecidableEq

/-- Combined state: filesystem plus database. -/
structure St where
  files : List FsFile
  rows : List Row
  fts : List FtsEntry
  nextId : Nat
deriving Repr, DecidableEq

/-- Result row of the metadata queries (`NoteMetadata` in the source). -/
structure NoteMetadata where
  id : Nat
  path : String
  mtime : Int
  archived : Bool
deriving Repr, DecidableEq

/-- Result of `get_note` / `create_note` (`Note` in the source). -/
structure NoteOut where
  id : Nat
  path : String
  content : String
  modified : Int
deriving Repr, DecidableEq

/-- `RankingMode` of the source. -/
inductive RankingMode where
  | visits
  | frecency
deriving Repr, DecidableEq

def toMeta (r : Row) : NoteMetadata := ⟨r.id, r.path, r.mtime, r.archived⟩

/-! ## Filesystem layer -/

def fsLookup : List FsFile → String → Option FsFile
  | [], _ => none
  | f :: fs, fp => if f.path = fp then some f else fsLookup fs fp

/-- `fs::write` semantics: create or overwrite the file at `fp` (parent
directories are implicit in this model). -/
def fsWrite : List FsFile → String → String → Int → List FsFile
  | [], fp, c, m => [⟨fp, c, m⟩]
  | f :: fs, fp, c, m =>
    if f.path = fp then ⟨fp, c, m⟩ :: fs else f :: fsWrite fs fp c m

/-- Source `NoteFilesystem::read_note`. -/
def fsReadNote (st : St) (p : String) : Option String :=
  (fsLookup st.files (fsIndexFile p)).map (·.content)

/-- Source `NoteFilesystem::write_note` (ensures parents, writes, overwrites). -/
def fsWriteNote (st : St) (p content : String) (now : Int) : St :=
  { st with files := fsWrite st.files (fsIndexFile p) content now }

/-- Source `NoteFilesystem::delete_note`: `fs::remove_dir_all(<root>/p)`.
A directory exists in this model iff some file lives strictly below it; for
`p = ""` the root directory itself is removed (it always exists).  Returns
`none` when the directory does not exist, like `remove_dir_all`. -/
def fsDeleteDir (files : List FsFile) (p : String) : Option (List FsFile) :=
  if p = "" then some []
  else if files.any (fun f => strPrefixOf (p ++ "/") f.path) then
    some (files.filter (fun f => !strPrefixOf (p ++ "/") f.path))
  else none

/-- Source `NoteFilesystem::scan_all`: every directory reachable from the root
that contains an `_index.md`, never descending into a directory named
`_backups`.  The traversal order of `read_dir` is unspecified; this model
lists notes in file-list order, which no claim depends on. -/
def scanAll (st : St) : List FsNoteMeta :=
  st.files.filterMap fun f =>
    match notePathOf f.path with
    | some np => if backupsFree np then some ⟨np, f.mtime⟩ else none
    | none => none

/-! ## Database helpers -/

def rowByPath : List Row → String → Option Row
  | [], _ => none
  | r :: rs, p => if r.path = p then some r else rowByPath rs p

/-- Source `NotesApi::note_exists` (`SELECT COUNT(*) ... WHERE path = ?1`). -/
def noteExists (st : St) (p : String) : Bool := (rowByPath st.rows p).isSome

/-- Source `compute_hash`: a 64-bit `DefaultHasher` digest of the content.
Modelled as a deterministic 64-bit fold; every claim depends only on the
digest being a function of the content. -/
def computeHash (content : String) : Nat :=
  content.data.foldl (fun h c => (h * 1099511628211 + c.toNat) % 18446744073709551616)
    14695981039346656037

/-! ## Notes API: sync and rescan -/

/-- Source `NotesApi::sync_note`.  Looks `p` up in a fresh `scan_all`, reads
the content, and inserts or (only when the stored hash differs) updates the
row together with its FTS entry (FTS5 update = `DELETE` + `INSERT`). -/
def syncNote (st : St) (p : String) : St × Except Err Bool :=
  match (scanAll st).find? (fun m => m.path = p) with
  | none => (st, .error (.notFound p))
  | some meta =>
    match fsReadNote st p with
    | none => (st, .error .io)
    | some content =>
      let contentHash := computeHash content
      let mtime := meta.mtime
      let parentPath := getParentPath p
      match rowByPath st.rows p with
      | some r0 =>
        if r0.contentHash = contentHash then (st, .ok false)
        else
          let rows' := st.rows.map fun r =>
            if r.path = p then { r with mtime := mtime, contentHash := contentHash, parentPath := parentPath } else r
          let fts' := (st.fts.filter (fun e => e.rowid ≠ r0.id)) ++ [⟨r0.id, p, content⟩]
          ({ st with rows := rows', fts := fts' }, .ok true)
      | none =>
        let rid := st.nextId
        let newRow : Row :=
          { id := rid, path := p, parentPath := parentPath, mtime := mtime,
            contentHash := contentHash, archived := false, archivedAt := none,
            accessCount := 0, directAccessCount := 0, lastAccessedAt := none,
            frecencyScore := 0 }
        ({ st with rows := st.rows ++ [newRow],
                   fts := st.fts ++ [⟨rid, p, content⟩],
                   nextId := rid + 1 }, .ok true)

/-- The `for fs_note in &fs_notes { self.sync_note(..)? }` loop of `rescan`. -/
def syncMany (st : St) : List FsNoteMeta → St × Except Err Unit
  | [] => (st, .ok ())
  | m :: ms =>
    match syncNote st m.path with
    | (st', .ok _) => syncMany st' ms
    | (st', .error e) => (st', .error e)

/-- Source `NotesApi::rescan`: sync every scanned note, then delete the rows
whose (pre-captured) path is absent from the scan.  The FTS shadow is not
touched by the deletion pass. -/
def rescan (st : St) : St × Except Err Unit :=
  let fsNotes := scanAll st
  let dbPaths := st.rows.map (·.path)
  match syncMany st fsNotes with
  | (st1, .error e) => (st1, .error e)
  | (st1, .ok _) =>
    let fsPaths := fsNotes.map (·.path)
    let st2 := dbPaths.foldl
      (fun s dbPath =>
        if fsPaths.contains dbPath then s
        else { s with rows := s.rows.filter (fun r => r.path ≠ dbPath) })
      st1
    (st2, .ok ())

/-! ## Notes API: CRUD -/

/-- Source `NotesApi::get_note_internal`. -/
def getNoteInternal (st : St) (p : String) : Except Err NoteOut :=
  match fsReadNote st p with
  | none => .error (.notFound p)
  | some content =>
    match rowByPath st.rows p with
    | none => .error (.notFound p)
    | some r => .ok ⟨r.id, p, content, r.mtime⟩

/-- Source `NotesApi::create_note`.  The two guard failures happen before any
mutation; a failure of the filesystem create (file already on disk without an
index row) surfaces as `Error::Io`. -/
def createNote (st : St) (p : String) (now : Int) : St × Except Err NoteOut :=
  if noteExists st p then (st, .error (.alreadyExists p))
  else
    match getParentPath p with
    | some parentPath =>
      if !noteExists st parentPath then (st, .error (.parentNotFound parentPath))
      else createNoteInner st p now
    | none => createNoteInner st p now
where
  createNoteInner (st : St) (p : String) (now : Int) : St × Except Err NoteOut :=
    if (fsLookup st.files (fsIndexFile p)).isSome then (st, .error .io)
    else
      let st1 := fsWriteNote st p "" now
      match syncNote st1 p with
      | (st2, .error e) => (st2, .error e)
      | (st2, .ok _) =>
        match getNoteInternal st2 p with
        | .error e => (st2, .error e)
        | .ok note => (st2, .ok note)

/-- Source `NotesApi::delete_note`: recursive filesystem delete (any failure
is reported as `NotFound`), then
`DELETE FROM notes WHERE path = ?1 OR path LIKE '<p>/%'`.
No `notes_fts` row is deleted. -/
def deleteNote (st : St) (p : String) : St × Except Err Unit :=
  match fsDeleteDir st.files p with
  | none => (st, .error (.notFound p))
  | some files' =>
    let rows' := st.rows.filter fun r => !(r.path == p || sqlLike (p ++ "/%") r.path)
    ({ st with files := files', rows := rows' }, .ok ())

/-- Source `NotesApi::trash_note`: identical to `delete_note` except that the
directory is moved to the OS trash, which is outside the modelled state, so
the filesystem effect is the same removal.  No `notes_fts` row is deleted. -/
def trashNote (st : St) (p : String) : St × Except Err Unit :=
  match fsDeleteDir st.files p with
  | none => (st, .error (.notFound p))
  | some files' =>
    let rows' := st.rows.filter fun r => !(r.path == p || sqlLike (p ++ "/%") r.path)
    ({ st with files := files', rows := rows' }, .ok ())

/-! ## Notes API: rename -/

/-- The `UPDATE notes SET path = ?2, parent_path = ?3 WHERE path = ?1` of
`rename_note`. -/
def dbRename (st : St) (o n : String) : St :=
  { st with rows := st.rows.map fun r =>
      if r.path = o then { r with path := n, parentPath := getParentPath n } else r }

/-- The descendant list of `rename_note` / `archive_note` / `unarchive_note`:
`SELECT path FROM notes WHERE path LIKE '<p>/%'` (wildcards in `p` are NOT
escaped). -/
def descendantPaths (st : St) (p : String) : List String :=
  (st.rows.filter (fun r => sqlLike (p ++ "/%") r.path)).map (·.path)

/-- Source `NotesApi::rename_note`.  `tempSuffix` stands for the nanosecond
timestamp used to build the temporary path of a case-only rename. -/
def renameNote (st : St) (oldPath newPath : String) (now : Int) (tempSuffix : String) :
    St × Except Err Unit :=
  if !noteExists st oldPath then (st, .error (.notFound oldPath))
  else
    let isCaseOnlyRename := sqlLower oldPath = sqlLower newPath ∧ oldPath ≠ newPath
    if ¬isCaseOnlyRename ∧ noteExists st newPath = true then
      (st, .error (.alreadyExists newPath))
    else
      match fsReadNote st oldPath with
      | none => (st, .error .io)
      | some content =>
        let descendants := (descendantPaths st oldPath).map
          (fun dp => (dp, (fsReadNote st dp).getD ""))
        if isCaseOnlyRename then
          let tempPath := oldPath ++ "_temp_" ++ tempSuffix
          let st1 := fsWriteNote st tempPath content now
          let tempDescendants := descendants.map
            (fun pr => (pr.1, strReplaceFirst pr.1 oldPath tempPath, pr.2))
          let st2 := tempDescendants.foldl
            (fun s tr => fsWriteNote s tr.2.1 tr.2.2 now) st1
          match fsDeleteDir st2.files oldPath with
          | none => (st2, .error .io)
          | some files' =>
            let st3 := { st2 with files := files' }
            let st4 := fsWriteNote st3 newPath content now
            let st5 := tempDescendants.foldl
              (fun s tr => fsWriteNote s (strReplaceFirst tr.1 oldPath newPath) tr.2.2 now) st4
            let st6 :=
              match fsDeleteDir st5.files tempPath with
              | none => st5
              | some files'' => { st5 with files := files'' }
            let st7 := dbRename st6 oldPath newPath
            let st8 := descendants.foldl
              (fun s pr => dbRename s pr.1 (strReplaceFirst pr.1 oldPath newPath)) st7
            (st8, .ok ())
        else
          let st1 := fsWriteNote st newPath content now
          let st2 := descendants.foldl
            (fun s pr => fsWriteNote s (strReplaceFirst pr.1 oldPath newPath) pr.2 now) st1
          match fsDeleteDir st2.files oldPath with
          | none => (st2, .error .io)
          | some files' =>
            let st3 := { st2 with files := files' }
            let st4 := dbRename st3 oldPath newPath
            let st5 := descendants.foldl
              (fun s pr => dbRename s pr.1 (strReplaceFirst pr.1 oldPath newPath)) st4
            (st5, .ok ())

/-! ## Notes API: archive / unarchive -/

/-- The archive target computed by `archive_note`. -/
def archivePathOf (p : String) : String :=
  match getParentPath p with
  | some parent => parent ++ "/_archive/" ++ lastSegment p
  | none => "_archive/" ++ p

/-- The `UPDATE ... SET path, parent_path, archived = 1, archived_at = now` of
`archive_note`. -/
def dbArchive (st : St) (o n : String) (now : Int) : St :=
  { st with rows := st.rows.map fun r =>
      if r.path = o then
        { r with path := n, parentPath := getParentPath n,
                 archived := true, archivedAt := some now }
      else r }

/-- The `UPDATE ... SET path, parent_path, archived = 0, archived_at = NULL`
of `unarchive_note`. -/
def dbUnarchive (st : St) (o n : String) : St :=
  { st with rows := st.rows.map fun r =>
      if r.path = o then
        { r with path := n, parentPath := getParentPath n,
                 archived := false, archivedAt := none }
      else r }

/-- The descendant move loop shared by archive and unarchive: read each old
location (propagating failure) and write the content at the new location. -/
def moveDescendants (st : St) (now : Int) : List (String × String) → St × Except Err Unit
  | [] => (st, .ok ())
  | (dOld, dNew) :: rest =>
    match fsReadNote st dOld with
    | none => (st, .error .io)
    | some c => moveDescendants (fsWriteNote st dNew c now) now rest

/-- Source `NotesApi::archive_note`. -/
def archiveNote (st : St) (p : String) (now : Int) : St × Except Err Unit :=
  let archivePath := archivePathOf p
  match fsReadNote st p with
  | none => (st, .error .io)
  | some content =>
    let descendants := (descendantPaths st p).map
      (fun dp => (dp, strReplaceFirst dp p archivePath))
    match moveDescendants st now descendants with
    | (st1, .error e) => (st1, .error e)
    | (st1, .ok _) =>
      let st2 := fsWriteNote st1 archivePath content now
      match fsDeleteDir st2.files p with
      | none => (st2, .error .io)
      | some files' =>
        let st3 := { st2 with files := files' }
        let st4 := dbArchive st3 p archivePath now
        let st5 := descendants.foldl (fun s pr => dbArchive s pr.1 pr.2 now) st4
        (st5, .ok ())

/-- Source `NotesApi::unarchive_note`.  Note that the target paths are
computed with `str::replace`, which substitutes every occurrence of
`"/_archive/"`, and that a path without `"/_archive/"` (in particular the
archive path of a root-level note, which starts with `"_archive/"`) is
rejected with `NotFound`. -/
def unarchiveNote (st : St) (p : String) (now : Int) : St × Except Err Unit :=
  if !strContains p "/_archive/" then (st, .error (.notFound p))
  else
    let unarchivePath := strReplaceAll p "/_archive/" "/"
    match fsReadNote st p with
    | none => (st, .error .io)
    | some content =>
      let descendants := (descendantPaths st p).map
        (fun dp => (dp, strReplaceAll dp "/_archive/" "/"))
      match moveDescendants st now descendants with
      | (st1, .error e) => (st1, .error e)
      | (st1, .ok _) =>
        let st2 := fsWriteNote st1 unarchivePath content now
        match fsDeleteDir st2.files p with
        | none => (st2, .error .io)
        | some files' =>
          let st3 := { st2 with files := files' }
          let st4 := dbUnarchive st3 p unarchivePath
          let st5 := descendants.foldl (fun s pr => dbUnarchive s pr.1 pr.2) st4
          (st5, .ok ())

/-! ## Notes API: frecency tracking -/

/-- Source `NotesApi::calculate_frecency_score`:
`count * (100 / (days_since + 1))`, zero without access history.  The source
re-reads the clock inside this function; `record_access` passes the instant it
captured, so both are the same `clockNow` here. -/
def calculateFrecencyScore (accessCount : Int) (lastAccessedAt : Option Int)
    (clockNow : Int) : Rat :=
  match lastAccessedAt with
  | none => 0
  | some lastAccessed =>
    let secondsSinceAccess : Int := max (clockNow - lastAccessed) 0
    let daysSinceAccess : Rat := (secondsSinceAccess : Rat) / 86400
    (accessCount : Rat) * (100 / (daysSinceAccess + 1))

/-- Source `NotesApi::update_frecency` in the case where the row exists: read
the current `access_count`, then update all fields (plus
`direct_access_count` when the access is direct). -/
def applyFrecency (st : St) (p : String) (accessTime : Int) (isDirect : Bool) : St :=
  match rowByPath st.rows p with
  | none => st
  | some r0 =>
    let newCount := r0.accessCount + 1
    let newScore := calculateFrecencyScore newCount (some accessTime) accessTime
    { st with rows := st.rows.map fun r =>
        if r.path = p then
          { r with accessCount := newCount, lastAccessedAt := some accessTime,
                   frecencyScore := newScore,
                   directAccessCount := r.directAccessCount + (if isDirect then 1 else 0) }
        else r }

/-- The ancestor walk of `record_access`: repeatedly apply `get_parent_path`
starting from `p`; the list holds the parents from nearest to the root.
`path.length` bounds the chain length because a parent is strictly shorter. -/
def ancestorChainFuel : Nat → String → List String
  | 0, _ => []
  | fuel + 1, cur =>
    match getParentPath cur with
    | none => []
    | some parent => parent :: ancestorChainFuel fuel parent

def ancestorChain (p : String) : List String := ancestorChainFuel p.data.length p

/-- Source `NotesApi::record_access`: update the note itself (direct), then
every ancestor whose row exists (non-direct), all with one captured `now`.
The first update fails (`QueryReturnedNoRows` → `Error::Database`) when `p`
has no row. -/
def recordAccess (st : St) (p : String) (now : Int) : St × Except Err Unit :=
  if (rowByPath st.rows p).isNone then (st, .error .database)
  else
    let st1 := applyFrecency st p now true
    let st2 := (ancestorChain p).foldl
      (fun s a => if noteExists s a then applyFrecency s a now false else s) st1
    (st2, .ok ())

/-- Source `NotesApi::get_note`: read, then record the access. -/
def getNote (st : St) (p : String) (now : Int) : St × Except Err NoteOut :=
  match getNoteInternal st p with
  | .error e => (st, .error e)
  | .ok note =>
    match recordAccess st p now with
    | (st', .ok _) => (st', .ok note)
    | (st', .error e) => (st', .error e)

/-- Source `NotesApi::save_note`: write, sync, record the access. -/
def saveNote (st : St) (p content : String) (now : Int) : St × Except Err Unit :=
  let st1 := fsWriteNote st p content now
  match syncNote st1 p with
  | (st2, .error e) => (st2, .error e)
  | (st2, .ok _) =>
    match recordAccess st2 p now with
    | (st3, .ok _) => (st3, .ok ())
    | (st3, .error e) => (st3, .error e)

/-! ## Notes API: fuzzy search -/

/-- Source: `query.replace('%', "\\%").replace('_', "\\_")`.  (The SQL
statements carry no `ESCAPE` clause, so the inserted backslashes are literal
pattern characters.) -/
def escapeLikeQuery (q : String) : String :=
  strReplaceAll (strReplaceAll q "%" "\\%") "_" "\\_"

/-- The ranking column selected by the mode. -/
def rankVal (mode : RankingMode) (r : Row) : Rat :=
  match mode with
  | .visits => (r.directAccessCount : Rat)
  | .frecency => r.frecencyScore

/-- The `CASE WHEN LOWER(path) LIKE LOWER(?1) THEN 1 WHEN ... THEN 2 ELSE 3`
match priority of `fuzzy_search`. -/
def matchPriority (prefixPattern pattern path : String) : Nat :=
  if sqlLike (sqlLower prefixPattern) (sqlLower path) then 1
  else if sqlLike (sqlLower pattern) (sqlLower path) then 2
  else 3

/-- `ORDER BY match_priority ASC, <rankcol> DESC, path ASC` as a relation on
(row, priority) pairs. -/
def fuzzyLE (mode : RankingMode) (a b : Row × Nat) : Prop :=
  a.2 < b.2 ∨
    (a.2 = b.2 ∧
      (rankVal mode b.1 < rankVal mode a.1 ∨
        (rankVal mode a.1 = rankVal mode b.1 ∧ strLe a.1.path b.1.path = true)))

instance (mode : RankingMode) : DecidableRel (fuzzyLE mode) := fun a b => by
  unfold fuzzyLE; infer_instance

def applyLimit (limit : Option Nat) (l : List NoteMetadata) : List NoteMetadata :=
  match limit with
  | none => l
  | some n => l.take n

/-- Source `NotesApi::fuzzy_search`.  In the empty-query branch the SQL has no
priority column; all pairs carry priority `0` so the order is by rank then
path, as in the source. -/
def fuzzySearch (st : St) (query : String) (limit : Option Nat)
    (rankingMode : RankingMode) : List NoteMetadata :=
  if query = "" then
    let base := (st.rows.filter (fun r => !r.archived)).map (fun r => (r, 0))
    let sorted := List.insertionSort (fuzzyLE rankingMode) base
    applyLimit limit (sorted.map (fun pr => toMeta pr.1))
  else
    let pattern := "%" ++ escapeLikeQuery query ++ "%"
    let prefixPattern := escapeLikeQuery query ++ "%"
    let cands := (st.rows.filter
        (fun r => !r.archived && sqlLike (sqlLower pattern) (sqlLower r.path))).map
      (fun r => (r, matchPriority prefixPattern pattern r.path))
    let sorted := List.insertionSort (fuzzyLE rankingMode) cands
    applyLimit limit (sorted.map (fun pr => toMeta pr.1))

/-! ## Lemmas: fuel congruence and step equations -/

theorem likeFuel_succ_nil (f : Nat) (s : List Char) : likeFuel (f + 1) [] s = s.isEmpty := rfl

theorem likeFuel_succ_pct_nil (f : Nat) (ps : List Char) :
    likeFuel (f + 1) ('%' :: ps) [] = likeFuel f ps [] := by
  simp [likeFuel]

theorem likeFuel_succ_pct_cons (f : Nat) (ps : List Char) (d : Char) (ss : List Char) :
    likeFuel (f + 1) ('%' :: ps) (d :: ss) =
      (likeFuel f ps (d :: ss) || likeFuel f ('%' :: ps) ss) := by
  simp [likeFuel]

theorem likeFuel_succ_cons_nil (f : Nat) {c : Char} (hc : c ≠ '%') (ps : List Char) :
    likeFuel (f + 1) (c :: ps) [] = false := by
  simp [likeFuel, hc]

theorem likeFuel_succ_under (f : Nat) (ps : List Char) (d : Char) (ss : List Char) :
    likeFuel (f + 1) ('_' :: ps) (d :: ss) = likeFuel f ps ss := by
  simp [likeFuel]

theorem likeFuel_succ_char (f : Nat) {c : Char} (hc : c ≠ '%') (hu : c ≠ '_')
    (ps : List Char) (d : Char) (ss : List Char) :
    likeFuel (f + 1) (c :: ps) (d :: ss) = (charLikeEq c d && likeFuel f ps ss) := by
  simp [likeFuel, hc, hu]

theorem likeFuel_congr : ∀ (f f' : Nat) (ps s : List Char),
    ps.length + s.length < f → ps.length + s.length < f' →
    likeFuel f ps s = likeFuel f' ps s := by
  intro f
  induction f with
  | zero => intro f' ps s h; omega
  | succ g ih =>
    intro f' ps s h h'
    cases f' with
    | zero => omega
    | succ g' =>
      cases ps with
      | nil => rw [likeFuel_succ_nil, likeFuel_succ_nil]
      | cons c ps' =>
        simp only [List.length_cons] at h h'
        by_cases hc : c = '%'
        · subst hc
          cases s with
          | nil =>
            rw [likeFuel_succ_pct_nil, likeFuel_succ_pct_nil]
            exact ih g' ps' [] (by simp; omega) (by simp; omega)
          | cons d ss =>
            simp only [List.length_cons] at h h'
            rw [likeFuel_succ_pct_cons, likeFuel_succ_pct_cons]
            rw [ih g' ps' (d :: ss) (by simp only [List.length_cons]; omega)
              (by simp only [List.length_cons]; omega)]
            rw [ih g' ('%' :: ps') ss (by simp only [List.length_cons]; omega)
              (by simp only [List.length_cons]; omega)]
        · cases s with
          | nil => rw [likeFuel_succ_cons_nil g hc, likeFuel_succ_cons_nil g' hc]
          | cons d ss =>
            simp only [List.length_cons] at h h'
            by_cases hu : c = '_'
            · subst hu
              rw [likeFuel_succ_under, likeFuel_succ_under]
              exact ih g' ps' ss (by omega) (by omega)
            · rw [likeFuel_succ_char g hc hu, likeFuel_succ_char g' hc hu]
              rw [ih g' ps' ss (by omega) (by omega)]

theorem likeM_nil (s : List Char) : likeM [] s = s.isEmpty := rfl

theorem likeM_pct_nil (ps : List Char) : likeM ('%' :: ps) [] = likeM ps [] := by
  show likeFuel (ps.length + 1 + [].length + 1) ('%' :: ps) [] = _
  rw [likeFuel_succ_pct_nil]
  exact likeFuel_congr (ps.length + 1 + [].length) (ps.length + [].length + 1) ps []
    (by simp) (by simp)

theorem likeM_pct_cons (ps : List Char) (d : Char) (ss : List Char) :
    likeM ('%' :: ps) (d :: ss) = (likeM ps (d :: ss) || likeM ('%' :: ps) ss) := by
  show likeFuel (ps.length + 1 + (ss.length + 1) + 1) ('%' :: ps) (d :: ss) = _
  rw [likeFuel_succ_pct_cons]
  have e1 : likeFuel (ps.length + 1 + (ss.length + 1)) ps (d :: ss) = likeM ps (d :: ss) :=
    likeFuel_congr _ (ps.length + (d :: ss).length + 1) ps (d :: ss)
      (by simp only [List.length_cons]; omega) (by simp only [List.length_cons]; omega)
  have e2 : likeFuel (ps.length + 1 + (ss.length + 1)) ('%' :: ps) ss = likeM ('%' :: ps) ss :=
    likeFuel_congr _ (('%' :: ps).length + ss.length + 1) ('%' :: ps) ss
      (by simp only [List.length_cons]; omega) (by simp only [List.length_cons]; omega)
  rw [e1, e2]

theorem likeM_cons_nil {c : Char} (hc : c ≠ '%') (ps : List Char) :
    likeM (c :: ps) [] = false := by
  show likeFuel _ _ _ = _
  exact likeFuel_succ_cons_nil _ hc ps

theorem likeM_under_cons (ps : List Char) (d : Char) (ss : List Char) :
    likeM ('_' :: ps) (d :: ss) = likeM ps ss := by
  show likeFuel (ps.length + 1 + (ss.length + 1) + 1) ('_' :: ps) (d :: ss) = _
  rw [likeFuel_succ_under]
  exact likeFuel_congr (ps.length + 1 + (ss.length + 1)) (ps.length + ss.length + 1) ps ss
    (by omega) (by omega)

theorem likeM_char_cons {c : Char} (hc : c ≠ '%') (hu : c ≠ '_') (ps : List Char)
    (d : Char) (ss : List Char) :
    likeM (c :: ps) (d :: ss) = (charLikeEq c d && likeM ps ss) := by
  show likeFuel (ps.length + 1 + (ss.length + 1) + 1) (c :: ps) (d :: ss) = _
  rw [likeFuel_succ_char _ hc hu]
  rw [likeFuel_congr (ps.length + 1 + (ss.length + 1)) (ps.length + ss.length + 1) ps ss
    (by omega) (by omega)]
  rfl

theorem replaceAllFuel_succ_nil (f : Nat) {pat : List Char} (hpat : pat ≠ [])
    (rep : List Char) : replaceAllFuel (f + 1) pat rep [] = [] := by
  have h1 : replaceAllFuel (f + 1) pat rep [] =
      if pat.isEmpty then ([] : List Char) else [] := rfl
  rw [h1, if_neg (by simp [List.isEmpty_iff, hpat])]

theorem replaceAllFuel_succ_cons (f : Nat) {pat : List Char} (hpat : pat ≠ [])
    (rep : List Char) (c : Char) (cs : List Char) :
    replaceAllFuel (f + 1) pat rep (c :: cs) =
      (if pat.isPrefixOf (c :: cs) then
        rep ++ replaceAllFuel f pat rep ((c :: cs).drop pat.length)
      else c :: replaceAllFuel f pat rep cs) := by
  have h1 : replaceAllFuel (f + 1) pat rep (c :: cs) =
      if pat.isEmpty then (c :: cs) else
        (if pat.isPrefixOf (c :: cs) then
          rep ++ replaceAllFuel f pat rep ((c :: cs).drop pat.length)
        else c :: replaceAllFuel f pat rep cs) := rfl
  rw [h1, if_neg (by simp [List.isEmpty_iff, hpat])]

theorem replaceAllFuel_congr : ∀ (f f' : Nat) (pat rep s : List Char), pat ≠ [] →
    s.length ≤ f → s.length ≤ f' →
    replaceAllFuel f pat rep s = replaceAllFuel f' pat rep s := by
  intro f
  induction f with
  | zero =>
    intro f' pat rep s hpat h h'
    have hs : s = [] := List.eq_nil_of_length_eq_zero (by omega)
    subst hs
    cases f' with
    | zero => rfl
    | succ g' => rw [replaceAllFuel_succ_nil g' hpat]; rfl
  | succ g ih =>
    intro f' pat rep s hpat h h'
    cases f' with
    | zero =>
      have hs : s = [] := List.eq_nil_of_length_eq_zero (by omega)
      subst hs
      rw [replaceAllFuel_succ_nil g hpat]; rfl
    | succ g' =>
      cases s with
      | nil => rw [replaceAllFuel_succ_nil g hpat, replaceAllFuel_succ_nil g' hpat]
      | cons c cs =>
        simp only [List.length_cons] at h h'
        have hp1 : 1 ≤ pat.length := by
          cases pat with
          | nil => exact absurd rfl hpat
          | cons a as => simp
        rw [replaceAllFuel_succ_cons g hpat, replaceAllFuel_succ_cons g' hpat]
        by_cases hpre : pat.isPrefixOf (c :: cs) = true
        · rw [if_pos hpre, if_pos hpre]
          have hdl : ((c :: cs).drop pat.length).length = cs.length + 1 - pat.length := by
            rw [List.length_drop]; simp
          rw [ih g' pat rep _ hpat (by omega) (by omega)]
        · rw [if_neg hpre, if_neg hpre]
          rw [ih g' pat rep cs hpat (by omega) (by omega)]

theorem replaceAllL_nil (pat rep : List Char) : replaceAllL pat rep [] = [] := by
  rfl

theorem replaceAllL_cons {pat : List Char} (hpat : pat ≠ []) (rep : List Char)
    (c : Char) (cs : List Char) :
    replaceAllL pat rep (c :: cs) =
      (if pat.isPrefixOf (c :: cs) then rep ++ replaceAllL pat rep ((c :: cs).drop pat.length)
       else c :: replaceAllL pat rep cs) := by
  show replaceAllFuel (cs.length + 1) pat rep (c :: cs) = _
  rw [replaceAllFuel_succ_cons cs.length hpat]
  have hp1 : 1 ≤ pat.length := by
    cases pat with
    | nil => exact absurd rfl hpat
    | cons a as => simp
  by_cases hpre : pat.isPrefixOf (c :: cs) = true
  · rw [if_pos hpre, if_pos hpre]
    have hdl : ((c :: cs).drop pat.length).length = cs.length + 1 - pat.length := by
      rw [List.length_drop]; simp
    rw [replaceAllFuel_congr cs.length ((c :: cs).drop pat.length).length pat rep _ hpat
      (by omega) (le_refl _)]
    rfl
  · rw [if_neg hpre, if_neg hpre]
    rfl

/-! ## Lemmas: characters and case folding -/

theorem charOfNat_toNat {n : Nat} (h : n < 55296) : (Char.ofNat n).toNat = n := by
  unfold Char.ofNat Char.toNat
  rw [dif_pos (Or.inl h)]
  rfl

theorem char_le_iff_toNat {a b : Char} : a ≤ b ↔ a.toNat ≤ b.toNat := by
  rw [Char.le_def]
  rfl

theorem asciiLower_toNat (c : Char) :
    (asciiLower c).toNat = if 'A' ≤ c ∧ c ≤ 'Z' then c.toNat + 32 else c.toNat := by
  unfold asciiLower
  by_cases h : 'A' ≤ c ∧ c ≤ 'Z'
  · rw [if_pos h, if_pos h]
    have hz : c.toNat ≤ 90 := char_le_iff_toNat.mp h.2
    exact charOfNat_toNat (by omega)
  · rw [if_neg h, if_neg h]

theorem asciiLower_idem (c : Char) : asciiLower (asciiLower c) = asciiLower c := by
  have hstep : ∀ x : Char, asciiLower x =
      if 'A' ≤ x ∧ x ≤ 'Z' then Char.ofNat (x.toNat + 32) else x := fun _ => rfl
  by_cases h : 'A' ≤ c ∧ c ≤ 'Z'
  · have ha : c.toNat ≥ 65 := char_le_iff_toNat.mp h.1
    have hz : c.toNat ≤ 90 := char_le_iff_toNat.mp h.2
    have hlow : (asciiLower c).toNat = c.toNat + 32 := by rw [asciiLower_toNat, if_pos h]
    have h90 : ('Z' : Char).toNat = 90 := rfl
    have hnot : ¬('A' ≤ asciiLower c ∧ asciiLower c ≤ 'Z') := by
      intro hcon
      have := char_le_iff_toNat.mp hcon.2
      omega
    rw [hstep (asciiLower c), if_neg hnot]
  · have hcc : asciiLower c = c := by rw [hstep c, if_neg h]
    rw [hcc, hcc]

theorem map_asciiLower_idem (l : List Char) :
    (l.map asciiLower).map asciiLower = l.map asciiLower := by
  rw [List.map_map]
  exact List.map_congr_left (fun c _ => asciiLower_idem c)

theorem charLikeEq_iff {a b : Char} : charLikeEq a b = true ↔ asciiLower a = asciiLower b := by
  simp [charLikeEq]

theorem charLikeEq_eq_beq (a b : Char) : charLikeEq a b = (asciiLower a == asciiLower b) := by
  by_cases h : asciiLower a = asciiLower b
  · simp [charLikeEq, h]
  · simp [charLikeEq, h]

/-! ## Lemmas: substring occurrence and replacement -/

theorem occursL_cons (pat : List Char) (c : Char) (cs : List Char) :
    occursL pat (c :: cs) = (pat.isPrefixOf (c :: cs) || occursL pat cs) := rfl

theorem occursL_of_isPrefixOf {pat s : List Char} (h : pat.isPrefixOf s = true) :
    occursL pat s = true := by
  cases s with
  | nil =>
    have : pat = [] := List.prefix_nil.mp (List.isPrefixOf_iff_prefix.mp h)
    simp [occursL, this]
  | cons c cs => simp [occursL_cons, h]

theorem occursL_append_of_right {pat b : List Char} (h : occursL pat b = true) (a : List Char) :
    occursL pat (a ++ b) = true := by
  induction a with
  | nil => simpa
  | cons c a' ih => simp [occursL_cons, ih]

theorem occursL_mid (pat a b : List Char) : occursL pat (a ++ pat ++ b) = true := by
  rw [List.append_assoc]
  exact occursL_append_of_right
    (occursL_of_isPrefixOf (List.isPrefixOf_iff_prefix.mpr (List.prefix_append pat b))) a

theorem occursL_tail_false {pat : List Char} {c : Char} {cs : List Char}
    (h : occursL pat (c :: cs) = false) : occursL pat cs = false := by
  rw [occursL_cons] at h
  exact (Bool.or_eq_false_iff.mp h).2

theorem isPrefixOf_false_of_not_occursL {pat : List Char} {c : Char} {cs : List Char}
    (h : occursL pat (c :: cs) = false) : pat.isPrefixOf (c :: cs) = false := by
  rw [occursL_cons] at h
  exact (Bool.or_eq_false_iff.mp h).1

theorem replaceAllL_of_not_occursL {pat : List Char} (rep : List Char) :
    ∀ {s : List Char}, occursL pat s = false → replaceAllL pat rep s = s := by
  intro s
  induction s with
  | nil => intro h; rfl
  | cons c cs ih =>
    intro h
    have hpat : pat ≠ [] := by
      intro he
      subst he
      simp [occursL_cons] at h
    rw [replaceAllL_cons hpat, if_neg (by simp [isPrefixOf_false_of_not_occursL h])]
    rw [ih (occursL_tail_false h)]

theorem occursL_single_false {c : Char} {s : List Char} (h : c ∉ s) :
    occursL [c] s = false := by
  induction s with
  | nil => rfl
  | cons d ds ih =>
    have hcd : c ≠ d := fun he => h (he ▸ List.mem_cons_self d ds)
    have h2 : c ∉ ds := fun hm => h (List.mem_cons_of_mem d hm)
    rw [occursL_cons, ih h2]
    simp [List.isPrefixOf, hcd]

/-! ## Lemmas: LIKE versus prefix / substring -/

theorem likeM_all_pct (s : List Char) : likeM ['%'] s = true := by
  induction s with
  | nil => rw [likeM_pct_nil]; rfl
  | cons d ss ih => rw [likeM_pct_cons, ih, Bool.or_true]

theorem likeM_append_pct {ps : List Char} (hp : '%' ∉ ps) (hu : '_' ∉ ps) :
    ∀ s : List Char, likeM (ps ++ ['%']) s = (ps.map asciiLower).isPrefixOf (s.map asciiLower) := by
  induction ps with
  | nil =>
    intro s
    rw [List.nil_append, likeM_all_pct]
    simp [List.isPrefixOf]
  | cons c ps' ih =>
    have hc : c ≠ '%' := fun he => hp (he ▸ List.mem_cons_self c ps')
    have hcu : c ≠ '_' := fun he => hu (he ▸ List.mem_cons_self c ps')
    have hp' : '%' ∉ ps' := fun hm => hp (List.mem_cons_of_mem c hm)
    have hu' : '_' ∉ ps' := fun hm => hu (List.mem_cons_of_mem c hm)
    intro s
    cases s with
    | nil =>
      rw [List.cons_append, likeM_cons_nil hc]
      simp [List.isPrefixOf]
    | cons d ss =>
      rw [List.cons_append, likeM_char_cons hc hcu, ih hp' hu' ss]
      show _ = List.isPrefixOf (asciiLower c :: ps'.map asciiLower)
        (asciiLower d :: ss.map asciiLower)
      rw [show List.isPrefixOf (asciiLower c :: ps'.map asciiLower)
          (asciiLower d :: ss.map asciiLower) =
          ((asciiLower c == asciiLower d) && (ps'.map asciiLower).isPrefixOf (ss.map asciiLower))
        from rfl]
      rw [charLikeEq_eq_beq]

theorem likeM_pct_iff (ps : List Char) :
    ∀ s : List Char, likeM ('%' :: ps) s = true ↔ ∃ k, likeM ps (s.drop k) = true := by
  intro s
  induction s with
  | nil =>
    rw [likeM_pct_nil]
    constructor
    · intro h; exact ⟨0, h⟩
    · rintro ⟨k, h⟩; simpa using h
  | cons d ss ih =>
    rw [likeM_pct_cons]
    constructor
    · intro h
      rcases Bool.or_eq_true_iff.mp h with h1 | h2
      · exact ⟨0, h1⟩
      · obtain ⟨k, hk⟩ := ih.mp h2
        exact ⟨k + 1, hk⟩
    · rintro ⟨k, hk⟩
      cases k with
      | zero => exact Bool.or_eq_true_iff.mpr (Or.inl hk)
      | succ k' => exact Bool.or_eq_true_iff.mpr (Or.inr (ih.mpr ⟨k', hk⟩))

theorem isPrefixOf_drop_iff_infix {l₁ l₂ : List Char} :
    (∃ k, l₁.isPrefixOf (l₂.drop k) = true) ↔ l₁ <:+: l₂ := by
  constructor
  · rintro ⟨k, hk⟩
    have hpre : l₁ <+: l₂.drop k := List.isPrefixOf_iff_prefix.mp hk
    exact List.infix_iff_prefix_suffix.mpr ⟨l₂.drop k, hpre, List.drop_suffix k l₂⟩
  · rintro ⟨a, b, hab⟩
    refine ⟨a.length, ?_⟩
    have : l₂.drop a.length = l₁ ++ b := by
      rw [← hab, List.append_assoc, List.drop_left]
    rw [this]
    exact List.isPrefixOf_iff_prefix.mpr (List.prefix_append l₁ b)

theorem likeM_both_pct {ps : List Char} (hp : '%' ∉ ps) (hu : '_' ∉ ps) (s : List Char) :
    likeM ('%' :: (ps ++ ['%'])) s = true ↔
      (ps.map asciiLower) <:+: (s.map asciiLower) := by
  rw [likeM_pct_iff]
  rw [← isPrefixOf_drop_iff_infix]
  constructor
  · rintro ⟨k, hk⟩
    rw [likeM_append_pct hp hu] at hk
    exact ⟨k, by rwa [List.map_drop] at hk⟩
  · rintro ⟨k, hk⟩
    refine ⟨k, ?_⟩
    rw [likeM_append_pct hp hu, List.map_drop]
    exact hk

/-! ## Lemmas: the escaped query -/

theorem escapeLikeQuery_noop {q : String} (hp : '%' ∉ q.data) (hu : '_' ∉ q.data) :
    escapeLikeQuery q = q := by
  unfold escapeLikeQuery strReplaceAll
  have h1 : replaceAllL "%".data "\\%".data q.data = q.data :=
    replaceAllL_of_not_occursL _ (occursL_single_false hp)
  have h2 : (⟨replaceAllL "%".data "\\%".data q.data⟩ : String) = q := by
    rw [h1]
  rw [h2]
  have h3 : replaceAllL "_".data "\\_".data q.data = q.data :=
    replaceAllL_of_not_occursL _ (occursL_single_false hu)
  rw [h3]

/-! ## Lemmas: the `/_archive/` marker -/

/-- The ten-character marker inserted by `archive_note` and removed (at every
occurrence) by `unarchive_note`. -/
def archPat : List Char := "/_archive/".data

theorem archPat_ne_nil : archPat ≠ [] := by decide

theorem archPat_straddle {a b : List Char} (ha : a ≠ [])
    (h : archPat.isPrefixOf (a ++ archPat ++ b) = true) :
    occursL archPat (a ++ '/' :: b) = true := by
  have hpre : archPat <+: a ++ archPat ++ b := List.isPrefixOf_iff_prefix.mp h
  have ha1 : 1 ≤ a.length := List.length_pos.mpr ha
  by_cases hm : archPat.length ≤ a.length
  · have hpa : archPat <+: a := by
      have h1 : archPat <+: a ++ (archPat ++ b) := by rwa [List.append_assoc] at hpre
      rcases List.prefix_or_prefix_of_prefix h1 (List.prefix_append a (archPat ++ b)) with hc | hc
      · exact hc
      · rw [hc.eq_of_length_le hm]
    have : archPat.isPrefixOf (a ++ '/' :: b) = true :=
      List.isPrefixOf_iff_prefix.mpr (hpa.trans (List.prefix_append a ('/' :: b)))
    exact occursL_of_isPrefixOf this
  · push_neg at hm
    have hlen10 : archPat.length = 10 := rfl
    have htake_a : a = archPat.take a.length := by
      have h1 : a <+: a ++ archPat ++ b := by
        rw [List.append_assoc]; exact List.prefix_append a (archPat ++ b)
      have h2 : archPat.take a.length <+: a ++ archPat ++ b :=
        (List.take_prefix a.length archPat).trans hpre
      have hlen : (archPat.take a.length).length = a.length := by
        rw [List.length_take]; omega
      rcases List.prefix_or_prefix_of_prefix h1 h2 with hc | hc
      · exact hc.eq_of_length_le (by omega)
      · exact (hc.eq_of_length_le (by omega)).symm
    have hdrop : archPat.drop a.length = archPat.take (10 - a.length) := by
      have he : archPat = (a ++ archPat ++ b).take archPat.length :=
        List.prefix_iff_eq_take.mp hpre
      rw [List.take_append_of_le_length (by rw [List.length_append]; omega)] at he
      rw [List.take_append_eq_append_take, List.take_of_length_le (by omega)] at he
      have hd := congrArg (List.drop a.length) he
      rw [List.drop_left] at hd
      rw [hd, hlen10]
    have hm9 : a.length = 9 := by
      have hdec : ∀ m : Nat, m < 10 → 1 ≤ m →
          (archPat.drop m = archPat.take (10 - m)) → m = 9 := by decide
      exact hdec a.length (by omega) ha1 hdrop
    have ha9 : a = "/_archive".data := by
      rw [htake_a, hm9]
      rfl
    have hfold : a ++ '/' :: b = archPat ++ b := by rw [ha9]; rfl
    rw [hfold]
    exact occursL_of_isPrefixOf
      (List.isPrefixOf_iff_prefix.mpr (List.prefix_append archPat b))

theorem replaceAll_archive : ∀ (a b : List Char),
    occursL archPat (a ++ '/' :: b) = false →
    replaceAllL archPat ['/'] (a ++ archPat ++ b) = a ++ '/' :: b := by
  intro a
  induction a with
  | nil =>
    intro b hb
    simp only [List.nil_append] at hb ⊢
    have hform : archPat ++ b = '/' :: ("_archive/".data ++ b) := rfl
    rw [hform, replaceAllL_cons archPat_ne_nil]
    have hpre : archPat.isPrefixOf ('/' :: ("_archive/".data ++ b)) = true := by
      rw [← hform]
      exact List.isPrefixOf_iff_prefix.mpr (List.prefix_append archPat b)
    rw [if_pos hpre]
    have hdrop : ('/' :: ("_archive/".data ++ b)).drop archPat.length = b := by
      rw [← hform]
      exact List.drop_left archPat b
    rw [hdrop]
    have hocc : occursL archPat b = false := occursL_tail_false hb
    rw [replaceAllL_of_not_occursL _ hocc]
    rfl
  | cons c a' ih =>
    intro b hb
    have hform : (c :: a') ++ archPat ++ b = c :: (a' ++ archPat ++ b) := rfl
    rw [hform, replaceAllL_cons archPat_ne_nil]
    by_cases hpre : archPat.isPrefixOf (c :: (a' ++ archPat ++ b)) = true
    · exfalso
      have hocc := archPat_straddle (a := c :: a') (b := b) (by simp)
        (by rw [hform]; exact hpre)
      rw [hocc] at hb
      exact absurd hb (by decide)
    · rw [if_neg hpre]
      have hb' : occursL archPat (a' ++ '/' :: b) = false := occursL_tail_false hb
      rw [ih b hb']
      rfl

/-! ## Lemmas: parent paths and ancestor chains -/

theorem dropWhile_head_false {p : α → Bool} :
    ∀ {l : List α} {x : α} {xs : List α}, l.dropWhile p = x :: xs → p x = false := by
  intro l
  induction l with
  | nil => intro x xs h; exact absurd h (by simp)
  | cons c cs ih =>
    intro x xs h
    by_cases hc : p c = true
    · rw [List.dropWhile_cons_of_pos hc] at h
      exact ih h
    · rw [List.dropWhile_cons_of_neg hc] at h
      cases h
      exact Bool.eq_false_iff.mpr (fun hcon => hc hcon)

theorem getParentPath_decomp {p par : String} (h : getParentPath p = some par) :
    p.data = par.data ++ '/' :: (lastSegment p).data ∧
      ('/' ∉ (lastSegment p).data) ∧ par.data ≠ [] := by
  unfold getParentPath at h
  cases hd : p.data.reverse.dropWhile (fun c => c ≠ '/') with
  | nil => rw [hd] at h; exact absurd h (by simp)
  | cons x rest =>
    rw [hd] at h
    have h2 : (if rest.isEmpty then none else some (⟨rest.reverse⟩ : String)) = some par := h
    by_cases hre : rest.isEmpty
    · rw [if_pos hre] at h2; exact absurd h2 (by simp)
    · rw [if_neg hre] at h2
      have hpar : par = ⟨rest.reverse⟩ := by
        cases h2; rfl
      have hx : x = '/' := by
        have := dropWhile_head_false hd
        simpa using this
      have hsplit : p.data.reverse.takeWhile (fun c => c ≠ '/') ++ (x :: rest) =
          p.data.reverse := by
        rw [← hd]; exact List.takeWhile_append_dropWhile _ _
      have hp : p.data = rest.reverse ++ '/' :: (p.data.reverse.takeWhile
          (fun c => c ≠ '/')).reverse := by
        have h1 := congrArg List.reverse hsplit
        rw [List.reverse_reverse, List.reverse_append, List.reverse_cons, hx] at h1
        conv_lhs => rw [← h1]
        rw [List.append_assoc]
        rfl
      refine ⟨?_, ?_, ?_⟩
      · rw [hpar]
        exact hp
      · show '/' ∉ (p.data.reverse.takeWhile (fun c => c ≠ '/')).reverse
        intro hm
        rw [List.mem_reverse] at hm
        have := List.mem_takeWhile_imp hm
        simp at this
      · rw [hpar]
        show rest.reverse ≠ []
        simp only [ne_eq, List.reverse_eq_nil_iff]
        intro hcon
        rw [hcon] at hre
        exact hre rfl

theorem getParentPath_str_decomp {p par : String} (h : getParentPath p = some par) :
    p = par ++ "/" ++ lastSegment p := by
  apply String.ext
  rw [String.data_append, String.data_append]
  have := (getParentPath_decomp h).1
  rw [this, List.append_assoc]
  rfl

theorem getParentPath_shorter {p par : String} (h : getParentPath p = some par) :
    par.data.length < p.data.length := by
  have := (getParentPath_decomp h).1
  rw [this, List.length_append, List.length_cons]
  omega

theorem getParentPath_empty : getParentPath "" = none := rfl

theorem getParentPath_data_nil {p : String} (h : p.data = []) : getParentPath p = none := by
  cases p with
  | mk d =>
    have hd : d = [] := h
    subst hd
    rfl

theorem ancestorChainFuel_congr : ∀ (f f' : Nat) (cur : String),
    cur.data.length ≤ f → cur.data.length ≤ f' →
    ancestorChainFuel f cur = ancestorChainFuel f' cur := by
  intro f
  induction f with
  | zero =>
    intro f' cur h h'
    have hnil : getParentPath cur = none :=
      getParentPath_data_nil (List.eq_nil_of_length_eq_zero (by omega))
    cases f' with
    | zero => rfl
    | succ g' => simp [ancestorChainFuel, hnil]
  | succ g ih =>
    intro f' cur h h'
    cases hp : getParentPath cur with
    | none =>
      cases f' with
      | zero => simp [ancestorChainFuel, hp]
      | succ g' => simp [ancestorChainFuel, hp]
    | some par =>
      have hlt := getParentPath_shorter hp
      cases f' with
      | zero => omega
      | succ g' =>
        simp only [ancestorChainFuel, hp]
        rw [ih g' par (by omega) (by omega)]

theorem ancestorChain_eq (p : String) :
    ancestorChain p =
      (match getParentPath p with
       | none => []
       | some q => q :: ancestorChain q) := by
  unfold ancestorChain
  cases hn : p.data.length with
  | zero =>
    have hnil : getParentPath p = none :=
      getParentPath_data_nil (List.eq_nil_of_length_eq_zero hn)
    simp [ancestorChainFuel, hnil]
  | succ k =>
    cases hp : getParentPath p with
    | none => simp [ancestorChainFuel, hp]
    | some q =>
      have hlt := getParentPath_shorter hp
      simp only [ancestorChainFuel, hp]
      rw [ancestorChainFuel_congr k q.data.length q (by omega) (le_refl _)]

theorem ancestorChain_length_lt :
    ∀ (n : Nat) (p : String), p.data.length ≤ n →
    ∀ a ∈ ancestorChain p, a.data.length < p.data.length := by
  intro n
  induction n with
  | zero =>
    intro p h a ha
    rw [ancestorChain_eq p,
      getParentPath_data_nil (List.eq_nil_of_length_eq_zero (by omega))] at ha
    simp at ha
  | succ k ih =>
    intro p h a ha
    rw [ancestorChain_eq p] at ha
    cases hp : getParentPath p with
    | none => rw [hp] at ha; simp at ha
    | some q =>
      rw [hp] at ha
      have hlt := getParentPath_shorter hp
      rcases List.mem_cons.mp ha with rfl | hmem
      · exact hlt
      · exact lt_trans (ih q (by omega) a hmem) hlt

theorem mem_ancestorChain_lt {p a : String} (ha : a ∈ ancestorChain p) :
    a.data.length < p.data.length :=
  ancestorChain_length_lt p.data.length p (le_refl _) a ha

theorem self_not_mem_ancestorChain (p : String) : p ∉ ancestorChain p := by
  intro h
  exact absurd (mem_ancestorChain_lt h) (lt_irrefl _)

theorem ancestorChain_nodup (p : String) : (ancestorChain p).Nodup := by
  have hpw : ∀ (n : Nat) (q : String), q.data.length ≤ n →
      (ancestorChain q).Pairwise (fun a b => b.data.length < a.data.length) := by
    intro n
    induction n with
    | zero =>
      intro q h
      rw [ancestorChain_eq q,
        getParentPath_data_nil (List.eq_nil_of_length_eq_zero (by omega))]
      exact List.Pairwise.nil
    | succ k ih =>
      intro q h
      rw [ancestorChain_eq q]
      cases hp : getParentPath q with
      | none => exact List.Pairwise.nil
      | some par =>
        have hlt := getParentPath_shorter hp
        refine List.Pairwise.cons ?_ (ih par (by omega))
        intro b hb
        exact mem_ancestorChain_lt hb
  refine List.Pairwise.imp ?_ (hpw p.data.length p (le_refl _))
  intro a b hlt
  intro he
  rw [he] at hlt
  exact lt_irrefl _ hlt

/-! ## Lemmas: filesystem and row lookups -/

theorem fsLookup_cons (f : FsFile) (fs : List FsFile) (fp' : String) :
    fsLookup (f :: fs) fp' = if f.path = fp' then some f else fsLookup fs fp' := rfl

theorem fsLookup_fsWrite (files : List FsFile) (fp c : String) (m : Int) (fp' : String) :
    fsLookup (fsWrite files fp c m) fp' =
      if fp' = fp then some ⟨fp, c, m⟩ else fsLookup files fp' := by
  induction files with
  | nil =>
    show fsLookup [⟨fp, c, m⟩] fp' = _
    rw [fsLookup_cons]
    by_cases h : fp' = fp
    · rw [if_pos h.symm, if_pos h]
    · rw [if_neg (fun hc => h hc.symm), if_neg h]
  | cons f fs ih =>
    show fsLookup (if f.path = fp then ⟨fp, c, m⟩ :: fs else f :: fsWrite fs fp c m) fp' = _
    by_cases hf : f.path = fp
    · rw [if_pos hf, fsLookup_cons]
      by_cases h : fp' = fp
      · rw [if_pos h.symm, if_pos h]
      · rw [if_neg (fun hc => h hc.symm), if_neg h, fsLookup_cons,
          if_neg (by rw [hf]; exact fun hc => h hc.symm)]
    · rw [if_neg hf, fsLookup_cons]
      by_cases hffp' : f.path = fp'
      · have h : fp' ≠ fp := fun hc => hf (hffp'.symm ▸ hc)
        rw [if_pos hffp', if_neg h, fsLookup_cons, if_pos hffp']
      · rw [if_neg hffp', ih, fsLookup_cons, if_neg hffp']

theorem fsLookup_filter_none {q : FsFile → Bool} {fp : String}
    (h : ∀ f : FsFile, f.path = fp → q f = false) (files : List FsFile) :
    fsLookup (files.filter q) fp = none := by
  induction files with
  | nil => rfl
  | cons f fs ih =>
    by_cases hq : q f = true
    · rw [List.filter_cons_of_pos hq, fsLookup_cons]
      have hne : f.path ≠ fp := fun he => by rw [h f he] at hq; cases hq
      rw [if_neg hne]
      exact ih
    · rw [List.filter_cons_of_neg (by simpa using hq)]
      exact ih

theorem fsLookup_filter_keep {q : FsFile → Bool} {fp : String}
    (h : ∀ f : FsFile, f.path = fp → q f = true) (files : List FsFile) :
    fsLookup (files.filter q) fp = fsLookup files fp := by
  induction files with
  | nil => rfl
  | cons f fs ih =>
    by_cases hq : q f = true
    · rw [List.filter_cons_of_pos hq, fsLookup_cons, fsLookup_cons]
      by_cases hf : f.path = fp
      · rw [if_pos hf, if_pos hf]
      · rw [if_neg hf, if_neg hf, ih]
    · rw [List.filter_cons_of_neg (by simpa using hq)]
      have hne : f.path ≠ fp := fun he => by rw [h f he] at hq; exact hq rfl
      rw [fsLookup_cons, if_neg hne, ih]

theorem fsLookup_none_of_none {q : FsFile → Bool} {fp : String} : ∀ {files : List FsFile},
    fsLookup files fp = none → fsLookup (files.filter q) fp = none := by
  intro files
  induction files with
  | nil => intro _; rfl
  | cons f fs ih =>
    intro h
    rw [fsLookup_cons] at h
    by_cases hf : f.path = fp
    · rw [if_pos hf] at h; cases h
    · rw [if_neg hf] at h
      by_cases hq : q f = true
      · rw [List.filter_cons_of_pos hq, fsLookup_cons, if_neg hf]
        exact ih h
      · rw [List.filter_cons_of_neg (by simpa using hq)]
        exact ih h

theorem fsLookup_isSome_of_mem {files : List FsFile} {f : FsFile} (hm : f ∈ files) :
    (fsLookup files f.path).isSome = true := by
  induction files with
  | nil => cases hm
  | cons g gs ih =>
    rw [fsLookup_cons]
    by_cases hg : g.path = f.path
    · rw [if_pos hg]; rfl
    · rw [if_neg hg]
      rcases List.mem_cons.mp hm with rfl | hmem
      · exact absurd rfl hg
      · exact ih hmem

theorem rowByPath_cons (r : Row) (rs : List Row) (p : String) :
    rowByPath (r :: rs) p = if r.path = p then some r else rowByPath rs p := rfl

theorem rowByPath_map_pathPreserving {g : Row → Row} (hg : ∀ r, (g r).path = r.path)
    (rows : List Row) (p : String) :
    rowByPath (rows.map g) p = (rowByPath rows p).map g := by
  induction rows with
  | nil => rfl
  | cons r rs ih =>
    rw [List.map_cons, rowByPath_cons, rowByPath_cons, hg]
    by_cases hr : r.path = p
    · rw [if_pos hr, if_pos hr]; rfl
    · rw [if_neg hr, if_neg hr, ih]

theorem rowByPath_append_some {rows1 rows2 : List Row} {p : String} {r : Row}
    (h : rowByPath rows1 p = some r) :
    rowByPath (rows1 ++ rows2) p = some r := by
  induction rows1 with
  | nil => cases h
  | cons r0 rs ih =>
    rw [rowByPath_cons] at h
    rw [List.cons_append, rowByPath_cons]
    by_cases hr : r0.path = p
    · rw [if_pos hr] at h ⊢; exact h
    · rw [if_neg hr] at h ⊢; exact ih h

theorem rowByPath_append_none {rows1 rows2 : List Row} {p : String}
    (h : rowByPath rows1 p = none) :
    rowByPath (rows1 ++ rows2) p = rowByPath rows2 p := by
  induction rows1 with
  | nil => rfl
  | cons r0 rs ih =>
    rw [rowByPath_cons] at h
    rw [List.cons_append, rowByPath_cons]
    by_cases hr : r0.path = p
    · rw [if_pos hr] at h; cases h
    · rw [if_neg hr] at h ⊢; exact ih h

theorem rowByPath_mem {rows : List Row} {p : String} {r : Row} :
    rowByPath rows p = some r → r ∈ rows ∧ r.path = p := by
  induction rows with
  | nil => intro h; cases h
  | cons r0 rs ih =>
    intro h
    rw [rowByPath_cons] at h
    by_cases hr : r0.path = p
    · rw [if_pos hr] at h
      cases h
      exact ⟨List.mem_cons_self _ _, hr⟩
    · rw [if_neg hr] at h
      exact ⟨List.mem_cons_of_mem _ (ih h).1, (ih h).2⟩

theorem rowByPath_none_iff {rows : List Row} {p : String} :
    rowByPath rows p = none ↔ ∀ r ∈ rows, r.path ≠ p := by
  induction rows with
  | nil => simp [rowByPath]
  | cons r0 rs ih =>
    rw [rowByPath_cons]
    by_cases hr : r0.path = p
    · rw [if_pos hr]
      simp [hr]
    · rw [if_neg hr]
      simp [hr, ih]

theorem rowByPath_eq_of_mem_nodup {rows : List Row} {r : Row}
    (hnd : (rows.map Row.path).Nodup) (hm : r ∈ rows) :
    rowByPath rows r.path = some r := by
  induction rows with
  | nil => cases hm
  | cons r0 rs ih =>
    rw [List.map_cons, List.nodup_cons] at hnd
    rw [rowByPath_cons]
    rcases List.mem_cons.mp hm with rfl | hmem
    · rw [if_pos rfl]
    · have hne : r0.path ≠ r.path := by
        intro he
        exact hnd.1 (he ▸ List.mem_map_of_mem Row.path hmem)
      rw [if_neg hne]
      exact ih hnd.2 hmem

/-! ## Lemmas: folds of per-row updates -/

theorem foldl_rows_update {α : Type} (step : α → Row → Row) (prs : List α) (st : St) :
    prs.foldl (fun s a => { s with rows := s.rows.map (step a) }) st =
      { st with rows := st.rows.map (fun r => prs.foldl (fun r a => step a r) r) } := by
  induction prs generalizing st with
  | nil =>
    cases st
    simp
  | cons a as ih =>
    rw [List.foldl_cons, ih]
    cases st
    simp only [List.map_map]
    rfl

theorem foldl_pathStep_skip {h : String × String → Row → Row} {r : Row} :
    ∀ {prs : List (String × String)}, (∀ pr ∈ prs, r.path ≠ pr.1) →
    prs.foldl (fun r pr => if r.path = pr.1 then h pr r else r) r = r := by
  intro prs
  induction prs with
  | nil => intro _; rfl
  | cons pr rest ih =>
    intro hne
    rw [List.foldl_cons, if_neg (hne pr (List.mem_cons_self _ _))]
    exact ih (fun q hq => hne q (List.mem_cons_of_mem _ hq))

theorem foldl_pathStep_hit {h : String × String → Row → Row} {r : Row}
    {pre post : List (String × String)} {o n : String}
    (hr : r.path = o)
    (hpre : ∀ pr ∈ pre, r.path ≠ pr.1)
    (hpost : ∀ pr ∈ post, (h (o, n) r).path ≠ pr.1) :
    (pre ++ (o, n) :: post).foldl (fun r pr => if r.path = pr.1 then h pr r else r) r =
      h (o, n) r := by
  rw [List.foldl_append, foldl_pathStep_skip hpre, List.foldl_cons, if_pos hr]
  exact foldl_pathStep_skip hpost

/-! ## Lemmas: the branches of `sync_note` -/

theorem syncNote_err_find {st : St} {p : String}
    (hfind : (scanAll st).find? (fun m => m.path = p) = none) :
    syncNote st p = (st, .error (.notFound p)) := by
  simp only [syncNote, hfind]

theorem syncNote_err_read {st : St} {p : String} {meta : FsNoteMeta}
    (hfind : (scanAll st).find? (fun m => m.path = p) = some meta)
    (hread : fsReadNote st p = none) :
    syncNote st p = (st, .error .io) := by
  simp only [syncNote, hfind, hread]

theorem syncNote_unchanged {st : St} {p : String} {meta : FsNoteMeta} {content : String}
    {r0 : Row}
    (hfind : (scanAll st).find? (fun m => m.path = p) = some meta)
    (hread : fsReadNote st p = some content)
    (hrow : rowByPath st.rows p = some r0)
    (hh : r0.contentHash = computeHash content) :
    syncNote st p = (st, .ok false) := by
  simp only [syncNote, hfind, hread, hrow, if_pos hh]

theorem syncNote_update {st : St} {p : String} {meta : FsNoteMeta} {content : String}
    {r0 : Row}
    (hfind : (scanAll st).find? (fun m => m.path = p) = some meta)
    (hread : fsReadNote st p = some content)
    (hrow : rowByPath st.rows p = some r0)
    (hh : ¬r0.contentHash = computeHash content) :
    syncNote st p =
      ({ st with
          rows := st.rows.map fun r =>
            if r.path = p then
              { r with mtime := meta.mtime, contentHash := computeHash content,
                       parentPath := getParentPath p }
            else r,
          fts := (st.fts.filter (fun e => e.rowid ≠ r0.id)) ++ [⟨r0.id, p, content⟩] },
        .ok true) := by
  simp only [syncNote, hfind, hread, hrow, if_neg hh]

theorem syncNote_insert {st : St} {p : String} {meta : FsNoteMeta} {content : String}
    (hfind : (scanAll st).find? (fun m => m.path = p) = some meta)
    (hread : fsReadNote st p = some content)
    (hrow : rowByPath st.rows p = none) :
    syncNote st p =
      ({ st with
          rows := st.rows ++
            [{ id := st.nextId, path := p, parentPath := getParentPath p,
               mtime := meta.mtime, contentHash := computeHash content,
               archived := false, archivedAt := none, accessCount := 0,
               directAccessCount := 0, lastAccessedAt := none, frecencyScore := 0 }],
          fts := st.fts ++ [⟨st.nextId, p, content⟩],
          nextId := st.nextId + 1 },
        .ok true) := by
  simp only [syncNote, hfind, hread, hrow]

theorem syncNote_files (st : St) (p : String) : (syncNote st p).1.files = st.files := by
  cases hfind : (scanAll st).find? (fun m => m.path = p) with
  | none => rw [syncNote_err_find hfind]
  | some meta =>
    cases hread : fsReadNote st p with
    | none => rw [syncNote_err_read hfind hread]
    | some content =>
      cases hrow : rowByPath st.rows p with
      | none => rw [syncNote_insert hfind hread hrow]
      | some r0 =>
        by_cases hh : r0.contentHash = computeHash content
        · rw [syncNote_unchanged hfind hread hrow hh]
        · rw [syncNote_update hfind hread hrow hh]

/-- C6 preliminary: a state-update inside `sync_note` leaves `scanAll` and
`fsReadNote` untouched because only `rows`, `fts`, `nextId` change. -/
theorem scanAll_eq_of_files_eq {st st' : St} (h : st'.files = st.files) :
    scanAll st' = scanAll st := by
  unfold scanAll
  rw [h]

theorem fsReadNote_eq_of_files_eq {st st' : St} (h : st'.files = st.files) (p : String) :
    fsReadNote st' p = fsReadNote st p := by
  unfold fsReadNote
  rw [h]

/-- C6: after a successful `sync_note(p)`, a second `sync_note(p)` with no
intervening filesystem change returns `changed = false` and leaves the whole
state (index row, FTS shadow, and everything else) unchanged. -/
theorem sync_note_idempotent (st st1 : St) (p : String) (b : Bool)
    (h : syncNote st p = (st1, Except.ok b)) :
    syncNote st1 p = (st1, Except.ok false) := by
  cases hfind : (scanAll st).find? (fun m => m.path = p) with
  | none => rw [syncNote_err_find hfind] at h; cases h
  | some meta =>
    cases hread : fsReadNote st p with
    | none => rw [syncNote_err_read hfind hread] at h; cases h
    | some content =>
      cases hrow : rowByPath st.rows p with
      | none =>
        rw [syncNote_insert hfind hread hrow] at h
        have hst1 : st1 = { st with
            rows := st.rows ++
              [{ id := st.nextId, path := p, parentPath := getParentPath p,
                 mtime := meta.mtime, contentHash := computeHash content,
                 archived := false, archivedAt := none, accessCount := 0,
                 directAccessCount := 0, lastAccessedAt := none, frecencyScore := 0 }],
            fts := st.fts ++ [⟨st.nextId, p, content⟩],
            nextId := st.nextId + 1 } := (congrArg Prod.fst h).symm
        have hfiles : st1.files = st.files := by rw [hst1]
        have hfind1 : (scanAll st1).find? (fun m => m.path = p) = some meta := by
          rw [scanAll_eq_of_files_eq hfiles]; exact hfind
        have hread1 : fsReadNote st1 p = some content := by
          rw [fsReadNote_eq_of_files_eq hfiles]; exact hread
        have hrow1 : rowByPath st1.rows p = some
            { id := st.nextId, path := p, parentPath := getParentPath p,
              mtime := meta.mtime, contentHash := computeHash content,
              archived := false, archivedAt := none, accessCount := 0,
              directAccessCount := 0, lastAccessedAt := none, frecencyScore := 0 } := by
          rw [hst1]
          show rowByPath (st.rows ++ [_]) p = _
          rw [rowByPath_append_none hrow, rowByPath_cons, if_pos rfl]
        exact syncNote_unchanged hfind1 hread1 hrow1 rfl
      | some r0 =>
        have hr0p : r0.path = p := (rowByPath_mem hrow).2
        by_cases hh : r0.contentHash = computeHash content
        · rw [syncNote_unchanged hfind hread hrow hh] at h
          have hst1 : st1 = st := (congrArg Prod.fst h).symm
          rw [hst1]
          exact syncNote_unchanged hfind hread hrow hh
        · rw [syncNote_update hfind hread hrow hh] at h
          have hst1 : st1 = { st with
              rows := st.rows.map fun r =>
                if r.path = p then
                  { r with mtime := meta.mtime, contentHash := computeHash content,
                           parentPath := getParentPath p }
                else r,
              fts := (st.fts.filter (fun e => e.rowid ≠ r0.id)) ++ [⟨r0.id, p, content⟩] } :=
            (congrArg Prod.fst h).symm
          have hfiles : st1.files = st.files := by rw [hst1]
          have hfind1 : (scanAll st1).find? (fun m => m.path = p) = some meta := by
            rw [scanAll_eq_of_files_eq hfiles]; exact hfind
          have hread1 : fsReadNote st1 p = some content := by
            rw [fsReadNote_eq_of_files_eq hfiles]; exact hread
          have hrow1 : rowByPath st1.rows p = some
              { r0 with mtime := meta.mtime, contentHash := computeHash content,
                        parentPath := getParentPath p } := by
            rw [hst1]
            show rowByPath (st.rows.map _) p = _
            rw [rowByPath_map_pathPreserving (fun r => by
              by_cases hr : r.path = p
              · rw [if_pos hr]
              · rw [if_neg hr]) st.rows p, hrow]
            rw [Option.map_some']
            rw [if_pos hr0p]
          exact syncNote_unchanged hfind1 hread1 hrow1 rfl

/-- Concrete one-file state used by the C6 witness. -/
def c6PreState : St := ⟨[⟨"a/_index.md", "hi", 5⟩], [], [], 1⟩

/-- The state after the first `sync_note "a"` on `c6PreState` (a fresh insert). -/
def c6PostState : St :=
  ⟨[⟨"a/_index.md", "hi", 5⟩],
   [⟨1, "a", none, 5, computeHash "hi", false, none, 0, 0, none, 0⟩],
   [⟨1, "a", "hi"⟩], 2⟩

theorem sync_note_idempotent_witness :
    syncNote c6PostState "a" = (c6PostState, Except.ok false) :=
  sync_note_idempotent c6PreState c6PostState "a" true (by decide)

/-! ## Lemmas: note paths versus index files, and the scanner -/

theorem fsIndexFile_data (p : String) (h : p ≠ "") :
    (fsIndexFile p).data = p.data ++ "/_index.md".data := by
  unfold fsIndexFile
  rw [if_neg h, String.data_append]

theorem data_ne_nil_iff {p : String} : p.data ≠ [] ↔ p ≠ "" := by
  constructor
  · intro h he
    rw [he] at h
    exact h rfl
  · intro h he
    exact h (String.ext he)

theorem notePathOf_fsIndexFile (p : String) : notePathOf (fsIndexFile p) = some p := by
  by_cases hp : p = ""
  · subst hp
    rfl
  · have hdata : (fsIndexFile p).data = p.data ++ "/_index.md".data := fsIndexFile_data p hp
    have hlen : 10 < (fsIndexFile p).data.length := by
      rw [hdata, List.length_append]
      have : p.data.length ≥ 1 := List.length_pos.mpr (data_ne_nil_iff.mpr hp)
      simp only [List.length]
      omega
    have hne : fsIndexFile p ≠ "_index.md" := by
      intro he
      have hlen2 : (fsIndexFile p).data.length = ("_index.md" : String).data.length :=
        congrArg (fun s : String => s.data.length) he
      rw [hdata, List.length_append] at hlen2
      have h1 : p.data.length ≥ 1 := List.length_pos.mpr (data_ne_nil_iff.mpr hp)
      have h2 : ("/_index.md".data).length = 10 := rfl
      have h3 : ("_index.md" : String).data.length = 9 := rfl
      rw [h2, h3] at hlen2
      omega
    unfold notePathOf
    rw [if_neg hne,
      if_pos ⟨List.isSuffixOf_iff_suffix.mpr ⟨p.data, hdata.symm⟩, hlen⟩]
    congr 1
    apply String.ext
    show ((fsIndexFile p).data.take _) = p.data
    rw [hdata, List.length_append]
    have h2 : ("/_index.md".data).length = 10 := rfl
    rw [h2]
    rw [show p.data.length + 10 - 10 = p.data.length from by omega]
    exact List.take_left p.data _

theorem notePathOf_eq_some {fp np : String} (h : notePathOf fp = some np) :
    fp = fsIndexFile np := by
  unfold notePathOf at h
  by_cases h1 : fp = "_index.md"
  · rw [if_pos h1] at h
    cases h
    exact h1
  · rw [if_neg h1] at h
    by_cases h2 : "/_index.md".data.isSuffixOf fp.data ∧ 10 < fp.data.length
    · rw [if_pos h2] at h
      obtain ⟨t, ht⟩ := List.isSuffixOf_iff_suffix.mp h2.1
      have h10 : ("/_index.md".data).length = 10 := rfl
      have htake : fp.data.take (fp.data.length - "/_index.md".data.length) = t := by
        rw [← ht, List.length_append, h10,
          show t.length + 10 - 10 = t.length from by omega]
        exact List.take_left t _
      injection h with hh
      have hnpd : np.data = t := by rw [← hh]; exact htake
      have htne : t ≠ [] := by
        intro hc
        have hl := h2.2
        rw [← ht, hc, List.nil_append, h10] at hl
        omega
      have hnpe : np ≠ "" := data_ne_nil_iff.mp (by rw [hnpd]; exact htne)
      apply String.ext
      rw [fsIndexFile_data np hnpe, hnpd, ht]
    · rw [if_neg h2] at h
      cases h

theorem scanAll_mem {st : St} {m : FsNoteMeta} (h : m ∈ scanAll st) :
    ∃ f ∈ st.files, f.path = fsIndexFile m.path ∧ m.mtime = f.mtime ∧
      backupsFree m.path = true := by
  unfold scanAll at h
  obtain ⟨f, hf, hval⟩ := List.mem_filterMap.mp h
  cases hnp : notePathOf f.path with
  | none => rw [hnp] at hval; cases hval
  | some np =>
    rw [hnp] at hval
    have hval2 : (if backupsFree np = true then some (⟨np, f.mtime⟩ : FsNoteMeta) else none) =
        some m := hval
    by_cases hb : backupsFree np = true
    · rw [if_pos hb] at hval2
      cases hval2
      exact ⟨f, hf, (notePathOf_eq_some hnp).symm ▸ rfl, rfl, hb⟩
    · rw [if_neg hb] at hval2; cases hval2

theorem scanAll_mem_of_file {st : St} {f : FsFile} (hf : f ∈ st.files) {p : String}
    (hfp : f.path = fsIndexFile p) (hb : backupsFree p = true) :
    (⟨p, f.mtime⟩ : FsNoteMeta) ∈ scanAll st := by
  unfold scanAll
  refine List.mem_filterMap.mpr ⟨f, hf, ?_⟩
  rw [hfp, notePathOf_fsIndexFile]
  show (if backupsFree p = true then some (⟨p, f.mtime⟩ : FsNoteMeta) else none) = _
  rw [if_pos hb]

theorem fsLookup_none_iff {files : List FsFile} {fp : String} :
    fsLookup files fp = none ↔ ∀ f ∈ files, f.path ≠ fp := by
  induction files with
  | nil => simp [fsLookup]
  | cons f fs ih =>
    rw [fsLookup_cons]
    by_cases hf : f.path = fp
    · rw [if_pos hf]
      simp [hf]
    · rw [if_neg hf]
      simp [hf, ih]

theorem fsWrite_of_not_mem {files : List FsFile} {fp : String}
    (h : ∀ f ∈ files, f.path ≠ fp) (c : String) (m : Int) :
    fsWrite files fp c m = files ++ [⟨fp, c, m⟩] := by
  induction files with
  | nil => rfl
  | cons f fs ih =>
    show (if f.path = fp then _ else _) = _
    rw [if_neg (h f (List.mem_cons_self _ _))]
    rw [ih (fun g hg => h g (List.mem_cons_of_mem _ hg))]
    rfl

theorem fsLookup_append_none {files1 files2 : List FsFile} {fp : String}
    (h : fsLookup files1 fp = none) :
    fsLookup (files1 ++ files2) fp = fsLookup files2 fp := by
  induction files1 with
  | nil => rfl
  | cons f fs ih =>
    rw [fsLookup_cons] at h
    rw [List.cons_append, fsLookup_cons]
    by_cases hf : f.path = fp
    · rw [if_pos hf] at h; cases h
    · rw [if_neg hf] at h ⊢
      exact ih h

theorem rowByPath_none_of_noteExists_false {st : St} {p : String}
    (h : noteExists st p = false) : rowByPath st.rows p = none := by
  unfold noteExists at h
  cases hr : rowByPath st.rows p with
  | none => rfl
  | some r => rw [hr] at h; cases h

/-! ## C7: the `create_note` contract -/

theorem createNoteInner_ok {st : St} {p : String} {now : Int} {st' : St} {note : NoteOut}
    (hrow : rowByPath st.rows p = none)
    (h : createNote.createNoteInner st p now = (st', Except.ok note)) :
    st'.files = st.files ++ [⟨fsIndexFile p, "", now⟩] ∧
    st'.rows = st.rows ++
      [⟨st.nextId, p, getParentPath p, now, computeHash "", false, none, 0, 0, none, 0⟩] ∧
    st'.fts = st.fts ++ [⟨st.nextId, p, ""⟩] ∧
    st'.nextId = st.nextId + 1 ∧
    note = ⟨st.nextId, p, "", now⟩ := by
  unfold createNote.createNoteInner at h
  by_cases hlk : (fsLookup st.files (fsIndexFile p)).isSome = true
  · rw [if_pos hlk] at h
    exact absurd (congrArg Prod.snd h) (by simp)
  · rw [if_neg hlk] at h
    have hlknone : fsLookup st.files (fsIndexFile p) = none := by
      cases hl : fsLookup st.files (fsIndexFile p) with
      | none => rfl
      | some f => rw [hl] at hlk; exact absurd rfl hlk
    have hfresh : ∀ f ∈ st.files, f.path ≠ fsIndexFile p := fsLookup_none_iff.mp hlknone
    have hfiles1 : (fsWriteNote st p "" now).files =
        st.files ++ [⟨fsIndexFile p, "", now⟩] := by
      show fsWrite st.files (fsIndexFile p) "" now = _
      exact fsWrite_of_not_mem hfresh "" now
    have h3 : (match syncNote (fsWriteNote st p "" now) p with
        | (st2, Except.error e) => (st2, Except.error e)
        | (st2, Except.ok _) =>
          match getNoteInternal st2 p with
          | Except.error e => (st2, Except.error e)
          | Except.ok n => (st2, Except.ok n)) = (st', Except.ok note) := h
    cases hsync : syncNote (fsWriteNote st p "" now) p with
    | mk st2 res =>
      cases res with
      | error e =>
        rw [hsync] at h3
        exact absurd (congrArg Prod.snd h3) (by simp)
      | ok b =>
        rw [hsync] at h3
        have h4 : (match getNoteInternal st2 p with
            | Except.error e => (st2, Except.error e)
            | Except.ok n => (st2, Except.ok n)) = (st', Except.ok note) := h3
        cases hfind : (scanAll (fsWriteNote st p "" now)).find? (fun m => m.path = p) with
        | none =>
          rw [syncNote_err_find hfind] at hsync
          exact absurd (congrArg Prod.snd hsync) (by simp)
        | some meta =>
          have hmp : meta.path = p := by simpa using List.find?_some hfind
          have hmem : meta ∈ scanAll (fsWriteNote st p "" now) :=
            List.mem_of_find?_eq_some hfind
          obtain ⟨f, hfmem, hfpath, hmt, _⟩ := scanAll_mem hmem
          rw [hmp] at hfpath
          have hfeq : f = ⟨fsIndexFile p, "", now⟩ := by
            rw [hfiles1] at hfmem
            rcases List.mem_append.mp hfmem with hin | hin
            · exact absurd hfpath (hfresh f hin)
            · simpa using hin
          have hmtime : meta.mtime = now := by rw [hmt, hfeq]
          have hread1 : fsReadNote (fsWriteNote st p "" now) p = some "" := by
            unfold fsReadNote
            rw [show (fsWriteNote st p "" now).files =
              st.files ++ [⟨fsIndexFile p, "", now⟩] from hfiles1]
            rw [fsLookup_append_none hlknone, fsLookup_cons, if_pos rfl]
            rfl
          have hrow1 : rowByPath (fsWriteNote st p "" now).rows p = none := hrow
          rw [syncNote_insert hfind hread1 hrow1] at hsync
          have hst2 : st2 = { (fsWriteNote st p "" now) with
              rows := st.rows ++
                [{ id := st.nextId, path := p, parentPath := getParentPath p,
                   mtime := meta.mtime, contentHash := computeHash "",
                   archived := false, archivedAt := none, accessCount := 0,
                   directAccessCount := 0, lastAccessedAt := none, frecencyScore := 0 }],
              fts := st.fts ++ [⟨st.nextId, p, ""⟩],
              nextId := st.nextId + 1 } := (congrArg Prod.fst hsync).symm
          have hread2 : fsReadNote st2 p = some "" := by
            rw [fsReadNote_eq_of_files_eq (by rw [hst2]) p]
            exact hread1
          have hrow2 : rowByPath st2.rows p = some
              { id := st.nextId, path := p, parentPath := getParentPath p,
                mtime := meta.mtime, contentHash := computeHash "",
                archived := false, archivedAt := none, accessCount := 0,
                directAccessCount := 0, lastAccessedAt := none, frecencyScore := 0 } := by
            rw [hst2]
            show rowByPath (st.rows ++ [_]) p = _
            rw [rowByPath_append_none hrow, rowByPath_cons, if_pos rfl]
          have hget : getNoteInternal st2 p = Except.ok
              ⟨st.nextId, p, "", meta.mtime⟩ := by
            unfold getNoteInternal
            rw [hread2, hrow2]
          rw [hget] at h4
          have hst' : st' = st2 := (congrArg Prod.fst h4).symm
          have hnote : note = ⟨st.nextId, p, "", meta.mtime⟩ := by
            have := congrArg Prod.snd h4
            simpa using this.symm
          refine ⟨?_, ?_, ?_, ?_, ?_⟩
          · rw [hst', hst2]; exact hfiles1
          · rw [hst', hst2, hmtime]
          · rw [hst', hst2]
          · rw [hst', hst2]
          · rw [hnote, hmtime]

/-- C7: `create_note(p)` fails `AlreadyExists` exactly when the index has a
row for `p`, otherwise fails `ParentNotFound` exactly when a non-empty parent
is implied and absent (both failures leave the state untouched); on success it
creates the empty file, appends the new index row and FTS entry, and returns
the new note, with every access counter and frecency field untouched (the new
row carries zeros). -/
theorem create_note_contract (st : St) (p : String) (now : Int) :
    (noteExists st p = true → createNote st p now = (st, .error (.alreadyExists p))) ∧
    (∀ q, noteExists st p = false → getParentPath p = some q → noteExists st q = false →
      createNote st p now = (st, .error (.parentNotFound q))) ∧
    (∀ st' note, createNote st p now = (st', Except.ok note) →
      st'.files = st.files ++ [⟨fsIndexFile p, "", now⟩] ∧
      st'.rows = st.rows ++
        [⟨st.nextId, p, getParentPath p, now, computeHash "", false, none, 0, 0, none, 0⟩] ∧
      st'.fts = st.fts ++ [⟨st.nextId, p, ""⟩] ∧
      st'.nextId = st.nextId + 1 ∧
      note = ⟨st.nextId, p, "", now⟩) := by
  refine ⟨?_, ?_, ?_⟩
  · intro hex
    unfold createNote
    rw [if_pos hex]
  · intro q hnex hpar hqnex
    unfold createNote
    rw [if_neg (by rw [hnex]; exact Bool.false_ne_true), hpar]
    show (if !noteExists st q then (st, Except.error (Err.parentNotFound q))
      else createNote.createNoteInner st p now) = _
    rw [hqnex]
    rfl
  · intro st' note h
    unfold createNote at h
    by_cases hex : noteExists st p = true
    · rw [if_pos hex] at h
      exact absurd (congrArg Prod.snd h) (by simp)
    · rw [if_neg hex] at h
      have hnex : noteExists st p = false := by
        cases hne : noteExists st p with
        | false => rfl
        | true => exact absurd hne hex
      have hrow : rowByPath st.rows p = none := rowByPath_none_of_noteExists_false hnex
      cases hpar : getParentPath p with
      | none =>
        rw [hpar] at h
        exact hpar ▸ createNoteInner_ok hrow h
      | some q =>
        rw [hpar] at h
        have h2 : (if !noteExists st q then (st, Except.error (Err.parentNotFound q))
            else createNote.createNoteInner st p now) = (st', Except.ok note) := h
        by_cases hq : noteExists st q = true
        · rw [hq] at h2
          exact hpar ▸ createNoteInner_ok hrow h2
        · have hqf : noteExists st q = false := by
            cases hqe : noteExists st q with
            | false => rfl
            | true => exact absurd hqe hq
          rw [hqf] at h2
          exact absurd (congrArg Prod.snd h2) (by simp)

/-- Concrete state for the C7 witness: one indexed note `parent`. -/
def c7State : St :=
  ⟨[⟨"parent/_index.md", "P", 1⟩],
   [⟨1, "parent", none, 1, computeHash "P", false, none, 0, 0, none, 0⟩],
   [⟨1, "parent", "P"⟩], 2⟩

/-- The state after `create_note "parent/kid"` on `c7State`. -/
def c7CreatedState : St :=
  ⟨[⟨"parent/_index.md", "P", 1⟩, ⟨"parent/kid/_index.md", "", 3⟩],
   [⟨1, "parent", none, 1, computeHash "P", false, none, 0, 0, none, 0⟩,
    ⟨2, "parent/kid", some "parent", 3, computeHash "", false, none, 0, 0, none, 0⟩],
   [⟨1, "parent", "P"⟩, ⟨2, "parent/kid", ""⟩], 3⟩

theorem create_note_contract_witness :
    createNote c7State "parent" 3 = (c7State, Except.error (Err.alreadyExists "parent")) ∧
    createNote c7State "q/x" 3 = (c7State, Except.error (Err.parentNotFound "q")) ∧
    c7CreatedState.rows = c7State.rows ++
      [⟨c7State.nextId, "parent/kid", getParentPath "parent/kid", 3, computeHash "",
        false, none, 0, 0, none, 0⟩] :=
  ⟨(create_note_contract c7State "parent" 3).1 (by decide),
   (create_note_contract c7State "q/x" 3).2.1 "q" (by decide) (by decide) (by decide),
   ((create_note_contract c7State "parent/kid" 3).2.2 c7CreatedState
     ⟨2, "parent/kid", "", 3⟩ (by decide)).2.1⟩

/-! ## C9: what `delete_note`'s SQL pattern really matches -/

theorem sqlLike_slash_pct {p : String} (hp : '%' ∉ p.data) (hu : '_' ∉ p.data) (q : String) :
    sqlLike (p ++ "/%") q =
      (p.data.map asciiLower ++ ['/']).isPrefixOf (q.data.map asciiLower) := by
  unfold sqlLike
  have hd : (p ++ "/%").data = (p.data ++ ['/']) ++ ['%'] := by
    rw [String.data_append, List.append_assoc]
    rfl
  rw [hd]
  rw [likeM_append_pct
    (by
      intro hm
      rcases List.mem_append.mp hm with hin | hin
      · exact hp hin
      · simp at hin)
    (by
      intro hm
      rcases List.mem_append.mp hm with hin | hin
      · exact hu hin
      · simp at hin)]
  rw [List.map_append]
  rw [show (['/'] : List Char).map asciiLower = ['/'] from by decide]

/-- C9 (amended): when `p` contains no LIKE wildcard (`%`, `_`),
`delete_note(p)` removes exactly the row whose path equals `p` (exact
comparison) together with every row whose path ASCII-case-insensitively starts
with `p ++ "/"`; all other rows survive unchanged.  (Case-variants of
descendants are removed too because SQLite `LIKE` is ASCII-case-insensitive.) -/
theorem delete_note_amended (st : St) (p : String) (st' : St)
    (hp : '%' ∉ p.data) (hu : '_' ∉ p.data)
    (h : deleteNote st p = (st', Except.ok ())) :
    st'.rows = st.rows.filter fun r =>
      !(r.path == p ||
        (p.data.map asciiLower ++ ['/']).isPrefixOf (r.path.data.map asciiLower)) := by
  unfold deleteNote at h
  cases hdel : fsDeleteDir st.files p with
  | none =>
    rw [hdel] at h
    exact absurd (congrArg Prod.snd h) (by simp)
  | some files' =>
    rw [hdel] at h
    have hst' : st' = { st with
        files := files',
        rows := st.rows.filter (fun r => !(r.path == p || sqlLike (p ++ "/%") r.path)) } :=
      (congrArg Prod.fst h).symm
    rw [hst']
    show List.filter _ st.rows = _
    apply List.filter_congr
    intro r _
    rw [sqlLike_slash_pct hp hu]

/-- Concrete state for the C9 counterexample: notes `a_c`, `abc`, `abc/x`. -/
def c9State : St :=
  ⟨[⟨"a_c/_index.md", "u", 1⟩, ⟨"abc/_index.md", "v", 1⟩, ⟨"abc/x/_index.md", "w", 1⟩],
   [⟨1, "a_c", none, 1, 0, false, none, 0, 0, none, 0⟩,
    ⟨2, "abc", none, 1, 0, false, none, 0, 0, none, 0⟩,
    ⟨3, "abc/x", some "abc", 1, 0, false, none, 0, 0, none, 0⟩],
   [], 4⟩

/-- C9 counterexample: `delete_note("a_c")` also deletes the row `abc/x`,
which is not `a_c` and not a descendant of `a_c` (its path does not extend
`a_c/`), because the `_` of `a_c` acts as a LIKE wildcard in
`path LIKE 'a_c/%'`. -/
theorem delete_note_wildcard_counterexample :
    (deleteNote c9State "a_c").2 = Except.ok () ∧
    ((deleteNote c9State "a_c").1.rows.map Row.path) = ["abc"] ∧
    strPrefixOf ("a_c" ++ "/") "abc/x" = false ∧ "abc/x" ≠ "a_c" := by decide

/-- Concrete state for the C9 witness: notes `abc`, `abc/x`, `Abc/y`, `zzz`. -/
def c9KeepState : St :=
  ⟨[⟨"abc/_index.md", "a", 1⟩, ⟨"abc/x/_index.md", "b", 1⟩,
    ⟨"Abc/y/_index.md", "c", 1⟩, ⟨"zzz/_index.md", "d", 1⟩],
   [⟨1, "abc", none, 1, 0, false, none, 0, 0, none, 0⟩,
    ⟨2, "abc/x", some "abc", 1, 0, false, none, 0, 0, none, 0⟩,
    ⟨3, "Abc/y", some "Abc", 1, 0, false, none, 0, 0, none, 0⟩,
    ⟨4, "zzz", none, 1, 0, false, none, 0, 0, none, 0⟩],
   [], 5⟩

theorem delete_note_amended_witness :
    (deleteNote c9KeepState "abc").1.rows = c9KeepState.rows.filter (fun r =>
      !(r.path == "abc" ||
        ("abc".data.map asciiLower ++ ['/']).isPrefixOf (r.path.data.map asciiLower))) :=
  delete_note_amended c9KeepState "abc" (deleteNote c9KeepState "abc").1
    (by decide) (by decide) (by decide)

/-! ## C5: the broken LIKE escaping of `fuzzy_search` -/

/-- Concrete state for C5: two non-archived notes `a%b` and `a\b`. -/
def c5State : St :=
  ⟨[⟨"a%b/_index.md", "x", 1⟩, ⟨"a\\b/_index.md", "y", 1⟩],
   [⟨1, "a%b", none, 1, 0, false, none, 0, 0, none, 0⟩,
    ⟨2, "a\\b", none, 1, 0, false, none, 0, 0, none, 0⟩],
   [], 3⟩

/-- C5: the `%`/`_` "escaping" of `fuzzy_search` prepends a backslash but the
SQL `LIKE` has no `ESCAPE` clause, so the backslash is a literal pattern
character and the `%` still a wildcard.  Searching for `a%b` therefore misses
the note whose path is literally `a%b` (it contains the query verbatim) and
instead returns `a\b` (backslash matched literally, `%` matched nothing). -/
theorem fuzzy_search_escaping_bug :
    ((fuzzySearch c5State "a%b" none RankingMode.visits).map (fun m => m.path)) = ["a\\b"] ∧
    occursL (sqlLower "a%b").data (sqlLower "a%b").data = true := by decide

/-! ## C8: note-row removal does not remove FTS shadow entries -/

/-- Concrete state for C8: one indexed note `a` with its FTS entry. -/
def c8State : St :=
  ⟨[⟨"a/_index.md", "hello", 1⟩],
   [⟨1, "a", none, 1, computeHash "hello", false, none, 0, 0, none, 0⟩],
   [⟨1, "a", "hello"⟩], 2⟩

/-- C8 counterexample: `delete_note` removes the note row but leaves its FTS
shadow entry behind as an orphan (the SQL deletes only from `notes`, never
from `notes_fts`). -/
theorem delete_note_fts_counterexample :
    (deleteNote c8State "a").2 = Except.ok () ∧
    (deleteNote c8State "a").1.rows = [] ∧
    (deleteNote c8State "a").1.fts = [⟨1, "a", "hello"⟩] := by decide

theorem syncNote_fts_ids {st : St} {p : String} {st' : St} {res : Except Err Bool}
    (h : syncNote st p = (st', res)) :
    ∀ e ∈ st.fts, ∃ e' ∈ st'.fts, e'.rowid = e.rowid := by
  intro e he
  cases hfind : (scanAll st).find? (fun m => m.path = p) with
  | none =>
    rw [syncNote_err_find hfind] at h
    injection h with h1 h2
    subst h1
    exact ⟨e, he, rfl⟩
  | some meta =>
    cases hread : fsReadNote st p with
    | none =>
      rw [syncNote_err_read hfind hread] at h
      injection h with h1 h2
      subst h1
      exact ⟨e, he, rfl⟩
    | some content =>
      cases hrow : rowByPath st.rows p with
      | none =>
        rw [syncNote_insert hfind hread hrow] at h
        injection h with h1 h2
        subst h1
        exact ⟨e, List.mem_append.mpr (Or.inl he), rfl⟩
      | some r0 =>
        by_cases hh : r0.contentHash = computeHash content
        · rw [syncNote_unchanged hfind hread hrow hh] at h
          injection h with h1 h2
          subst h1
          exact ⟨e, he, rfl⟩
        · rw [syncNote_update hfind hread hrow hh] at h
          injection h with h1 h2
          subst h1
          by_cases hid : e.rowid = r0.id
          · refine ⟨⟨r0.id, p, content⟩, ?_, hid.symm⟩
            show _ ∈ _ ++ [(⟨r0.id, p, content⟩ : FtsEntry)]
            exact List.mem_append.mpr (Or.inr (List.mem_singleton.mpr rfl))
          · refine ⟨e, ?_, rfl⟩
            show e ∈ _ ++ _
            exact List.mem_append.mpr (Or.inl (List.mem_filter.mpr ⟨he, by simpa using hid⟩))

theorem syncMany_fts_ids : ∀ (ms : List FsNoteMeta) (st st' : St) (res : Except Err Unit),
    syncMany st ms = (st', res) →
    ∀ e ∈ st.fts, ∃ e' ∈ st'.fts, e'.rowid = e.rowid := by
  intro ms
  induction ms with
  | nil =>
    intro st st' res h e he
    cases h
    exact ⟨e, he, rfl⟩
  | cons m rest ih =>
    intro st st' res h e he
    unfold syncMany at h
    cases hs : syncNote st m.path with
    | mk st1 r1 =>
      rw [hs] at h
      cases r1 with
      | ok b =>
        obtain ⟨e1, he1, hid1⟩ := syncNote_fts_ids hs e he
        obtain ⟨e2, he2, hid2⟩ := ih st1 st' res h e1 he1
        exact ⟨e2, he2, hid2.trans hid1⟩
      | error err =>
        cases h
        obtain ⟨e1, he1, hid1⟩ := syncNote_fts_ids hs e he
        exact ⟨e1, he1, hid1⟩

/-- Zeta-reduced form of `rescan`. -/
theorem rescan_eq (st : St) :
    rescan st =
      (match syncMany st (scanAll st) with
       | (st1, Except.error e) => (st1, Except.error e)
       | (st1, Except.ok _) =>
         ((st.rows.map (fun r => r.path)).foldl
           (fun s dbPath =>
             if ((scanAll st).map (fun m => m.path)).contains dbPath then s
             else { s with rows := s.rows.filter (fun r => r.path ≠ dbPath) }) st1,
          Except.ok ())) := rfl

/-- C8 (amended): `delete_note` and `trash_note` leave the FTS shadow table
completely untouched (the entries of deleted rows remain as orphans), and
`rescan`'s deletion pass never removes a shadow entry either: every FTS rowid
present before a rescan is still present after it. -/
theorem fts_shadow_not_cleaned (st : St) (p : String) :
    (∀ st', deleteNote st p = (st', Except.ok ()) → st'.fts = st.fts) ∧
    (∀ st', trashNote st p = (st', Except.ok ()) → st'.fts = st.fts) ∧
    (∀ st' res, rescan st = (st', res) →
      ∀ e ∈ st.fts, ∃ e', e' ∈ st'.fts ∧ e'.rowid = e.rowid) := by
  refine ⟨?_, ?_, ?_⟩
  · intro st' h
    unfold deleteNote at h
    cases hdel : fsDeleteDir st.files p with
    | none => rw [hdel] at h; exact absurd (congrArg Prod.snd h) (by simp)
    | some files' =>
      rw [hdel] at h
      exact congrArg (fun pr : St × Except Err Unit => pr.1.fts) h.symm
  · intro st' h
    unfold trashNote at h
    cases hdel : fsDeleteDir st.files p with
    | none => rw [hdel] at h; exact absurd (congrArg Prod.snd h) (by simp)
    | some files' =>
      rw [hdel] at h
      exact congrArg (fun pr : St × Except Err Unit => pr.1.fts) h.symm
  · intro st' res h e he
    rw [rescan_eq] at h
    cases hsm : syncMany st (scanAll st) with
    | mk st1 r1 =>
      rw [hsm] at h
      have hfold : ∀ (l : List String) (s : St),
          (l.foldl (fun s dbPath =>
            if ((scanAll st).map (fun m => m.path)).contains dbPath then s
            else { s with rows := s.rows.filter (fun r => r.path ≠ dbPath) }) s).fts =
            s.fts := by
        intro l
        induction l with
        | nil => intro s; rfl
        | cons d ds ihd =>
          intro s
          rw [List.foldl_cons]
          by_cases hc : ((scanAll st).map (fun m => m.path)).contains d = true
          · rw [if_pos hc]; exact ihd s
          · rw [if_neg hc]; exact (ihd _)
      cases r1 with
      | error err =>
        have hst' : st' = st1 := (congrArg Prod.fst h).symm
        obtain ⟨e1, he1, hid⟩ := syncMany_fts_ids (scanAll st) st st1 _ hsm e he
        exact ⟨e1, hst' ▸ he1, hid⟩
      | ok u =>
        obtain ⟨e1, he1, hid⟩ := syncMany_fts_ids (scanAll st) st st1 _ hsm e he
        have hst' : st' = (st.rows.map (fun r => r.path)).foldl
            (fun s dbPath =>
              if ((scanAll st).map (fun m => m.path)).contains dbPath then s
              else { s with rows := s.rows.filter (fun r => r.path ≠ dbPath) }) st1 :=
          (congrArg Prod.fst h).symm
        rw [hst', hfold]
        exact ⟨e1, he1, hid⟩

theorem fts_shadow_not_cleaned_witness :
    (deleteNote c8State "a").1.fts = c8State.fts ∧
    (trashNote c8State "a").1.fts = c8State.fts ∧
    (∃ e', e' ∈ (rescan c8State).1.fts ∧ e'.rowid = 1) :=
  ⟨(fts_shadow_not_cleaned c8State "a").1 (deleteNote c8State "a").1 (by decide),
   (fts_shadow_not_cleaned c8State "a").2.1 (trashNote c8State "a").1 (by decide),
   (fts_shadow_not_cleaned c8State "a").2.2 (rescan c8State).1 (rescan c8State).2
     (by decide) ⟨1, "a", "hello"⟩ (by decide)⟩

/-! ## C2: `rescan` reconciles the index with the filesystem -/

theorem contains_iff_mem {l : List String} {a : String} : l.contains a = true ↔ a ∈ l := by
  simp [List.contains]

theorem rowByPath_isSome_iff {rows : List Row} {q : String} :
    (rowByPath rows q).isSome = true ↔ ∃ r ∈ rows, r.path = q := by
  induction rows with
  | nil => simp [rowByPath]
  | cons r0 rs ih =>
    rw [rowByPath_cons]
    by_cases hr : r0.path = q
    · rw [if_pos hr]
      simp [hr]
    · rw [if_neg hr]
      simp [hr, ih]

theorem rowByPath_filter_ne (rows : List Row) (d q : String) :
    rowByPath (rows.filter (fun r => r.path ≠ d)) q =
      if q = d then none else rowByPath rows q := by
  induction rows with
  | nil => by_cases hq : q = d <;> simp [rowByPath, hq]
  | cons r0 rs ih =>
    by_cases hr : r0.path = d
    · rw [List.filter_cons_of_neg (by simp [hr])]
      rw [ih, rowByPath_cons]
      by_cases hq : q = d
      · rw [if_pos hq, if_pos hq]
      · rw [if_neg hq, if_neg hq, if_neg (by rw [hr]; exact fun he => hq he.symm)]
    · rw [List.filter_cons_of_pos (by simp [hr]), rowByPath_cons, rowByPath_cons, ih]
      by_cases hq : q = d
      · rw [if_pos hq, if_pos hq, if_neg (by rw [hq]; exact hr)]
      · rw [if_neg hq, if_neg hq]

theorem syncNote_ok_of_found {st : St} {p : String}
    (hfd : ((scanAll st).find? (fun m => m.path = p)).isSome = true)
    (hrd : (fsReadNote st p).isSome = true) :
    ∃ st' b, syncNote st p = (st', Except.ok b) ∧ st'.files = st.files ∧
      (∀ q, (rowByPath st'.rows q).isSome = true ↔
        ((rowByPath st.rows q).isSome = true ∨ q = p)) := by
  cases hfind : (scanAll st).find? (fun m => m.path = p) with
  | none => rw [hfind] at hfd; cases hfd
  | some meta =>
    cases hread : fsReadNote st p with
    | none => rw [hread] at hrd; cases hrd
    | some content =>
      cases hrow : rowByPath st.rows p with
      | none =>
        refine ⟨_, _, syncNote_insert hfind hread hrow, rfl, ?_⟩
        intro q
        show (rowByPath (st.rows ++ [_]) q).isSome = true ↔ _
        cases hq : rowByPath st.rows q with
        | some r => rw [rowByPath_append_some hq]; simp [hq]
        | none =>
          rw [rowByPath_append_none hq, rowByPath_cons]
          by_cases hqp : q = p
          · rw [if_pos (by rw [hqp])]
            simp [hqp]
          · rw [if_neg (by
              intro he
              exact hqp (by rw [← he]))]
            simp [hq, hqp, rowByPath]
      | some r0 =>
        by_cases hh : r0.contentHash = computeHash content
        · refine ⟨_, _, syncNote_unchanged hfind hread hrow hh, rfl, ?_⟩
          intro q
          constructor
          · intro hs; exact Or.inl hs
          · rintro (hs | rfl)
            · exact hs
            · rw [hrow]; rfl
        · refine ⟨_, _, syncNote_update hfind hread hrow hh, rfl, ?_⟩
          intro q
          show (rowByPath (st.rows.map _) q).isSome = true ↔ _
          rw [rowByPath_map_pathPreserving (fun r => by
            by_cases hr : r.path = p
            · rw [if_pos hr]
            · rw [if_neg hr])]
          rw [Option.isSome_map']
          constructor
          · intro hs
            exact Or.inl hs
          · rintro (hs | rfl)
            · exact hs
            · rw [hrow]; rfl

theorem syncMany_ok : ∀ (ms : List FsNoteMeta) (st : St),
    (∀ m ∈ ms, (∃ f ∈ st.files, f.path = fsIndexFile m.path) ∧ backupsFree m.path = true) →
    ∃ st1, syncMany st ms = (st1, Except.ok ()) ∧ st1.files = st.files ∧
      (∀ q, (rowByPath st1.rows q).isSome = true ↔
        ((rowByPath st.rows q).isSome = true ∨ ∃ m ∈ ms, m.path = q)) := by
  intro ms
  induction ms with
  | nil =>
    intro st _
    exact ⟨st, rfl, rfl, fun q => by simp⟩
  | cons m rest ih =>
    intro st hms
    obtain ⟨⟨f, hf, hfp⟩, hb⟩ := hms m (List.mem_cons_self _ _)
    have hscan : (⟨m.path, f.mtime⟩ : FsNoteMeta) ∈ scanAll st :=
      scanAll_mem_of_file hf hfp hb
    have hfd : ((scanAll st).find? (fun x => x.path = m.path)).isSome = true :=
      List.find?_isSome.mpr ⟨⟨m.path, f.mtime⟩, hscan, by simp⟩
    have hrd : (fsReadNote st m.path).isSome = true := by
      unfold fsReadNote
      rw [Option.isSome_map']
      have := fsLookup_isSome_of_mem hf
      rw [hfp] at this
      exact this
    obtain ⟨st1, b, hsync, hfiles, hmem⟩ := syncNote_ok_of_found hfd hrd
    obtain ⟨st2, hrest, hfiles2, hmem2⟩ := ih st1 (by
      intro m' hm'
      obtain ⟨⟨f', hf', hfp'⟩, hb'⟩ := hms m' (List.mem_cons_of_mem _ hm')
      exact ⟨⟨f', by rw [hfiles]; exact hf', hfp'⟩, hb'⟩)
    refine ⟨st2, ?_, by rw [hfiles2, hfiles], ?_⟩
    · unfold syncMany
      rw [hsync]
      exact hrest
    · intro q
      rw [hmem2 q, hmem q]
      constructor
      · rintro ((hs | rfl) | ⟨m', hm', rfl⟩)
        · exact Or.inl hs
        · exact Or.inr ⟨m, List.mem_cons_self _ _, rfl⟩
        · exact Or.inr ⟨m', List.mem_cons_of_mem _ hm', rfl⟩
      · rintro (hs | ⟨m', hm', rfl⟩)
        · exact Or.inl (Or.inl hs)
        · rcases List.mem_cons.mp hm' with rfl | hm''
          · exact Or.inl (Or.inr rfl)
          · exact Or.inr ⟨m', hm'', rfl⟩

theorem foldl_delete_mem (fsPaths : List String) :
    ∀ (l : List String) (s : St) (q : String),
    (rowByPath ((l.foldl (fun s dbPath =>
        if fsPaths.contains dbPath then s
        else { s with rows := s.rows.filter (fun r => r.path ≠ dbPath) }) s)).rows q).isSome =
        true ↔
      ((rowByPath s.rows q).isSome = true ∧ (fsPaths.contains q = true ∨ l.contains q = false)) := by
  intro l
  induction l with
  | nil =>
    intro s q
    simp
  | cons d ds ihd =>
    intro s q
    rw [List.foldl_cons]
    by_cases hc : fsPaths.contains d = true
    · rw [if_pos hc, ihd]
      by_cases hq : q = d
      · subst hq
        have hc' : q ∈ fsPaths := contains_iff_mem.mp hc
        simp [hc, hc']
      · constructor
        · rintro ⟨h1, h2⟩
          refine ⟨h1, ?_⟩
          rcases h2 with h2 | h2
          · exact Or.inl h2
          · refine Or.inr ?_
            simp [List.contains] at h2 ⊢
            exact ⟨hq, h2⟩
        · rintro ⟨h1, h2⟩
          refine ⟨h1, ?_⟩
          rcases h2 with h2 | h2
          · exact Or.inl h2
          · refine Or.inr ?_
            simp [List.contains] at h2 ⊢
            exact h2.2
    · rw [if_neg hc, ihd]
      show ((rowByPath (s.rows.filter (fun r => r.path ≠ d)) q).isSome = true ∧ _) ↔ _
      rw [rowByPath_filter_ne]
      by_cases hq : q = d
      · subst hq
        rw [if_pos rfl]
        have hc' : q ∉ fsPaths := fun hm => hc (contains_iff_mem.mpr hm)
        simp [hc, hc']
      · rw [if_neg hq]
        constructor
        · rintro ⟨h1, h2⟩
          refine ⟨h1, ?_⟩
          rcases h2 with h2 | h2
          · exact Or.inl h2
          · refine Or.inr ?_
            simp [List.contains] at h2 ⊢
            exact ⟨hq, h2⟩
        · rintro ⟨h1, h2⟩
          refine ⟨h1, ?_⟩
          rcases h2 with h2 | h2
          · exact Or.inl h2
          · refine Or.inr ?_
            simp [List.contains] at h2 ⊢
            exact h2.2

/-- C2: after `rescan` (which always succeeds in this model), a path has an
index row exactly when its directory holds an `_index.md` file that the scan
can reach, i.e. no segment of the path is the skipped directory `_backups`. -/
theorem rescan_fs_idx_iff (st st' : St) (res : Except Err Unit)
    (h : rescan st = (st', res)) :
    res = Except.ok () ∧
    ∀ p : String, ((rowByPath st'.rows p).isSome = true ↔
      ((∃ f ∈ st.files, f.path = fsIndexFile p) ∧ backupsFree p = true)) := by
  rw [rescan_eq] at h
  obtain ⟨st1, hsm, hfiles, hmem⟩ := syncMany_ok (scanAll st) st (by
    intro m hm
    obtain ⟨f, hf, hfp, _, hb⟩ := scanAll_mem hm
    exact ⟨⟨f, hf, hfp⟩, hb⟩)
  rw [hsm] at h
  have hst' : st' = (st.rows.map (fun r => r.path)).foldl
      (fun s dbPath =>
        if ((scanAll st).map (fun m => m.path)).contains dbPath then s
        else { s with rows := s.rows.filter (fun r => r.path ≠ dbPath) }) st1 :=
    (congrArg Prod.fst h).symm
  have hres : res = Except.ok () := (congrArg Prod.snd h).symm
  refine ⟨hres, ?_⟩
  intro p
  rw [hst', foldl_delete_mem, hmem]
  have hfs : (((scanAll st).map (fun m => m.path)).contains p = true) ↔
      ((∃ f ∈ st.files, f.path = fsIndexFile p) ∧ backupsFree p = true) := by
    rw [contains_iff_mem]
    constructor
    · intro hp
      obtain ⟨m, hm, hmp⟩ := List.mem_map.mp hp
      obtain ⟨f, hf, hfp, _, hb⟩ := scanAll_mem hm
      rw [hmp] at hfp hb
      exact ⟨⟨f, hf, hfp⟩, hb⟩
    · rintro ⟨⟨f, hf, hfp⟩, hb⟩
      exact List.mem_map.mpr ⟨⟨p, f.mtime⟩, scanAll_mem_of_file hf hfp hb, rfl⟩
  have hdb : ((st.rows.map (fun r => r.path)).contains p = true) ↔
      (rowByPath st.rows p).isSome = true := by
    rw [contains_iff_mem, rowByPath_isSome_iff]
    constructor
    · intro hp
      obtain ⟨r, hr, hrp⟩ := List.mem_map.mp hp
      exact ⟨r, hr, hrp⟩
    · rintro ⟨r, hr, hrp⟩
      exact List.mem_map.mpr ⟨r, hr, hrp⟩
  have hsp : (∃ m ∈ scanAll st, m.path = p) ↔
      (((scanAll st).map (fun m => m.path)).contains p = true) := by
    rw [contains_iff_mem]
    constructor
    · rintro ⟨m, hm, rfl⟩
      exact List.mem_map.mpr ⟨m, hm, rfl⟩
    · intro hp
      obtain ⟨m, hm, hmp⟩ := List.mem_map.mp hp
      exact ⟨m, hm, hmp⟩
  rw [← hfs]
  constructor
  · rintro ⟨h1 | h1, h2 | h2⟩
    · exact h2
    · exact absurd (hdb.mpr h1) (by rw [h2]; exact Bool.false_ne_true)
    · exact h2
    · exact hsp.mp h1
  · intro hp
    exact ⟨Or.inr (hsp.mpr hp), Or.inl hp⟩

/-- Concrete state for the C2 witness: the index holds a stale row `gone`
while the filesystem holds notes `kept` and `fresh` (not yet indexed) plus a
note hidden under `_backups`. -/
def c2State : St :=
  ⟨[⟨"kept/_index.md", "K", 1⟩, ⟨"fresh/_index.md", "F", 2⟩,
    ⟨"_backups/old/_index.md", "B", 3⟩],
   [⟨1, "kept", none, 1, computeHash "K", false, none, 0, 0, none, 0⟩,
    ⟨2, "gone", none, 1, computeHash "G", false, none, 0, 0, none, 0⟩],
   [⟨1, "kept", "K"⟩, ⟨2, "gone", "G"⟩], 3⟩

theorem rescan_fs_idx_iff_witness :
    (rescan c2State).2 = Except.ok () ∧
    ((rowByPath (rescan c2State).1.rows "fresh").isSome = true ↔
      ((∃ f ∈ c2State.files, f.path = fsIndexFile "fresh") ∧ backupsFree "fresh" = true)) :=
  ⟨(rescan_fs_idx_iff c2State (rescan c2State).1 (rescan c2State).2 rfl).1,
   (rescan_fs_idx_iff c2State (rescan c2State).1 (rescan c2State).2 rfl).2 "fresh"⟩

/-! ## C3: `record_access` bumps the note and each existing ancestor once -/

/-- The per-row effect of one access at time `now`: one `access_count`
increment, the direct counter bumped only for the accessed note itself, the
timestamp stamped, and the frecency score recomputed from the new count. -/
def bumpRow (now : Int) (isDirect : Bool) (r : Row) : Row :=
  { r with
      accessCount := r.accessCount + 1,
      directAccessCount := if isDirect then r.directAccessCount + 1 else r.directAccessCount,
      lastAccessedAt := some now,
      frecencyScore := calculateFrecencyScore (r.accessCount + 1) (some now) now }

theorem bumpRow_path (now : Int) (d : Bool) (r : Row) : (bumpRow now d r).path = r.path := rfl

theorem applyFrecency_none {s : St} {a : String} {now : Int} {d : Bool}
    (hrow : rowByPath s.rows a = none) : applyFrecency s a now d = s := by
  unfold applyFrecency
  rw [hrow]

theorem applyFrecency_some {s : St} {a : String} {r0 : Row} {now : Int} {d : Bool}
    (hrow : rowByPath s.rows a = some r0) :
    applyFrecency s a now d = { s with
      rows := s.rows.map fun r =>
        if r.path = a then
          { r with
              accessCount := r0.accessCount + 1,
              lastAccessedAt := some now,
              frecencyScore := calculateFrecencyScore (r0.accessCount + 1) (some now) now,
              directAccessCount := r.directAccessCount + (if d then 1 else 0) }
        else r } := by
  unfold applyFrecency
  rw [hrow]

theorem applyFrecency_nodup {s : St} {a : String} {now : Int} {d : Bool}
    (hnd : (s.rows.map Row.path).Nodup) :
    applyFrecency s a now d = { s with
      rows := s.rows.map fun r => if r.path = a then bumpRow now d r else r } := by
  cases hrow : rowByPath s.rows a with
  | none =>
    rw [applyFrecency_none hrow]
    have h1 : ∀ r ∈ s.rows, (if r.path = a then bumpRow now d r else r) = r :=
      fun r hr => if_neg (rowByPath_none_iff.mp hrow r hr)
    have hmap : (s.rows.map fun r => if r.path = a then bumpRow now d r else r) = s.rows := by
      rw [List.map_congr_left h1, List.map_id']
    rw [hmap]
  | some r0 =>
    rw [applyFrecency_some hrow]
    have hrows : (s.rows.map fun r =>
        if r.path = a then
          { r with
              accessCount := r0.accessCount + 1,
              lastAccessedAt := some now,
              frecencyScore := calculateFrecencyScore (r0.accessCount + 1) (some now) now,
              directAccessCount := r.directAccessCount + (if d then 1 else 0) }
        else r) =
        s.rows.map fun r => if r.path = a then bumpRow now d r else r := by
      refine List.map_congr_left (fun r hr => ?_)
      by_cases hp : r.path = a
      · rw [if_pos hp, if_pos hp]
        have hru : rowByPath s.rows r.path = some r := rowByPath_eq_of_mem_nodup hnd hr
        rw [hp, hrow] at hru
        injection hru with hre
        subst hre
        cases d
        · simp [bumpRow]
        · simp [bumpRow]
      · rw [if_neg hp, if_neg hp]
    rw [hrows]

theorem map_path_bump (now : Int) (d : Bool) (a : String) (rows : List Row) :
    ((rows.map fun r => if r.path = a then bumpRow now d r else r).map Row.path) =
      rows.map Row.path := by
  rw [List.map_map]
  refine List.map_congr_left (fun r _ => ?_)
  show Row.path (if r.path = a then bumpRow now d r else r) = r.path
  by_cases hp : r.path = a
  · rw [if_pos hp, bumpRow_path]
  · rw [if_neg hp]

theorem map_bump_comp (now : Int) (a : String) (as : List String) (ha : a ∉ as)
    (rows : List Row) :
    (rows.map fun r => if r.path = a then bumpRow now false r else r).map
        (fun r => if as.contains r.path then bumpRow now false r else r) =
      rows.map fun r => if (a :: as).contains r.path then bumpRow now false r else r := by
  rw [List.map_map]
  refine List.map_congr_left (fun r _ => ?_)
  show (if as.contains (if r.path = a then bumpRow now false r else r).path = true
        then bumpRow now false (if r.path = a then bumpRow now false r else r)
        else (if r.path = a then bumpRow now false r else r)) =
      (if (a :: as).contains r.path = true then bumpRow now false r else r)
  by_cases hp : r.path = a
  · rw [if_pos hp]
    rw [bumpRow_path, hp]
    have hca : as.contains a = false :=
      Bool.eq_false_iff.mpr (fun h => ha (contains_iff_mem.mp h))
    rw [hca, if_neg Bool.false_ne_true]
    have hcc : (a :: as).contains a = true := by
      simp [List.contains]
    rw [hcc, if_pos rfl]
  · rw [if_neg hp]
    have hcons : (a :: as).contains r.path = as.contains r.path := by
      simp [List.contains, hp]
    rw [hcons]

theorem foldl_bump (now : Int) : ∀ (as : List String) (s : St),
    (s.rows.map Row.path).Nodup → as.Nodup →
    as.foldl (fun s a => if noteExists s a then applyFrecency s a now false else s) s =
      { s with
        rows := s.rows.map fun r => if as.contains r.path then bumpRow now false r else r } := by
  intro as
  induction as with
  | nil =>
    intro s _ _
    show s = _
    have hmap : (s.rows.map fun r =>
        if ([] : List String).contains r.path then bumpRow now false r else r) = s.rows := by
      have h1 : ∀ r ∈ s.rows,
          (if ([] : List String).contains r.path then bumpRow now false r else r) = r :=
        fun r _ => rfl
      rw [List.map_congr_left h1, List.map_id']
    rw [hmap]
  | cons a as ih =>
    intro s hnd hndas
    rw [List.nodup_cons] at hndas
    obtain ⟨ha, has⟩ := hndas
    rw [List.foldl_cons]
    have hstep : (if noteExists s a then applyFrecency s a now false else s) =
        { s with
          rows := s.rows.map fun r => if r.path = a then bumpRow now false r else r } := by
      by_cases hne : noteExists s a = true
      · rw [if_pos hne]
        exact applyFrecency_nodup hnd
      · rw [if_neg hne]
        have hnone : rowByPath s.rows a = none := by
          unfold noteExists at hne
          cases h : rowByPath s.rows a with
          | none => rfl
          | some r => rw [h] at hne; exact absurd rfl hne
        have h1 : ∀ r ∈ s.rows, (if r.path = a then bumpRow now false r else r) = r :=
          fun r hr => if_neg (rowByPath_none_iff.mp hnone r hr)
        have hmap : (s.rows.map fun r => if r.path = a then bumpRow now false r else r) =
            s.rows := by
          rw [List.map_congr_left h1, List.map_id']
        rw [hmap]
    rw [hstep]
    have hnd2 : ((({ s with
        rows := s.rows.map fun r => if r.path = a then bumpRow now false r else r } : St)).rows.map
          Row.path).Nodup := by
      show ((s.rows.map fun r => if r.path = a then bumpRow now false r else r).map Row.path).Nodup
      rw [map_path_bump]
      exact hnd
    rw [ih _ hnd2 has]
    show ({ s with
        rows := (s.rows.map fun r => if r.path = a then bumpRow now false r else r).map
          fun r => if as.contains r.path then bumpRow now false r else r } : St) =
      { s with
        rows := s.rows.map fun r => if (a :: as).contains r.path then bumpRow now false r else r }
    rw [map_bump_comp now a as ha]

/-- C3: a recorded access at `p` (the shared path of `get_note` and
`save_note`) succeeds whenever `p` has a row, and transforms the row table
pointwise: the row at `p` gains exactly one `access_count` increment AND one
`direct_access_count` increment; every ancestor of `p` (repeated parent-path
arithmetic) whose row exists gains exactly one `access_count` increment and
keeps `direct_access_count` unchanged; both are stamped with the single
captured `now`; all other rows, the files, the shadow table and the id
counter are untouched. -/
theorem record_access_contract (st : St) (p : String) (now : Int)
    (hnd : (st.rows.map Row.path).Nodup)
    (hrow : (rowByPath st.rows p).isSome = true) :
    recordAccess st p now =
      ({ st with
          rows := st.rows.map fun r =>
            if r.path = p then bumpRow now true r
            else if (ancestorChain p).contains r.path then bumpRow now false r
            else r }, Except.ok ()) := by
  cases hr : rowByPath st.rows p with
  | none => rw [hr] at hrow; cases hrow
  | some r0 =>
    have hstep : recordAccess st p now =
        ((ancestorChain p).foldl
          (fun s a => if noteExists s a then applyFrecency s a now false else s)
          (applyFrecency st p now true), Except.ok ()) := by
      unfold recordAccess
      rw [hr]
      rfl
    rw [hstep]
    rw [applyFrecency_nodup hnd]
    have hnd1 : ((({ st with
        rows := st.rows.map fun r => if r.path = p then bumpRow now true r else r } : St)).rows.map
          Row.path).Nodup := by
      show ((st.rows.map fun r => if r.path = p then bumpRow now true r else r).map Row.path).Nodup
      rw [map_path_bump]
      exact hnd
    rw [foldl_bump now (ancestorChain p) _ hnd1 (ancestorChain_nodup p)]
    have hrows : (st.rows.map fun r => if r.path = p then bumpRow now true r else r).map
        (fun r => if (ancestorChain p).contains r.path then bumpRow now false r else r) =
        st.rows.map fun r =>
          if r.path = p then bumpRow now true r
          else if (ancestorChain p).contains r.path then bumpRow now false r
          else r := by
      rw [List.map_map]
      refine List.map_congr_left (fun r _ => ?_)
      show (if (ancestorChain p).contains
              (if r.path = p then bumpRow now true r else r).path = true
            then bumpRow now false (if r.path = p then bumpRow now true r else r)
            else (if r.path = p then bumpRow now true r else r)) =
          (if r.path = p then bumpRow now true r
           else if (ancestorChain p).contains r.path then bumpRow now false r else r)
      by_cases hp : r.path = p
      · rw [if_pos hp]
        rw [if_pos hp]
        rw [bumpRow_path, hp]
        have hcp : (ancestorChain p).contains p = false :=
          Bool.eq_false_iff.mpr (fun h => self_not_mem_ancestorChain p (contains_iff_mem.mp h))
        rw [hcp, if_neg Bool.false_ne_true]
      · rw [if_neg hp, if_neg hp]
    show ({ ({ st with
        rows := st.rows.map fun (r : Row) => if r.path = p then bumpRow now true r else r } : St) with
        rows := (st.rows.map fun (r : Row) => if r.path = p then bumpRow now true r else r).map
          fun (r : Row) => if (ancestorChain p).contains r.path then bumpRow now false r else r },
      Except.ok ()) = _
    rw [hrows]

/-- Concrete state for the C3 witness: the accessed note `a/b`, its existing
parent `a`, and an unrelated note `z`. -/
def c3State : St :=
  ⟨[⟨"a/_index.md", "A", 1⟩, ⟨"a/b/_index.md", "B", 1⟩, ⟨"z/_index.md", "Z", 1⟩],
   [⟨1, "a", none, 1, computeHash "A", false, none, 0, 0, none, 0⟩,
    ⟨2, "a/b", some "a", 1, computeHash "B", false, none, 0, 0, none, 0⟩,
    ⟨3, "z", none, 1, computeHash "Z", false, none, 0, 0, none, 0⟩],
   [], 4⟩

theorem record_access_contract_witness :
    ((c3State.rows.map Row.path).Nodup ∧ (rowByPath c3State.rows "a/b").isSome = true) ∧
    recordAccess c3State "a/b" 5 =
      ({ c3State with
          rows := c3State.rows.map fun r =>
            if r.path = "a/b" then bumpRow 5 true r
            else if (ancestorChain "a/b").contains r.path then bumpRow 5 false r
            else r }, Except.ok ()) :=
  ⟨⟨by decide, by decide⟩, record_access_contract c3State "a/b" 5 (by decide) (by decide)⟩

/-! ## C10: `rename_note` loses files that are not `_index.md` notes -/

/-- The `descendants` list captured by `rename_note` before any mutation:
each indexed descendant path paired with its note content (empty on a failed
read).  Abbreviation for the corresponding `let` in `renameNote`. -/
def descPairs (st : St) (o : String) : List (String × String) :=
  (descendantPaths st o).map fun dp => (dp, (fsReadNote st dp).getD "")

/-- The filesystem state after the regular (non-case-only) branch of
`rename_note` has written the new `_index.md` of the note and of every indexed
descendant.  Abbreviation for `st2` in `renameNote`. -/
def renameWrites (st : St) (o n : String) (now : Int) (content : String) : St :=
  (descPairs st o).foldl (fun s pr => fsWriteNote s (strReplaceFirst pr.1 o n) pr.2 now)
    (fsWriteNote st n content now)

/-- The database pass of the regular branch of `rename_note`: rename each
captured descendant row.  Abbreviation for `st5` in `renameNote`. -/
def renameDb (st : St) (o n : String) (s4 : St) : St :=
  (descPairs st o).foldl (fun s pr => dbRename s pr.1 (strReplaceFirst pr.1 o n)) s4

theorem foldl_dbRename_files {β : Type} (g1 g2 : β → String) :
    ∀ (l : List β) (s : St),
    (l.foldl (fun s b => dbRename s (g1 b) (g2 b)) s).files = s.files := by
  intro l
  induction l with
  | nil => intro s; rfl
  | cons b bs ih =>
    intro s
    rw [List.foldl_cons, ih]
    rfl

theorem renameDb_files (st : St) (o n : String) (s4 : St) :
    (renameDb st o n s4).files = s4.files :=
  foldl_dbRename_files (fun pr : String × String => pr.1)
    (fun pr : String × String => strReplaceFirst pr.1 o n) (descPairs st o) s4

theorem foldl_write_lookup {β : Type} (tgt cnt : β → String) (now : Int) :
    ∀ (l : List β) (s : St) (q : String),
    (∀ b ∈ l, q ≠ fsIndexFile (tgt b)) →
    fsLookup (l.foldl (fun s b => fsWriteNote s (tgt b) (cnt b) now) s).files q =
      fsLookup s.files q := by
  intro l
  induction l with
  | nil => intro s q _; rfl
  | cons b bs ih =>
    intro s q hq
    rw [List.foldl_cons, ih _ q (fun b' hb' => hq b' (List.mem_cons_of_mem _ hb'))]
    show fsLookup (fsWrite s.files (fsIndexFile (tgt b)) (cnt b) now) q = fsLookup s.files q
    rw [fsLookup_fsWrite, if_neg (hq b (List.mem_cons_self _ _))]

theorem strPrefixOf_self_append (a t : String) : strPrefixOf a (a ++ t) = true := by
  unfold strPrefixOf
  rw [String.data_append]
  exact List.isPrefixOf_iff_prefix.mpr (List.prefix_append _ _)

/-- Shape of a successful non-case-only `rename_note`: the read of the old
note succeeded, deleting the old directory succeeded, and the final state is
the write pass followed by the database pass. -/
theorem renameNote_ok_shape {st : St} {o n : String} {now : Int} {tmp : String} {st' : St}
    (hncase : ¬(sqlLower o = sqlLower n ∧ o ≠ n))
    (hok : renameNote st o n now tmp = (st', Except.ok ())) :
    ∃ content files',
      fsReadNote st o = some content ∧
      fsDeleteDir (renameWrites st o n now content).files o = some files' ∧
      st' = renameDb st o n
        (dbRename { renameWrites st o n now content with
          files := files' } o n) := by
  unfold renameNote at hok
  by_cases hex : noteExists st o = true
  · rw [if_neg (show ¬((!noteExists st o) = true) by rw [hex]; decide)] at hok
    have hok2 : (if ¬(sqlLower o = sqlLower n ∧ o ≠ n) ∧ noteExists st n = true then
          (st, Except.error (Err.alreadyExists n))
        else
          match fsReadNote st o with
          | none => (st, Except.error Err.io)
          | some content =>
            let descendants := (descendantPaths st o).map
              (fun dp => (dp, (fsReadNote st dp).getD ""))
            if sqlLower o = sqlLower n ∧ o ≠ n then
              let tempPath := o ++ "_temp_" ++ tmp
              let st1 := fsWriteNote st tempPath content now
              let tempDescendants := descendants.map
                (fun pr => (pr.1, strReplaceFirst pr.1 o tempPath, pr.2))
              let st2 := tempDescendants.foldl
                (fun s tr => fsWriteNote s tr.2.1 tr.2.2 now) st1
              match fsDeleteDir st2.files o with
              | none => (st2, Except.error Err.io)
              | some files' =>
                let st3 := { st2 with files := files' }
                let st4 := fsWriteNote st3 n content now
                let st5 := tempDescendants.foldl
                  (fun s tr => fsWriteNote s (strReplaceFirst tr.1 o n) tr.2.2 now) st4
                let st6 :=
                  match fsDeleteDir st5.files tempPath with
                  | none => st5
                  | some files'' => { st5 with files := files'' }
                let st7 := dbRename st6 o n
                let st8 := descendants.foldl
                  (fun s pr => dbRename s pr.1 (strReplaceFirst pr.1 o n)) st7
                (st8, Except.ok ())
            else
              let st1 := fsWriteNote st n content now
              let st2 := descendants.foldl
                (fun s pr => fsWriteNote s (strReplaceFirst pr.1 o n) pr.2 now) st1
              match fsDeleteDir st2.files o with
              | none => (st2, Except.error Err.io)
              | some files' =>
                let st3 := { st2 with files := files' }
                let st4 := dbRename st3 o n
                let st5 := descendants.foldl
                  (fun s pr => dbRename s pr.1 (strReplaceFirst pr.1 o n)) st4
                (st5, Except.ok ())) = (st', Except.ok ()) := hok
    by_cases hnew : noteExists st n = true
    · rw [if_pos ⟨hncase, hnew⟩] at hok2
      cases hok2
    · rw [if_neg (fun hc => hnew hc.2)] at hok2
      cases hread : fsReadNote st o with
      | none =>
        rw [hread] at hok2
        have hok3 : ((st, Except.error Err.io) : St × Except Err Unit) =
            (st', Except.ok ()) := hok2
        cases hok3
      | some content =>
        rw [hread] at hok2
        have hok3 : (if sqlLower o = sqlLower n ∧ o ≠ n then
              (let tempPath := o ++ "_temp_" ++ tmp
               let st1 := fsWriteNote st tempPath content now
               let tempDescendants := ((descendantPaths st o).map
                 (fun dp => (dp, (fsReadNote st dp).getD ""))).map
                   (fun pr => (pr.1, strReplaceFirst pr.1 o tempPath, pr.2))
               let st2 := tempDescendants.foldl
                 (fun s tr => fsWriteNote s tr.2.1 tr.2.2 now) st1
               match fsDeleteDir st2.files o with
               | none => (st2, Except.error Err.io)
               | some files' =>
                 let st3 := { st2 with files := files' }
                 let st4 := fsWriteNote st3 n content now
                 let st5 := tempDescendants.foldl
                   (fun s tr => fsWriteNote s (strReplaceFirst tr.1 o n) tr.2.2 now) st4
                 let st6 :=
                   match fsDeleteDir st5.files tempPath with
                   | none => st5
                   | some files'' => { st5 with files := files'' }
                 let st7 := dbRename st6 o n
                 let st8 := ((descendantPaths st o).map
                   (fun dp => (dp, (fsReadNote st dp).getD ""))).foldl
                     (fun s pr => dbRename s pr.1 (strReplaceFirst pr.1 o n)) st7
                 (st8, Except.ok ()))
            else
              match fsDeleteDir (renameWrites st o n now content).files o with
              | none => (renameWrites st o n now content, Except.error Err.io)
              | some files' =>
                (renameDb st o n
                  (dbRename { renameWrites st o n now content with
                    files := files' } o n), Except.ok ())) = (st', Except.ok ()) := hok2
        rw [if_neg hncase] at hok3
        cases hdel : fsDeleteDir (renameWrites st o n now content).files o with
        | none =>
          rw [hdel] at hok3
          have hok4 : ((renameWrites st o n now content, Except.error Err.io) :
              St × Except Err Unit) = (st', Except.ok ()) := hok3
          cases hok4
        | some files' =>
          rw [hdel] at hok3
          have hok4 : ((renameDb st o n
              (dbRename { renameWrites st o n now content with
                files := files' } o n), Except.ok ()) : St × Except Err Unit) =
              (st', Except.ok ()) := hok3
          exact ⟨content, files', rfl, hdel, (congrArg Prod.fst hok4).symm⟩
  · rw [if_pos (show (!noteExists st o) = true by
        rw [Bool.eq_false_iff.mpr hex]; decide)] at hok
    cases hok

/-- C10: a successful non-case-only `rename_note(o, n)` loses every file of
the note's directory that it does not itself recreate.  For any sub-path
`rest` (e.g. `_attachments/img`) that is not one of the `_index.md` files the
rename writes under `n`, and that did not already exist under `n`, the file is
present neither at `o ++ "/" ++ rest` nor at `n ++ "/" ++ rest` afterwards:
the rename recreates only `_index.md` note contents and then recursively
deletes the old directory, so extra files are lost rather than moved. -/
theorem rename_note_loses_extra_files (st : St) (o n : String) (now : Int)
    (tmp rest : String) (st' : St)
    (hcase : ¬(sqlLower o = sqlLower n ∧ o ≠ n))
    (hok : renameNote st o n now tmp = (st', Except.ok ()))
    (_hextra : (fsLookup st.files (o ++ "/" ++ rest)).isSome = true)
    (hq1 : n ++ "/" ++ rest ≠ fsIndexFile n)
    (hq2 : ∀ dp ∈ descendantPaths st o,
        n ++ "/" ++ rest ≠ fsIndexFile (strReplaceFirst dp o n))
    (hnew0 : fsLookup st.files (n ++ "/" ++ rest) = none) :
    fsLookup st'.files (o ++ "/" ++ rest) = none ∧
    fsLookup st'.files (n ++ "/" ++ rest) = none := by
  obtain ⟨content, files', hread, hdel, hst⟩ := renameNote_ok_shape hcase hok
  have hfiles : st'.files = files' := by
    rw [hst, renameDb_files]
    rfl
  have hWlook : fsLookup (renameWrites st o n now content).files (n ++ "/" ++ rest) = none := by
    have hfold : fsLookup (renameWrites st o n now content).files (n ++ "/" ++ rest) =
        fsLookup (fsWriteNote st n content now).files (n ++ "/" ++ rest) := by
      refine foldl_write_lookup (fun pr : String × String => strReplaceFirst pr.1 o n)
        (fun pr : String × String => pr.2) now (descPairs st o)
        (fsWriteNote st n content now) (n ++ "/" ++ rest) ?_
      intro pr hpr
      obtain ⟨dp, hdp, hpr1⟩ := List.mem_map.mp hpr
      intro he
      apply hq2 dp hdp
      rw [← hpr1] at he
      exact he
    rw [hfold]
    show fsLookup (fsWrite st.files (fsIndexFile n) content now) (n ++ "/" ++ rest) = none
    rw [fsLookup_fsWrite, if_neg hq1]
    exact hnew0
  by_cases ho : o = ""
  · have hfe : files' = [] := by
      rw [ho] at hdel
      unfold fsDeleteDir at hdel
      rw [if_pos rfl] at hdel
      injection hdel with hfe
      exact hfe.symm
    rw [hfiles, hfe]
    exact ⟨rfl, rfl⟩
  · unfold fsDeleteDir at hdel
    rw [if_neg ho] at hdel
    by_cases hany : (renameWrites st o n now content).files.any
        (fun f => strPrefixOf (o ++ "/") f.path) = true
    · rw [if_pos hany] at hdel
      injection hdel with hfe
      constructor
      · rw [hfiles, ← hfe]
        refine fsLookup_filter_none (fun f hfp => ?_) _
        rw [hfp]
        have hpre : strPrefixOf (o ++ "/") (o ++ "/" ++ rest) = true :=
          strPrefixOf_self_append (o ++ "/") rest
        rw [hpre]
        rfl
      · rw [hfiles, ← hfe]
        exact fsLookup_none_of_none hWlook
    · rw [if_neg hany] at hdel
      cases hdel

/-- Concrete state for the C10 witness: note `a` with an attachment file
`a/_attachments/img` beside its `_index.md`. -/
def c10State : St :=
  ⟨[⟨"a/_index.md", "A", 1⟩, ⟨"a/_attachments/img", "IMG", 1⟩],
   [⟨1, "a", none, 1, computeHash "A", false, none, 0, 0, none, 0⟩],
   [⟨1, "a", "A"⟩], 2⟩

theorem rename_note_loses_extra_files_witness :
    ((fsLookup c10State.files ("a" ++ "/" ++ "_attachments/img")).isSome = true ∧
      (renameNote c10State "a" "b" 7 "t").2 = Except.ok ()) ∧
    fsLookup (renameNote c10State "a" "b" 7 "t").1.files ("a" ++ "/" ++ "_attachments/img") =
        none ∧
    fsLookup (renameNote c10State "a" "b" 7 "t").1.files ("b" ++ "/" ++ "_attachments/img") =
        none :=
  ⟨⟨by decide, by decide⟩,
   rename_note_loses_extra_files c10State "a" "b" 7 "t" "_attachments/img"
     (renameNote c10State "a" "b" 7 "t").1
     (by decide) (by decide) (by decide) (by decide) (by decide) (by decide)⟩

/-! ## C4: what `fuzzy_search` returns for a non-empty query -/

/-- The spec's match priority: 1 when the lowered path starts with the lowered
query, 2 otherwise (computed only for substring matches). -/
def specPrio (q path : String) : Nat :=
  if (sqlLower q).data.isPrefixOf (sqlLower path).data then 1 else 2

/-- The spec's result order on matched rows:
`match_priority ASC, <rankcol> DESC, path ASC`. -/
def specFuzzyLE (mode : RankingMode) (q : String) (a b : Row) : Prop :=
  specPrio q a.path < specPrio q b.path ∨
    (specPrio q a.path = specPrio q b.path ∧
      (rankVal mode b < rankVal mode a ∨
        (rankVal mode a = rankVal mode b ∧ strLe a.path b.path = true)))

theorem charListLe_cons (a b : Char) (as bs : List Char) :
    charListLe (a :: as) (b :: bs) =
      if a.toNat < b.toNat then true
      else if a.toNat = b.toNat then charListLe as bs else false := rfl

theorem charListLe_total : ∀ (as bs : List Char),
    charListLe as bs = true ∨ charListLe bs as = true := by
  intro as
  induction as with
  | nil => intro bs; exact Or.inl rfl
  | cons a as ih =>
    intro bs
    cases bs with
    | nil => exact Or.inr rfl
    | cons b bs =>
      rw [charListLe_cons, charListLe_cons]
      rcases Nat.lt_trichotomy a.toNat b.toNat with h | h | h
      · rw [if_pos h]
        exact Or.inl rfl
      · rw [if_neg (by omega), if_pos h, if_neg (by omega), if_pos h.symm]
        exact ih bs
      · rw [if_neg (by omega), if_neg (by omega), if_pos h]
        exact Or.inr rfl

theorem charListLe_trans : ∀ (as bs cs : List Char),
    charListLe as bs = true → charListLe bs cs = true → charListLe as cs = true := by
  intro as
  induction as with
  | nil => intro bs cs _ _; rfl
  | cons a as ih =>
    intro bs cs hab hbc
    cases bs with
    | nil => cases hab
    | cons b bs =>
      cases cs with
      | nil => cases hbc
      | cons c cs =>
        rw [charListLe_cons] at hab hbc ⊢
        by_cases h1 : a.toNat < b.toNat
        · by_cases h2 : b.toNat < c.toNat
          · rw [if_pos (by omega)]
          · rw [if_neg h2] at hbc
            by_cases h3 : b.toNat = c.toNat
            · rw [if_pos (by omega)]
            · rw [if_neg h3] at hbc
              cases hbc
        · rw [if_neg h1] at hab
          by_cases h4 : a.toNat = b.toNat
          · rw [if_pos h4] at hab
            by_cases h2 : b.toNat < c.toNat
            · rw [if_pos (by omega)]
            · rw [if_neg h2] at hbc
              by_cases h3 : b.toNat = c.toNat
              · rw [if_pos h3] at hbc
                rw [if_neg (by omega), if_pos (by omega)]
                exact ih bs cs hab hbc
              · rw [if_neg h3] at hbc
                cases hbc
          · rw [if_neg h4] at hab
            cases hab

instance fuzzyLE_isTotal (mode : RankingMode) : IsTotal (Row × Nat) (fuzzyLE mode) := by
  constructor
  intro a b
  unfold fuzzyLE
  rcases Nat.lt_trichotomy a.2 b.2 with h | h | h
  · exact Or.inl (Or.inl h)
  · rcases lt_trichotomy (rankVal mode a.1) (rankVal mode b.1) with hr | hr | hr
    · exact Or.inr (Or.inr ⟨h.symm, Or.inl hr⟩)
    · rcases charListLe_total a.1.path.data b.1.path.data with hs | hs
      · exact Or.inl (Or.inr ⟨h, Or.inr ⟨hr, hs⟩⟩)
      · exact Or.inr (Or.inr ⟨h.symm, Or.inr ⟨hr.symm, hs⟩⟩)
    · exact Or.inl (Or.inr ⟨h, Or.inl hr⟩)
  · exact Or.inr (Or.inl h)

instance fuzzyLE_isTrans (mode : RankingMode) : IsTrans (Row × Nat) (fuzzyLE mode) := by
  constructor
  intro a b c hab hbc
  unfold fuzzyLE at hab hbc ⊢
  rcases hab with h1 | ⟨h1, h2⟩
  · rcases hbc with h3 | ⟨h3, _⟩
    · exact Or.inl (h1.trans h3)
    · exact Or.inl (h3 ▸ h1)
  · rcases hbc with h3 | ⟨h3, h4⟩
    · exact Or.inl (h1 ▸ h3)
    · refine Or.inr ⟨h1.trans h3, ?_⟩
      rcases h2 with hr1 | ⟨hr1, hs1⟩
      · rcases h4 with hr2 | ⟨hr2, _⟩
        · exact Or.inl (hr2.trans hr1)
        · exact Or.inl (hr2 ▸ hr1)
      · rcases h4 with hr2 | ⟨hr2, hs2⟩
        · exact Or.inl (hr1 ▸ hr2)
        · exact Or.inr ⟨hr1.trans hr2, charListLe_trans _ _ _ hs1 hs2⟩

theorem asciiLower_ne_special {c w : Char}
    (hw : w.toNat < 65 ∨ 90 < w.toNat ∧ w.toNat < 97) (hc : c ≠ w) : asciiLower c ≠ w := by
  intro h
  by_cases hupp : 'A' ≤ c ∧ c ≤ 'Z'
  · have ht : (asciiLower c).toNat = w.toNat := congrArg Char.toNat h
    rw [asciiLower_toNat, if_pos hupp] at ht
    have hca : 65 ≤ c.toNat := by
      have h65 : ('A' : Char).toNat = 65 := rfl
      rw [← h65]
      exact char_le_iff_toNat.mp hupp.1
    have hcz : c.toNat ≤ 90 := by
      have h90 : ('Z' : Char).toNat = 90 := rfl
      rw [← h90]
      exact char_le_iff_toNat.mp hupp.2
    omega
  · have hlow : asciiLower c = c := by
      unfold asciiLower
      rw [if_neg hupp]
    rw [hlow] at h
    exact hc h

theorem pct_not_mem_lower {q : String} (hp : '%' ∉ q.data) :
    '%' ∉ q.data.map asciiLower := by
  intro hm
  obtain ⟨c, hcq, hce⟩ := List.mem_map.mp hm
  exact asciiLower_ne_special (by decide) (fun he => hp (by rw [← he]; exact hcq)) hce

theorem under_not_mem_lower {q : String} (hu : '_' ∉ q.data) :
    '_' ∉ q.data.map asciiLower := by
  intro hm
  obtain ⟨c, hcq, hce⟩ := List.mem_map.mp hm
  exact asciiLower_ne_special (by decide) (fun he => hu (by rw [← he]; exact hcq)) hce

theorem occursL_iff_infix {pat : List Char} : ∀ {s : List Char},
    occursL pat s = true ↔ pat <:+: s := by
  intro s
  induction s with
  | nil =>
    show pat.isEmpty = true ↔ pat <:+: []
    cases pat with
    | nil => simp
    | cons c cs => simp [List.isEmpty]
  | cons c cs ih =>
    show (pat.isPrefixOf (c :: cs) || occursL pat cs) = true ↔ pat <:+: c :: cs
    rw [Bool.or_eq_true_iff, ih, List.isPrefixOf_iff_prefix, List.infix_cons_iff]

theorem bool_eq_of_iff {a b : Bool} (h : a = true ↔ b = true) : a = b := by
  cases a with
  | true => exact (h.mp rfl).symm
  | false =>
    cases hb : b with
    | true => exact absurd (h.mpr hb) (by decide)
    | false => rfl

theorem sqlLike_both_pct_eq_contains {q path : String}
    (hp : '%' ∉ q.data) (hu : '_' ∉ q.data) :
    sqlLike (sqlLower ("%" ++ q ++ "%")) (sqlLower path) =
      strContains (sqlLower path) (sqlLower q) := by
  apply bool_eq_of_iff
  show likeM (("%" ++ q ++ "%").data.map asciiLower) (path.data.map asciiLower) = true ↔
    occursL (q.data.map asciiLower) (path.data.map asciiLower) = true
  have hdata : ("%" ++ q ++ "%").data.map asciiLower =
      '%' :: ((q.data.map asciiLower) ++ ['%']) := by
    rw [String.data_append, String.data_append, List.map_append, List.map_append]
    rfl
  rw [hdata, likeM_both_pct (pct_not_mem_lower hp) (under_not_mem_lower hu),
    map_asciiLower_idem, map_asciiLower_idem, occursL_iff_infix]

theorem sqlLike_prefix_pct_eq_isPrefixOf {q path : String}
    (hp : '%' ∉ q.data) (hu : '_' ∉ q.data) :
    sqlLike (sqlLower (q ++ "%")) (sqlLower path) =
      (q.data.map asciiLower).isPrefixOf (path.data.map asciiLower) := by
  show likeM ((q ++ "%").data.map asciiLower) (path.data.map asciiLower) = _
  have hdata : (q ++ "%").data.map asciiLower = (q.data.map asciiLower) ++ ['%'] := by
    rw [String.data_append, List.map_append]
    rfl
  rw [hdata, likeM_append_pct (pct_not_mem_lower hp) (under_not_mem_lower hu),
    map_asciiLower_idem, map_asciiLower_idem]

theorem matchPriority_eq_specPrio {q path : String}
    (hp : '%' ∉ q.data) (hu : '_' ∉ q.data)
    (hsub : strContains (sqlLower path) (sqlLower q) = true) :
    matchPriority (q ++ "%") ("%" ++ q ++ "%") path = specPrio q path := by
  unfold matchPriority specPrio
  show _ = if (q.data.map asciiLower).isPrefixOf (path.data.map asciiLower) = true then 1 else 2
  rw [sqlLike_prefix_pct_eq_isPrefixOf hp hu, sqlLike_both_pct_eq_contains hp hu, hsub]
  by_cases hpre : (q.data.map asciiLower).isPrefixOf (path.data.map asciiLower) = true
  · rw [if_pos hpre, if_pos hpre]
  · rw [if_neg hpre, if_pos rfl, if_neg hpre]

/-- The candidate list built by the non-empty-query branch of `fuzzy_search`:
non-archived rows whose lowered path matches the substring pattern, paired
with their match priority. -/
def fuzzyCands (st : St) (q : String) : List (Row × Nat) :=
  (st.rows.filter (fun r => !r.archived &&
      sqlLike (sqlLower ("%" ++ escapeLikeQuery q ++ "%")) (sqlLower r.path))).map
    (fun r => (r, matchPriority (escapeLikeQuery q ++ "%")
      ("%" ++ escapeLikeQuery q ++ "%") r.path))

theorem fuzzySearch_nonempty (st : St) (q : String) (mode : RankingMode) (hq : q ≠ "") :
    fuzzySearch st q none mode =
      (List.insertionSort (fuzzyLE mode) (fuzzyCands st q)).map (fun pr => toMeta pr.1) := by
  unfold fuzzySearch
  rw [if_neg hq]
  rfl

/-- Concrete state refuting C4 as stated: the note `a_b` is non-archived and
its path contains the query `a_b` verbatim, yet `fuzzy_search` excludes it. -/
def c4BugState : St :=
  ⟨[⟨"a_b/_index.md", "C", 1⟩],
   [⟨1, "a_b", none, 1, 7, false, none, 0, 0, none, 0⟩], [⟨1, "a_b", "C"⟩], 2⟩

/-- C4 counterexample: for the query `a_b` (which contains `_`), the note at
path `a_b` case-insensitively contains the query, is not archived, and yet is
not returned: the escaped pattern `%a\_b%` demands a literal backslash because
the SQL carries no `ESCAPE` clause, so the claim's "returns exactly the
non-archived notes whose path case-insensitively contains the query" fails
for queries holding `%` or `_`. -/
theorem fuzzy_search_exact_counterexample :
    (∃ r ∈ c4BugState.rows, r.archived = false ∧
      strContains (sqlLower r.path) (sqlLower "a_b") = true) ∧
    fuzzySearch c4BugState "a_b" none RankingMode.visits = [] := by decide

/-- C4 (amended: queries free of the LIKE wildcards `%` and `_`, no row
limit): `fuzzy_search` returns exactly the non-archived rows whose lowered
path contains the lowered query — as a permutation witnessing row list `rs`
mapped through the metadata projection — and `rs` is pairwise ordered by the
spec's order: match priority ascending (1 for lowered-prefix matches, 2 for
other substring matches), then the mode's ranking column descending, then
path ascending; in particular every prefix match precedes every non-prefix
substring match. -/
theorem fuzzy_search_amended (st : St) (q : String) (mode : RankingMode)
    (hq : q ≠ "") (hp : '%' ∉ q.data) (hu : '_' ∉ q.data) :
    ∃ rs : List Row,
      fuzzySearch st q none mode = rs.map toMeta ∧
      List.Perm rs (st.rows.filter fun r =>
        !r.archived && strContains (sqlLower r.path) (sqlLower q)) ∧
      rs.Pairwise (specFuzzyLE mode q) := by
  have hcands : fuzzyCands st q =
      (st.rows.filter (fun r => !r.archived &&
          sqlLike (sqlLower ("%" ++ q ++ "%")) (sqlLower r.path))).map
        (fun r => (r, matchPriority (q ++ "%") ("%" ++ q ++ "%") r.path)) := by
    unfold fuzzyCands
    rw [escapeLikeQuery_noop hp hu]
  refine ⟨(List.insertionSort (fuzzyLE mode) (fuzzyCands st q)).map Prod.fst, ?_, ?_, ?_⟩
  · rw [fuzzySearch_nonempty st q mode hq, List.map_map]
    rfl
  · have hperm : List.Perm
        ((List.insertionSort (fuzzyLE mode) (fuzzyCands st q)).map Prod.fst)
        ((fuzzyCands st q).map Prod.fst) :=
      (List.perm_insertionSort _ _).map Prod.fst
    have hcm : (fuzzyCands st q).map Prod.fst =
        st.rows.filter fun r =>
          !r.archived && strContains (sqlLower r.path) (sqlLower q) := by
      rw [hcands, List.map_map]
      have h1 : ∀ r ∈ st.rows.filter (fun r => !r.archived &&
          sqlLike (sqlLower ("%" ++ q ++ "%")) (sqlLower r.path)),
          (Prod.fst ∘ fun r => (r, matchPriority (q ++ "%") ("%" ++ q ++ "%") r.path)) r = r :=
        fun r _ => rfl
      rw [List.map_congr_left h1, List.map_id']
      exact List.filter_congr fun r _ => by
        rw [sqlLike_both_pct_eq_contains hp hu]
    rw [← hcm]
    exact hperm
  · have hprio : ∀ pr : Row × Nat, pr ∈ fuzzyCands st q →
        pr.2 = specPrio q pr.1.path := by
      intro pr hpr
      rw [hcands] at hpr
      obtain ⟨r, hr, hre⟩ := List.mem_map.mp hpr
      have hrf := List.mem_filter.mp hr
      have h2 := hrf.2
      rw [Bool.and_eq_true] at h2
      have hsub : strContains (sqlLower r.path) (sqlLower q) = true := by
        rw [← sqlLike_both_pct_eq_contains hp hu]
        exact h2.2
      rw [← hre]
      show matchPriority (q ++ "%") ("%" ++ q ++ "%") r.path = specPrio q r.path
      exact matchPriority_eq_specPrio hp hu hsub
    refine List.pairwise_map.mpr ?_
    have hsort : List.Sorted (fuzzyLE mode)
        (List.insertionSort (fuzzyLE mode) (fuzzyCands st q)) :=
      List.sorted_insertionSort _ _
    refine hsort.imp_of_mem ?_
    intro a b ha hb hab
    have hpa : a.2 = specPrio q a.1.path :=
      hprio a ((List.mem_insertionSort _).mp ha)
    have hpb : b.2 = specPrio q b.1.path :=
      hprio b ((List.mem_insertionSort _).mp hb)
    unfold fuzzyLE at hab
    unfold specFuzzyLE
    rw [← hpa, ← hpb]
    exact hab

/-- Concrete state for the C4 witness: the spec's scenario with notes `a`,
`a-b` and `x/a`. -/
def c4State : St :=
  ⟨[⟨"a/_index.md", "A", 1⟩, ⟨"a-b/_index.md", "B", 1⟩, ⟨"x/a/_index.md", "X", 1⟩],
   [⟨1, "a", none, 1, 7, false, none, 3, 2, some 1, 0⟩,
    ⟨2, "a-b", none, 1, 8, false, none, 1, 1, some 1, 0⟩,
    ⟨3, "x/a", some "x", 1, 9, false, none, 5, 4, some 1, 0⟩], [], 4⟩

theorem fuzzy_search_amended_witness :
    (("a" : String) ≠ "" ∧ '%' ∉ ("a" : String).data ∧ '_' ∉ ("a" : String).data) ∧
    ∃ rs : List Row,
      fuzzySearch c4State "a" none RankingMode.visits = rs.map toMeta ∧
      List.Perm rs (c4State.rows.filter fun r =>
        !r.archived && strContains (sqlLower r.path) (sqlLower "a")) ∧
      rs.Pairwise (specFuzzyLE RankingMode.visits "a") :=
  ⟨⟨by decide, by decide, by decide⟩,
   fuzzy_search_amended c4State "a" RankingMode.visits (by decide) (by decide) (by decide)⟩

/-! ## C1: archive / unarchive round trip -/

theorem snoc_inj_right {α : Type} {l₁ l₂ : List α} {a b : α} (h : l₁ ++ [a] = l₂ ++ [b]) :
    a = b := by
  have hlen : l₁.length = l₂.length := by
    have := congrArg List.length h
    simp at this
    omega
  have h2 : [a] = [b] := List.append_inj_right h hlen
  cases h2
  rfl

theorem strPrefixOf_iff {a b : String} : strPrefixOf a b = true ↔ a.data <+: b.data := by
  unfold strPrefixOf
  exact List.isPrefixOf_iff_prefix

theorem not_prefix_append_of_incomp {x y : List Char} (hxy : ¬ x <+: y) (hyx : ¬ y <+: x)
    (t : List Char) : ¬ x <+: (y ++ t) := fun hx =>
  (List.prefix_or_prefix_of_prefix hx (List.prefix_append y t)).elim hxy hyx

theorem strPrefixOf_exists_suffix {a b : String} (h : strPrefixOf a b = true) :
    ∃ t : String, b = a ++ t := by
  obtain ⟨rest, hrest⟩ := strPrefixOf_iff.mp h
  refine ⟨⟨rest⟩, ?_⟩
  apply String.ext
  rw [String.data_append, ← hrest]

theorem fsLookup_mem : ∀ {files : List FsFile} {q : String} {f : FsFile},
    fsLookup files q = some f → f ∈ files ∧ f.path = q := by
  intro files
  induction files with
  | nil => intro q f h; cases h
  | cons g gs ih =>
    intro q f h
    rw [fsLookup_cons] at h
    by_cases hg : g.path = q
    · rw [if_pos hg] at h
      cases h
      exact ⟨List.mem_cons_self _ _, hg⟩
    · rw [if_neg hg] at h
      exact ⟨List.mem_cons_of_mem _ (ih h).1, (ih h).2⟩

theorem foldl_fsWriteNote_rows {β : Type} (tgt cnt : β → String) (now : Int) :
    ∀ (l : List β) (s : St),
    (l.foldl (fun s b => fsWriteNote s (tgt b) (cnt b) now) s).rows = s.rows := by
  intro l
  induction l with
  | nil => intro s; rfl
  | cons b bs ih =>
    intro s
    rw [List.foldl_cons, ih]
    rfl

theorem foldl_write_lookup_hit {β : Type} (tgt cnt : β → String) (now : Int) :
    ∀ (l : List β) (s : St) (b : β), b ∈ l →
    (l.map (fun b' => fsIndexFile (tgt b'))).Nodup →
    fsLookup (l.foldl (fun s b' => fsWriteNote s (tgt b') (cnt b') now) s).files
        (fsIndexFile (tgt b)) =
      some ⟨fsIndexFile (tgt b), cnt b, now⟩ := by
  intro l
  induction l with
  | nil => intro s b hb; cases hb
  | cons b0 bs ih =>
    intro s b hb hnd
    rw [List.map_cons, List.nodup_cons] at hnd
    rw [List.foldl_cons]
    rcases List.mem_cons.mp hb with rfl | hbs
    · have hmiss : ∀ b' ∈ bs, fsIndexFile (tgt b) ≠ fsIndexFile (tgt b') := by
        intro b' hb' he
        exact hnd.1 (he ▸ List.mem_map_of_mem (fun b'' => fsIndexFile (tgt b'')) hb')
      rw [foldl_write_lookup tgt cnt now bs _ _ hmiss]
      show fsLookup (fsWrite s.files (fsIndexFile (tgt b)) (cnt b) now) (fsIndexFile (tgt b)) = _
      rw [fsLookup_fsWrite, if_pos rfl]
    · exact ih _ b hbs hnd.2

/-- `move_descendants` succeeds and is the fold of the writes, provided every
old location is readable and no write target clashes with an old location. -/
theorem moveDescendants_ok : ∀ (l : List (String × String)) (st : St) (now : Int),
    (∀ pr ∈ l, (fsReadNote st pr.1).isSome = true) →
    (∀ pr ∈ l, ∀ pr' ∈ l, fsIndexFile pr'.2 ≠ fsIndexFile pr.1) →
    moveDescendants st now l =
      (l.foldl (fun s pr => fsWriteNote s pr.2 ((fsReadNote st pr.1).getD "") now) st,
        Except.ok ()) := by
  intro l
  induction l with
  | nil => intro st now _ _; rfl
  | cons pr rest ih =>
    intro st now hread hnc
    cases hr : fsReadNote st pr.1 with
    | none =>
      have := hread pr (List.mem_cons_self _ _)
      rw [hr] at this
      cases this
    | some c =>
      show (match fsReadNote st pr.1 with
        | none => (st, Except.error Err.io)
        | some c => moveDescendants (fsWriteNote st pr.2 c now) now rest) = _
      rw [hr]
      have hpres : ∀ pr' ∈ rest,
          fsReadNote (fsWriteNote st pr.2 c now) pr'.1 = fsReadNote st pr'.1 := by
        intro pr' hpr'
        show ((fsLookup (fsWrite st.files (fsIndexFile pr.2) c now) (fsIndexFile pr'.1)).map
          (fun f => f.content)) = _
        rw [fsLookup_fsWrite,
          if_neg (fun he =>
            hnc pr' (List.mem_cons_of_mem _ hpr') pr (List.mem_cons_self _ _) he.symm)]
        rfl
      show moveDescendants (fsWriteNote st pr.2 c now) now rest = _
      rw [ih (fsWriteNote st pr.2 c now) now
        (fun pr' hpr' => by
          rw [hpres pr' hpr']
          exact hread pr' (List.mem_cons_of_mem _ hpr'))
        (fun pr' hpr' pr'' hpr'' =>
          hnc pr' (List.mem_cons_of_mem _ hpr') pr'' (List.mem_cons_of_mem _ hpr''))]
      rw [List.foldl_cons]
      have hfold : rest.foldl
          (fun s pr' => fsWriteNote s pr'.2
            ((fsReadNote (fsWriteNote st pr.2 c now) pr'.1).getD "") now)
          (fsWriteNote st pr.2 c now) =
          rest.foldl
          (fun s pr' => fsWriteNote s pr'.2 ((fsReadNote st pr'.1).getD "") now)
          (fsWriteNote st pr.2 ((fsReadNote st pr.1).getD "") now) := by
        rw [hr]
        show rest.foldl _ (fsWriteNote st pr.2 c now) =
          rest.foldl _ (fsWriteNote st pr.2 ((some c).getD "") now)
        have hcongr : ∀ (l' : List (String × String)) (s : St),
            (∀ pr' ∈ l', fsReadNote (fsWriteNote st pr.2 c now) pr'.1 = fsReadNote st pr'.1) →
            l'.foldl (fun s pr' => fsWriteNote s pr'.2
              ((fsReadNote (fsWriteNote st pr.2 c now) pr'.1).getD "") now) s =
            l'.foldl (fun s pr' => fsWriteNote s pr'.2
              ((fsReadNote st pr'.1).getD "") now) s := by
          intro l'
          induction l' with
          | nil => intro s _; rfl
          | cons x xs ihx =>
            intro s hx
            rw [List.foldl_cons, List.foldl_cons, hx x (List.mem_cons_self _ _),
              ihx _ (fun y hy => hx y (List.mem_cons_of_mem _ hy))]
        exact hcongr rest _ hpres
      rw [hfold]

theorem replaceFirstL_pref {pat : List Char} (rep s : List Char) (hp : pat ≠ []) :
    replaceFirstL pat rep (pat ++ s) = rep ++ s := by
  cases pat with
  | nil => exact absurd rfl hp
  | cons c cs =>
    show replaceFirstL (c :: cs) rep (c :: (cs ++ s)) = rep ++ s
    unfold replaceFirstL
    rw [show (c :: (cs ++ s)) = (c :: cs) ++ s from rfl]
    rw [if_pos (List.isPrefixOf_iff_prefix.mpr (List.prefix_append (c :: cs) s)), List.drop_left]

theorem strReplaceFirst_pref {p A t : String} (hp : p.data ≠ []) :
    strReplaceFirst (p ++ "/" ++ t) p A = A ++ "/" ++ t := by
  apply String.ext
  show replaceFirstL p.data A.data (p ++ "/" ++ t).data = (A ++ "/" ++ t).data
  rw [String.data_append, String.data_append, String.data_append, String.data_append,
    List.append_assoc]
  rw [replaceFirstL_pref _ _ hp, List.append_assoc]

theorem archivePathOf_eq {p par : String} (hpar : getParentPath p = some par) :
    archivePathOf p = par ++ "/_archive/" ++ lastSegment p := by
  unfold archivePathOf
  rw [hpar]

theorem archivePathOf_data {p par : String} (hpar : getParentPath p = some par) :
    (archivePathOf p).data = par.data ++ archPat ++ (lastSegment p).data := by
  rw [archivePathOf_eq hpar, String.data_append, String.data_append]
  rfl

theorem archivePathOf_length {p par : String} (hpar : getParentPath p = some par) :
    (archivePathOf p).data.length = p.data.length + 9 := by
  have h10 : archPat.length = 10 := by decide
  rw [archivePathOf_data hpar, (getParentPath_decomp hpar).1, List.length_append,
    List.length_append, List.length_append, List.length_cons, h10]
  omega

theorem p_ne_empty {p par : String} (hpar : getParentPath p = some par) : p ≠ "" := by
  apply data_ne_nil_iff.mp
  rw [(getParentPath_decomp hpar).1]
  intro h
  cases List.append_eq_nil.mp h with
  | intro h1 h2 => cases h2

theorem archivePathOf_ne_empty {p par : String} (hpar : getParentPath p = some par) :
    archivePathOf p ≠ "" := by
  apply data_ne_nil_iff.mp
  intro h
  have := congrArg List.length h
  rw [archivePathOf_length hpar] at this
  simp at this

theorem not_mem_archivePath {p par : String} {c : Char} (hpar : getParentPath p = some par)
    (hc : c ∉ p.data) (hca : c ∉ archPat) : c ∉ (archivePathOf p).data := by
  rw [archivePathOf_data hpar]
  intro hm
  have hp' := (getParentPath_decomp hpar).1
  rcases List.mem_append.mp hm with hm1 | hm2
  · rcases List.mem_append.mp hm1 with hm3 | hm4
    · exact hc (by rw [hp']; exact List.mem_append.mpr (Or.inl hm3))
    · exact hca hm4
  · exact hc (by
      rw [hp']
      exact List.mem_append.mpr (Or.inr (List.mem_cons_of_mem _ hm2)))

theorem sqlLike_slash_self_false {x : String} (hq : '%' ∉ x.data) (hu : '_' ∉ x.data) :
    sqlLike (x ++ "/%") x = false := by
  rw [sqlLike_slash_pct hq hu]
  cases h : (x.data.map asciiLower ++ ['/']).isPrefixOf (x.data.map asciiLower) with
  | false => rfl
  | true =>
    have hpre := (List.isPrefixOf_iff_prefix.mp h).length_le
    rw [List.length_append] at hpre
    simp at hpre

theorem sqlLike_slash_prefix_true {x : String} (hq : '%' ∉ x.data) (hu : '_' ∉ x.data)
    (t : String) : sqlLike (x ++ "/%") (x ++ "/" ++ t) = true := by
  rw [sqlLike_slash_pct hq hu]
  have hslash : ("/" : String).data.map asciiLower = ['/'] := by decide
  have hd : (x ++ "/" ++ t).data.map asciiLower =
      (x.data.map asciiLower ++ ['/']) ++ t.data.map asciiLower := by
    rw [String.data_append, String.data_append, List.map_append, List.map_append, hslash]
  rw [hd]
  exact List.isPrefixOf_iff_prefix.mpr (List.prefix_append _ _)

theorem fsIndexFile_eq_append {x : String} (hx : x ≠ "") :
    fsIndexFile x = (x ++ "/") ++ "_index.md" := by
  apply String.ext
  rw [fsIndexFile_data x hx, String.data_append, String.data_append, List.append_assoc]
  rfl

theorem fsIndexFile_inj {a b : String} (ha : a ≠ "") (hb : b ≠ "")
    (h : fsIndexFile a = fsIndexFile b) : a = b := by
  have hd : a.data ++ "/_index.md".data = b.data ++ "/_index.md".data := by
    rw [← fsIndexFile_data a ha, ← fsIndexFile_data b hb, h]
  apply String.ext
  exact List.append_cancel_right hd

theorem filter_of_map {α β : Type} (f : α → β) (q : β → Bool) :
    ∀ l : List α, (l.map f).filter q = (l.filter (fun x => q (f x))).map f := by
  intro l
  induction l with
  | nil => rfl
  | cons x xs ih =>
    rw [List.map_cons]
    simp only [List.filter_cons]
    by_cases hq : q (f x) = true
    · rw [if_pos hq, if_pos hq, List.map_cons, ih]
    · rw [if_neg hq, if_neg hq, ih]

theorem foldl_files_invariant {β : Type} (step : St → β → St)
    (hstep : ∀ s b, (step s b).files = s.files) :
    ∀ (l : List β) (s : St), (l.foldl step s).files = s.files := by
  intro l
  induction l with
  | nil => intro s; rfl
  | cons b bs ih =>
    intro s
    rw [List.foldl_cons, ih, hstep]

/-- Shape of a successful `archive_note`: read, move pass, archive write,
delete of the old directory, then the two database passes. -/
theorem archiveNote_shape {st : St} {p : String} {now : Int} {content : String}
    {st1 : St} {files' : List FsFile}
    (hread : fsReadNote st p = some content)
    (hmv : moveDescendants st now ((descendantPaths st p).map
      (fun dp => (dp, strReplaceFirst dp p (archivePathOf p)))) = (st1, Except.ok ()))
    (hdel : fsDeleteDir (fsWriteNote st1 (archivePathOf p) content now).files p =
      some files') :
    archiveNote st p now =
      (((descendantPaths st p).map
          (fun dp => (dp, strReplaceFirst dp p (archivePathOf p)))).foldl
        (fun s pr => dbArchive s pr.1 pr.2 now)
        (dbArchive { fsWriteNote st1 (archivePathOf p) content now with
          files := files' } p (archivePathOf p) now),
       Except.ok ()) := by
  unfold archiveNote
  rw [hread]
  show (match moveDescendants st now ((descendantPaths st p).map
      (fun dp => (dp, strReplaceFirst dp p (archivePathOf p)))) with
    | (st1', Except.error e) => (st1', Except.error e)
    | (st1', Except.ok _) =>
      match fsDeleteDir (fsWriteNote st1' (archivePathOf p) content now).files p with
      | none => (fsWriteNote st1' (archivePathOf p) content now, Except.error Err.io)
      | some files'' =>
        (((descendantPaths st p).map
            (fun dp => (dp, strReplaceFirst dp p (archivePathOf p)))).foldl
          (fun s (pr : String × String) => dbArchive s pr.1 pr.2 now)
          (dbArchive { fsWriteNote st1' (archivePathOf p) content now with
            files := files'' } p (archivePathOf p) now),
          Except.ok ())) = _
  rw [hmv]
  show (match fsDeleteDir (fsWriteNote st1 (archivePathOf p) content now).files p with
    | none => (fsWriteNote st1 (archivePathOf p) content now, Except.error Err.io)
    | some files'' =>
      (((descendantPaths st p).map
          (fun dp => (dp, strReplaceFirst dp p (archivePathOf p)))).foldl
        (fun s (pr : String × String) => dbArchive s pr.1 pr.2 now)
        (dbArchive { fsWriteNote st1 (archivePathOf p) content now with
          files := files'' } p (archivePathOf p) now),
        Except.ok ())) = _
  rw [hdel]

/-- Shape of a successful `unarchive_note`, symmetric to `archiveNote_shape`. -/
theorem unarchiveNote_shape {st : St} {p : String} {now : Int} {content : String}
    {st1 : St} {files' : List FsFile}
    (hcont : strContains p "/_archive/" = true)
    (hread : fsReadNote st p = some content)
    (hmv : moveDescendants st now ((descendantPaths st p).map
      (fun dp => (dp, strReplaceAll dp "/_archive/" "/"))) = (st1, Except.ok ()))
    (hdel : fsDeleteDir
      (fsWriteNote st1 (strReplaceAll p "/_archive/" "/") content now).files p =
      some files') :
    unarchiveNote st p now =
      (((descendantPaths st p).map
          (fun dp => (dp, strReplaceAll dp "/_archive/" "/"))).foldl
        (fun s pr => dbUnarchive s pr.1 pr.2)
        (dbUnarchive { fsWriteNote st1 (strReplaceAll p "/_archive/" "/") content now with
          files := files' } p (strReplaceAll p "/_archive/" "/")),
       Except.ok ()) := by
  unfold unarchiveNote
  rw [if_neg (show ¬((!strContains p "/_archive/") = true) by rw [hcont]; decide)]
  rw [hread]
  show (match moveDescendants st now ((descendantPaths st p).map
      (fun dp => (dp, strReplaceAll dp "/_archive/" "/"))) with
    | (st1', Except.error e) => (st1', Except.error e)
    | (st1', Except.ok _) =>
      match fsDeleteDir
          (fsWriteNote st1' (strReplaceAll p "/_archive/" "/") content now).files p with
      | none => (fsWriteNote st1' (strReplaceAll p "/_archive/" "/") content now,
          Except.error Err.io)
      | some files'' =>
        (((descendantPaths st p).map
            (fun dp => (dp, strReplaceAll dp "/_archive/" "/"))).foldl
          (fun s (pr : String × String) => dbUnarchive s pr.1 pr.2)
          (dbUnarchive
            { fsWriteNote st1' (strReplaceAll p "/_archive/" "/") content now with
              files := files'' } p (strReplaceAll p "/_archive/" "/")),
          Except.ok ())) = _
  rw [hmv]
  show (match fsDeleteDir
      (fsWriteNote st1 (strReplaceAll p "/_archive/" "/") content now).files p with
    | none => (fsWriteNote st1 (strReplaceAll p "/_archive/" "/") content now,
        Except.error Err.io)
    | some files'' =>
      (((descendantPaths st p).map
          (fun dp => (dp, strReplaceAll dp "/_archive/" "/"))).foldl
        (fun s (pr : String × String) => dbUnarchive s pr.1 pr.2)
        (dbUnarchive
          { fsWriteNote st1 (strReplaceAll p "/_archive/" "/") content now with
            files := files'' } p (strReplaceAll p "/_archive/" "/")),
        Except.ok ())) = _
  rw [hdel]

theorem strPrefixOf_slash_self_false (x : String) : strPrefixOf (x ++ "/") x = false := by
  cases h : strPrefixOf (x ++ "/") x with
  | false => rfl
  | true =>
    have hle := (strPrefixOf_iff.mp h).length_le
    rw [String.data_append] at hle
    rw [List.length_append] at hle
    simp at hle

theorem nodup_split_not_mem {α : Type} {xs ys : List α} {a : α}
    (h : (xs ++ a :: ys).Nodup) : a ∉ xs ∧ a ∉ ys := by
  rw [List.nodup_append] at h
  obtain ⟨h1, h2, h3⟩ := h
  rw [List.nodup_cons] at h2
  exact ⟨fun hx => h3 hx (List.mem_cons_self _ _), h2.1⟩


theorem dbArchive_rows (s : St) (o n : String) (now : Int) :
    (dbArchive s o n now).rows = s.rows.map (fun r =>
      if r.path = o then
        { r with path := n, parentPath := getParentPath n,
                 archived := true, archivedAt := some now }
      else r) := rfl

theorem dbUnarchive_rows (s : St) (o n : String) :
    (dbUnarchive s o n).rows = s.rows.map (fun r =>
      if r.path = o then
        { r with path := n, parentPath := getParentPath n,
                 archived := false, archivedAt := none }
      else r) := rfl

theorem foldl_dbArchive_rows (now : Int) (prs : List (String × String)) (s : St) :
    (prs.foldl (fun s pr => dbArchive s pr.1 pr.2 now) s).rows =
      s.rows.map (fun r => prs.foldl
        (fun r pr => if r.path = pr.1 then
            { r with path := pr.2, parentPath := getParentPath pr.2,
                     archived := true, archivedAt := some now }
          else r) r) := by
  have h := foldl_rows_update (fun (pr : String × String) (r : Row) =>
    if r.path = pr.1 then
      { r with path := pr.2, parentPath := getParentPath pr.2,
               archived := true, archivedAt := some now }
    else r) prs s
  exact congrArg St.rows h

theorem foldl_dbUnarchive_rows (prs : List (String × String)) (s : St) :
    (prs.foldl (fun s pr => dbUnarchive s pr.1 pr.2) s).rows =
      s.rows.map (fun r => prs.foldl
        (fun r pr => if r.path = pr.1 then
            { r with path := pr.2, parentPath := getParentPath pr.2,
                     archived := false, archivedAt := none }
          else r) r) := by
  have h := foldl_rows_update (fun (pr : String × String) (r : Row) =>
    if r.path = pr.1 then
      { r with path := pr.2, parentPath := getParentPath pr.2,
               archived := false, archivedAt := none }
    else r) prs s
  exact congrArg St.rows h

theorem likeM_le_length : ∀ (ps : List Char), '%' ∉ ps →
    ∀ s : List Char, likeM (ps ++ ['%']) s = true → ps.length ≤ s.length := by
  intro ps
  induction ps with
  | nil => intro _ s _; simp
  | cons c ps' ih =>
    intro hp s hs
    have hc : c ≠ '%' := fun he => hp (he ▸ List.mem_cons_self _ _)
    have hp' : '%' ∉ ps' := fun hm => hp (List.mem_cons_of_mem _ hm)
    cases s with
    | nil =>
      rw [List.cons_append, likeM_cons_nil hc] at hs
      cases hs
    | cons d ss =>
      rw [List.cons_append] at hs
      by_cases hcu : c = '_'
      · rw [hcu, likeM_under_cons] at hs
        have := ih hp' ss hs
        simp only [List.length_cons]
        omega
      · rw [likeM_char_cons hc hcu, Bool.and_eq_true] at hs
        have := ih hp' ss hs.2
        simp only [List.length_cons]
        omega

theorem likeM_pref_self : ∀ (ps : List Char), '%' ∉ ps →
    ∀ rest : List Char, likeM (ps ++ ['%']) (ps ++ rest) = true := by
  intro ps
  induction ps with
  | nil => intro _ rest; exact likeM_all_pct rest
  | cons c ps' ih =>
    intro hp rest
    have hc : c ≠ '%' := fun he => hp (he ▸ List.mem_cons_self _ _)
    have hp' : '%' ∉ ps' := fun hm => hp (List.mem_cons_of_mem _ hm)
    rw [List.cons_append, List.cons_append]
    by_cases hcu : c = '_'
    · rw [hcu, likeM_under_cons]
      exact ih hp' rest
    · rw [likeM_char_cons hc hcu, charLikeEq_iff.mpr rfl, Bool.true_and]
      exact ih hp' rest

theorem sqlLike_slash_self_false' {x : String} (hq : '%' ∉ x.data) :
    sqlLike (x ++ "/%") x = false := by
  cases h : sqlLike (x ++ "/%") x with
  | false => rfl
  | true =>
    have hd : (x ++ "/%").data = (x.data ++ ['/']) ++ ['%'] := by
      rw [String.data_append, List.append_assoc]
      rfl
    have h2 : likeM ((x.data ++ ['/']) ++ ['%']) x.data = true := by
      rw [← hd]
      exact h
    have hple := likeM_le_length (x.data ++ ['/']) (by
      intro hm
      rcases List.mem_append.mp hm with h3 | h3
      · exact hq h3
      · exact absurd h3 (by decide)) x.data h2
    rw [List.length_append] at hple
    simp at hple

theorem sqlLike_slash_prefix_true' {x : String} (hq : '%' ∉ x.data) (t : String) :
    sqlLike (x ++ "/%") (x ++ "/" ++ t) = true := by
  show likeM (x ++ "/%").data (x ++ "/" ++ t).data = true
  have hd : (x ++ "/%").data = (x.data ++ ['/']) ++ ['%'] := by
    rw [String.data_append, List.append_assoc]
    rfl
  have hd2 : (x ++ "/" ++ t).data = (x.data ++ ['/']) ++ t.data := by
    rw [String.data_append, String.data_append]
  rw [hd, hd2]
  exact likeM_pref_self (x.data ++ ['/']) (by
    intro hm
    rcases List.mem_append.mp hm with h3 | h3
    · exact hq h3
    · exact absurd h3 (by decide)) t.data

/-- The effect of a successful `archive_note` on every observable this
development needs: the result is `Ok`, the rows are remapped pointwise (the
note and each indexed descendant move under the archive path with
`archived = 1`), and the note contents are readable at the new locations. -/
theorem archiveNote_ok (st : St) (p par : String) (now : Int)
    (hpar : getParentPath p = some par)
    (hnd : (st.rows.map Row.path).Nodup)
    (hlike : ∀ r ∈ st.rows, sqlLike (p ++ "/%") r.path = strPrefixOf (p ++ "/") r.path)
    (hreadp : (fsReadNote st p).isSome = true)
    (hreadd : ∀ r ∈ st.rows, strPrefixOf (p ++ "/") r.path = true →
      (fsReadNote st r.path).isSome = true)
    (hAp : strPrefixOf (p ++ "/") (archivePathOf p ++ "/") = false) :
    ∃ stA : St,
      archiveNote st p now = (stA, Except.ok ()) ∧
      stA.rows = st.rows.map (fun r =>
        if r.path = p then
          { r with path := archivePathOf p,
                   parentPath := getParentPath (archivePathOf p),
                   archived := true, archivedAt := some now }
        else if strPrefixOf (p ++ "/") r.path = true then
          { r with path := strReplaceFirst r.path p (archivePathOf p),
                   parentPath := getParentPath (strReplaceFirst r.path p (archivePathOf p)),
                   archived := true, archivedAt := some now }
        else r) ∧
      fsReadNote stA (archivePathOf p) = fsReadNote st p ∧
      (∀ dp ∈ descendantPaths st p,
        fsReadNote stA (strReplaceFirst dp p (archivePathOf p)) = fsReadNote st dp) := by
  have hpne : p ≠ "" := p_ne_empty hpar
  have hpdata : p.data ≠ [] := data_ne_nil_iff.mpr hpne
  have hAne : archivePathOf p ≠ "" := archivePathOf_ne_empty hpar
  have hlen : (archivePathOf p).data.length = p.data.length + 9 := archivePathOf_length hpar
  have hslash : ("/" : String).data.length = 1 := rfl
  have hPA : ¬ (p ++ "/").data <+: (archivePathOf p ++ "/").data := by
    intro h
    have := strPrefixOf_iff.mpr h
    rw [hAp] at this
    cases this
  have hAPl : ¬ (archivePathOf p ++ "/").data <+: (p ++ "/").data := by
    intro h
    have hle := h.length_le
    rw [String.data_append, String.data_append, List.length_append, List.length_append,
      hlen, hslash] at hle
    omega
  have hnotP : ∀ t : String,
      strPrefixOf (p ++ "/") (archivePathOf p ++ "/" ++ t) = false := by
    intro t
    cases hh : strPrefixOf (p ++ "/") (archivePathOf p ++ "/" ++ t) with
    | false => rfl
    | true =>
      have h2 := strPrefixOf_iff.mp hh
      rw [String.data_append] at h2
      exact absurd h2 (not_prefix_append_of_incomp hPA hAPl t.data)
  have hDmem : ∀ dp ∈ descendantPaths st p,
      ∃ r ∈ st.rows, r.path = dp ∧ strPrefixOf (p ++ "/") dp = true := by
    intro dp hdp
    obtain ⟨r, hr, hrp⟩ := List.mem_map.mp hdp
    have hf := List.mem_filter.mp hr
    refine ⟨r, hf.1, hrp, ?_⟩
    rw [← hrp, ← hlike r hf.1]
    exact hf.2
  have hDt : ∀ dp ∈ descendantPaths st p, ∃ t : String, dp = p ++ "/" ++ t := by
    intro dp hdp
    obtain ⟨r, hr, hrp, hpre⟩ := hDmem dp hdp
    exact strPrefixOf_exists_suffix hpre
  have hDnodup : (descendantPaths st p).Nodup :=
    hnd.sublist ((List.filter_sublist _).map _)
  have hRF : ∀ dp ∈ descendantPaths st p, ∀ t : String, dp = p ++ "/" ++ t →
      strReplaceFirst dp p (archivePathOf p) = archivePathOf p ++ "/" ++ t := by
    intro dp _ t hdp
    rw [hdp]
    exact strReplaceFirst_pref hpdata
  have hdpne : ∀ dp ∈ descendantPaths st p, dp ≠ "" := by
    intro dp hdp
    obtain ⟨t, ht⟩ := hDt dp hdp
    apply data_ne_nil_iff.mp
    rw [ht, String.data_append]
    intro hnil
    obtain ⟨h1, _⟩ := List.append_eq_nil.mp hnil
    rw [String.data_append] at h1
    obtain ⟨h2, _⟩ := List.append_eq_nil.mp h1
    exact hpdata h2
  have hRFne : ∀ dp ∈ descendantPaths st p, strReplaceFirst dp p (archivePathOf p) ≠ "" := by
    intro dp hdp
    obtain ⟨t, ht⟩ := hDt dp hdp
    rw [hRF dp hdp t ht]
    apply data_ne_nil_iff.mp
    rw [String.data_append]
    intro hnil
    obtain ⟨h1, _⟩ := List.append_eq_nil.mp hnil
    rw [String.data_append] at h1
    obtain ⟨h2, _⟩ := List.append_eq_nil.mp h1
    exact (data_ne_nil_iff.mpr hAne) h2
  have hdp_pre : ∀ dp ∈ descendantPaths st p, strPrefixOf (p ++ "/") dp = true := by
    intro dp hdp
    exact (hDmem dp hdp).choose_spec.2.2
  have hRFnotp : ∀ dp ∈ descendantPaths st p,
      strPrefixOf (p ++ "/") (strReplaceFirst dp p (archivePathOf p)) = false := by
    intro dp hdp
    obtain ⟨t, ht⟩ := hDt dp hdp
    rw [hRF dp hdp t ht]
    exact hnotP t
  have hRFneq : ∀ dp ∈ descendantPaths st p, ∀ dp' ∈ descendantPaths st p,
      strReplaceFirst dp' p (archivePathOf p) ≠ dp := by
    intro dp hdp dp' hdp' he
    have h1 := hRFnotp dp' hdp'
    rw [he] at h1
    rw [hdp_pre dp hdp] at h1
    cases h1
  have hmvread : ∀ pr ∈ (descendantPaths st p).map
      (fun dp => (dp, strReplaceFirst dp p (archivePathOf p))),
      (fsReadNote st pr.1).isSome = true := by
    intro pr hpr
    obtain ⟨dp, hdp, hpre⟩ := List.mem_map.mp hpr
    obtain ⟨r, hr, hrp, hp2⟩ := hDmem dp hdp
    rw [← hpre]
    show (fsReadNote st dp).isSome = true
    rw [← hrp]
    exact hreadd r hr (by rw [hrp]; exact hp2)
  have hmvnc : ∀ pr ∈ (descendantPaths st p).map
      (fun dp => (dp, strReplaceFirst dp p (archivePathOf p))),
      ∀ pr' ∈ (descendantPaths st p).map
      (fun dp => (dp, strReplaceFirst dp p (archivePathOf p))),
      fsIndexFile pr'.2 ≠ fsIndexFile pr.1 := by
    intro pr hpr pr' hpr' he
    obtain ⟨dp, hdp, hpre⟩ := List.mem_map.mp hpr
    obtain ⟨dp', hdp', hpre'⟩ := List.mem_map.mp hpr'
    rw [← hpre, ← hpre'] at he
    have heq : strReplaceFirst dp' p (archivePathOf p) = dp :=
      fsIndexFile_inj (hRFne dp' hdp') (hdpne dp hdp) he
    exact hRFneq dp hdp dp' hdp' heq
  obtain ⟨content, hcontent⟩ := Option.isSome_iff_exists.mp hreadp
  have hmv := moveDescendants_ok
    ((descendantPaths st p).map (fun dp => (dp, strReplaceFirst dp p (archivePathOf p))))
    st now hmvread hmvnc
  have hST1miss : ∀ q : String,
      (∀ dp ∈ descendantPaths st p,
        q ≠ fsIndexFile (strReplaceFirst dp p (archivePathOf p))) →
      fsLookup (((descendantPaths st p).map
          (fun dp => (dp, strReplaceFirst dp p (archivePathOf p)))).foldl
        (fun s pr => fsWriteNote s pr.2 ((fsReadNote st pr.1).getD "") now) st).files q =
      fsLookup st.files q := by
    intro q hq'
    refine foldl_write_lookup Prod.snd (fun pr => (fsReadNote st pr.1).getD "") now _ st q ?_
    intro b hb
    obtain ⟨dp, hdp, hbe⟩ := List.mem_map.mp hb
    rw [← hbe]
    exact hq' dp hdp
  have hTnodup : ((((descendantPaths st p).map
      (fun dp => (dp, strReplaceFirst dp p (archivePathOf p)))).map
        (fun b => fsIndexFile (Prod.snd b)))).Nodup := by
    rw [List.map_map]
    refine hDnodup.map_on ?_
    intro dp hdp dp' hdp' he
    have h1 : strReplaceFirst dp p (archivePathOf p) = strReplaceFirst dp' p (archivePathOf p) :=
      fsIndexFile_inj (hRFne dp hdp) (hRFne dp' hdp') he
    obtain ⟨t, ht⟩ := hDt dp hdp
    obtain ⟨t', ht'⟩ := hDt dp' hdp'
    rw [hRF dp hdp t ht, hRF dp' hdp' t' ht'] at h1
    have hd := congrArg String.data h1
    rw [String.data_append, String.data_append] at hd
    have h2 : t = t' := String.ext (List.append_cancel_left hd)
    rw [ht, ht', h2]
  have hST1hit : ∀ dp ∈ descendantPaths st p,
      fsLookup (((descendantPaths st p).map
          (fun dp => (dp, strReplaceFirst dp p (archivePathOf p)))).foldl
        (fun s pr => fsWriteNote s pr.2 ((fsReadNote st pr.1).getD "") now) st).files
        (fsIndexFile (strReplaceFirst dp p (archivePathOf p))) =
      some ⟨fsIndexFile (strReplaceFirst dp p (archivePathOf p)),
        (fsReadNote st dp).getD "", now⟩ := by
    intro dp hdp
    exact foldl_write_lookup_hit Prod.snd (fun pr => (fsReadNote st pr.1).getD "") now
      _ st (dp, strReplaceFirst dp p (archivePathOf p))
      (List.mem_map_of_mem _ hdp) hTnodup
  have hidxPA : fsIndexFile p ≠ fsIndexFile (archivePathOf p) := by
    intro he
    have h1 := fsIndexFile_inj hpne hAne he
    have h3 := congrArg (fun s : String => s.data.length) h1
    simp only at h3
    rw [hlen] at h3
    omega
  have hidxPD : ∀ dp ∈ descendantPaths st p,
      fsIndexFile p ≠ fsIndexFile (strReplaceFirst dp p (archivePathOf p)) := by
    intro dp hdp he
    have heq := fsIndexFile_inj hpne (hRFne dp hdp) he
    obtain ⟨t, ht⟩ := hDt dp hdp
    rw [hRF dp hdp t ht] at heq
    have h3 := congrArg (fun s : String => s.data.length) heq
    simp only [String.data_append, List.length_append] at h3
    rw [hlen, hslash] at h3
    omega
  obtain ⟨f0, hf0⟩ : ∃ f0, fsLookup st.files (fsIndexFile p) = some f0 ∧
      f0.content = content := by
    cases hl0 : fsLookup st.files (fsIndexFile p) with
    | none =>
      have : fsReadNote st p = none := by
        unfold fsReadNote
        rw [hl0]
        rfl
      rw [hcontent] at this
      cases this
    | some f0 =>
      refine ⟨f0, rfl, ?_⟩
      have : fsReadNote st p = some f0.content := by
        unfold fsReadNote
        rw [hl0]
        rfl
      rw [hcontent] at this
      injection this with h4
      exact h4.symm
  have hlookW2p : fsLookup (fsWriteNote (((descendantPaths st p).map
      (fun dp => (dp, strReplaceFirst dp p (archivePathOf p)))).foldl
        (fun s pr => fsWriteNote s pr.2 ((fsReadNote st pr.1).getD "") now) st)
      (archivePathOf p) content now).files (fsIndexFile p) =
      fsLookup st.files (fsIndexFile p) := by
    show fsLookup (fsWrite _ (fsIndexFile (archivePathOf p)) content now) (fsIndexFile p) = _
    rw [fsLookup_fsWrite, if_neg hidxPA]
    exact hST1miss (fsIndexFile p) hidxPD
  have hany : ((fsWriteNote (((descendantPaths st p).map
      (fun dp => (dp, strReplaceFirst dp p (archivePathOf p)))).foldl
        (fun s pr => fsWriteNote s pr.2 ((fsReadNote st pr.1).getD "") now) st)
      (archivePathOf p) content now).files.any
        (fun f => strPrefixOf (p ++ "/") f.path)) = true := by
    have hl2 : fsLookup (fsWriteNote (((descendantPaths st p).map
        (fun dp => (dp, strReplaceFirst dp p (archivePathOf p)))).foldl
          (fun s pr => fsWriteNote s pr.2 ((fsReadNote st pr.1).getD "") now) st)
        (archivePathOf p) content now).files (fsIndexFile p) = some f0 := by
      rw [hlookW2p]
      exact hf0.1
    obtain ⟨hmem, hpath⟩ := fsLookup_mem hl2
    refine List.any_eq_true.mpr ⟨f0, hmem, ?_⟩
    rw [hpath, fsIndexFile_eq_append hpne]
    exact strPrefixOf_self_append (p ++ "/") "_index.md"
  have hdel : fsDeleteDir (fsWriteNote (((descendantPaths st p).map
      (fun dp => (dp, strReplaceFirst dp p (archivePathOf p)))).foldl
        (fun s pr => fsWriteNote s pr.2 ((fsReadNote st pr.1).getD "") now) st)
      (archivePathOf p) content now).files p =
      some ((fsWriteNote (((descendantPaths st p).map
        (fun dp => (dp, strReplaceFirst dp p (archivePathOf p)))).foldl
          (fun s pr => fsWriteNote s pr.2 ((fsReadNote st pr.1).getD "") now) st)
        (archivePathOf p) content now).files.filter
          (fun f => !strPrefixOf (p ++ "/") f.path)) := by
    unfold fsDeleteDir
    rw [if_neg hpne, if_pos hany]
  have harch := archiveNote_shape hcontent hmv hdel
  have hstAfiles : ((((descendantPaths st p).map
      (fun dp => (dp, strReplaceFirst dp p (archivePathOf p)))).foldl
        (fun s pr => dbArchive s pr.1 pr.2 now)
        (dbArchive { fsWriteNote (((descendantPaths st p).map
            (fun dp => (dp, strReplaceFirst dp p (archivePathOf p)))).foldl
              (fun s pr => fsWriteNote s pr.2 ((fsReadNote st pr.1).getD "") now) st)
            (archivePathOf p) content now with
          files := (fsWriteNote (((descendantPaths st p).map
            (fun dp => (dp, strReplaceFirst dp p (archivePathOf p)))).foldl
              (fun s pr => fsWriteNote s pr.2 ((fsReadNote st pr.1).getD "") now) st)
            (archivePathOf p) content now).files.filter
              (fun f => !strPrefixOf (p ++ "/") f.path) } p (archivePathOf p) now))).files =
      (fsWriteNote (((descendantPaths st p).map
        (fun dp => (dp, strReplaceFirst dp p (archivePathOf p)))).foldl
          (fun s pr => fsWriteNote s pr.2 ((fsReadNote st pr.1).getD "") now) st)
        (archivePathOf p) content now).files.filter
          (fun f => !strPrefixOf (p ++ "/") f.path) :=
    foldl_files_invariant (fun s (pr : String × String) => dbArchive s pr.1 pr.2 now)
      (fun s b => rfl) _ _
  refine ⟨_, harch, ?_, ?_, ?_⟩
  · -- rows characterization
    have hW2rows : (fsWriteNote (((descendantPaths st p).map
        (fun dp => (dp, strReplaceFirst dp p (archivePathOf p)))).foldl
          (fun s pr => fsWriteNote s pr.2 ((fsReadNote st pr.1).getD "") now) st)
        (archivePathOf p) content now).rows = st.rows := by
      show (((descendantPaths st p).map
        (fun dp => (dp, strReplaceFirst dp p (archivePathOf p)))).foldl
          (fun s pr => fsWriteNote s pr.2 ((fsReadNote st pr.1).getD "") now) st).rows = st.rows
      exact foldl_fsWriteNote_rows Prod.snd (fun pr => (fsReadNote st pr.1).getD "") now _ st
    rw [foldl_dbArchive_rows, dbArchive_rows]
    rw [show (({ fsWriteNote (((descendantPaths st p).map
        (fun dp => (dp, strReplaceFirst dp p (archivePathOf p)))).foldl
          (fun s pr => fsWriteNote s pr.2 ((fsReadNote st pr.1).getD "") now) st)
        (archivePathOf p) content now with
      files := (fsWriteNote (((descendantPaths st p).map
        (fun dp => (dp, strReplaceFirst dp p (archivePathOf p)))).foldl
          (fun s pr => fsWriteNote s pr.2 ((fsReadNote st pr.1).getD "") now) st)
        (archivePathOf p) content now).files.filter
          (fun f => !strPrefixOf (p ++ "/") f.path) } : St)).rows =
      (fsWriteNote (((descendantPaths st p).map
        (fun dp => (dp, strReplaceFirst dp p (archivePathOf p)))).foldl
          (fun s pr => fsWriteNote s pr.2 ((fsReadNote st pr.1).getD "") now) st)
        (archivePathOf p) content now).rows from rfl]
    rw [hW2rows, List.map_map]
    refine List.map_congr_left (fun r hr => ?_)
    show (((descendantPaths st p).map
        (fun dp => (dp, strReplaceFirst dp p (archivePathOf p)))).foldl
      (fun r pr => if r.path = pr.1 then
          { r with path := pr.2, parentPath := getParentPath pr.2,
                   archived := true, archivedAt := some now }
        else r)
      (if r.path = p then
        { r with path := archivePathOf p,
                 parentPath := getParentPath (archivePathOf p),
                 archived := true, archivedAt := some now }
      else r)) =
      (if r.path = p then
        { r with path := archivePathOf p,
                 parentPath := getParentPath (archivePathOf p),
                 archived := true, archivedAt := some now }
      else if strPrefixOf (p ++ "/") r.path = true then
        { r with path := strReplaceFirst r.path p (archivePathOf p),
                 parentPath := getParentPath (strReplaceFirst r.path p (archivePathOf p)),
                 archived := true, archivedAt := some now }
      else r)
    by_cases hrp : r.path = p
    · rw [if_pos hrp]
      rw [if_pos hrp]
      refine foldl_pathStep_skip ?_
      intro pr hpr he2
      obtain ⟨dp, hdp, hbe⟩ := List.mem_map.mp hpr
      have hdpp : pr.1 = dp := by rw [← hbe]
      rw [hdpp] at he2
      have hpredp := hdp_pre dp hdp
      rw [← he2] at hpredp
      have hext : (p ++ "/").data <+: (archivePathOf p ++ "/").data := by
        have h5 := strPrefixOf_iff.mp hpredp
        rw [String.data_append]
        exact h5.trans (List.prefix_append _ _)
      exact hPA hext
    · by_cases hpre : strPrefixOf (p ++ "/") r.path = true
      · rw [if_neg hrp, if_neg hrp, if_pos hpre]
        have hDmem2 : r.path ∈ descendantPaths st p := by
          unfold descendantPaths
          exact List.mem_map_of_mem _
            (List.mem_filter.mpr ⟨hr, by rw [hlike r hr]; exact hpre⟩)
        have hpair : (r.path, strReplaceFirst r.path p (archivePathOf p)) ∈
            (descendantPaths st p).map
              (fun dp => (dp, strReplaceFirst dp p (archivePathOf p))) :=
          List.mem_map_of_mem _ hDmem2
        obtain ⟨pre, post, hsplit⟩ := List.append_of_mem hpair
        have hfsts : descendantPaths st p =
            (pre.map Prod.fst) ++ r.path :: (post.map Prod.fst) := by
          have h1 : (((descendantPaths st p).map
              (fun dp => (dp, strReplaceFirst dp p (archivePathOf p)))).map Prod.fst) =
              descendantPaths st p := by
            rw [List.map_map]
            exact (List.map_congr_left (fun dp _ => rfl)).trans (List.map_id' _)
          rw [← h1, hsplit, List.map_append, List.map_cons]
        have hnod2 := hDnodup
        rw [hfsts] at hnod2
        obtain ⟨hnotpre, _⟩ := nodup_split_not_mem hnod2
        rw [hsplit]
        refine foldl_pathStep_hit rfl ?_ ?_
        · intro pr hpr he2
          exact hnotpre (by rw [he2]; exact List.mem_map_of_mem Prod.fst hpr)
        · intro pr hpr he2
          have hprD : pr.1 ∈ descendantPaths st p := by
            rw [hfsts]
            exact List.mem_append.mpr
              (Or.inr (List.mem_cons_of_mem _ (List.mem_map_of_mem _ hpr)))
          exact hRFneq pr.1 hprD r.path hDmem2 he2
      · rw [if_neg hrp, if_neg hrp, if_neg hpre]
        refine foldl_pathStep_skip ?_
        intro pr hpr he2
        obtain ⟨dp, hdp, hbe⟩ := List.mem_map.mp hpr
        have hdpp : pr.1 = dp := by rw [← hbe]
        rw [hdpp] at he2
        have hpredp := hdp_pre dp hdp
        rw [← he2] at hpredp
        rw [hpredp] at hpre
        exact hpre rfl
  · -- the note content is readable at the archive path
    show (fsLookup _ (fsIndexFile (archivePathOf p))).map (fun f => f.content) = fsReadNote st p
    rw [hstAfiles]
    rw [fsLookup_filter_keep (fun f hfp => by
      rw [hfp, fsIndexFile_eq_append hAne, hnotP "_index.md"]
      rfl) _]
    show (fsLookup (fsWrite _ (fsIndexFile (archivePathOf p)) content now)
      (fsIndexFile (archivePathOf p))).map (fun f => f.content) = fsReadNote st p
    rw [fsLookup_fsWrite, if_pos rfl, hcontent]
    rfl
  · -- each descendant content is readable at its archive location
    intro dp hdp
    obtain ⟨t, ht⟩ := hDt dp hdp
    obtain ⟨r, hrm, hrp, hpre2⟩ := hDmem dp hdp
    obtain ⟨c, hc⟩ := Option.isSome_iff_exists.mp (hreadd r hrm (by rw [hrp]; exact hpre2))
    rw [hrp] at hc
    have hAtne : archivePathOf p ++ "/" ++ t ≠ "" := by
      rw [← hRF dp hdp t ht]
      exact hRFne dp hdp
    have hidx : fsIndexFile (archivePathOf p ++ "/" ++ t) =
        archivePathOf p ++ "/" ++ (t ++ "/_index.md") := by
      unfold fsIndexFile
      rw [if_neg hAtne, String.append_assoc]
    have hne2 : fsIndexFile (strReplaceFirst dp p (archivePathOf p)) ≠
        fsIndexFile (archivePathOf p) := by
      intro he
      have h1 := fsIndexFile_inj (hRFne dp hdp) hAne he
      rw [hRF dp hdp t ht] at h1
      have h3 := congrArg (fun s : String => s.data.length) h1
      simp only [String.data_append, List.length_append] at h3
      rw [hslash] at h3
      omega
    show (fsLookup _ (fsIndexFile (strReplaceFirst dp p (archivePathOf p)))).map
      (fun f => f.content) = fsReadNote st dp
    rw [hstAfiles]
    rw [fsLookup_filter_keep (fun f hfp => by
      rw [hfp, hRF dp hdp t ht, hidx, hnotP (t ++ "/_index.md")]
      rfl) _]
    show (fsLookup (fsWrite _ (fsIndexFile (archivePathOf p)) content now)
      (fsIndexFile (strReplaceFirst dp p (archivePathOf p)))).map (fun f => f.content) =
      fsReadNote st dp
    rw [fsLookup_fsWrite, if_neg hne2, hST1hit dp hdp, hc]
    rfl

/-- The effect of a successful `unarchive_note` applied to the state produced
by `archive_note`: everything returns to its pre-archive location with
`archived = 0`. -/
theorem unarchiveNote_ok (st stA : St) (p par : String) (now now2 : Int)
    (hpar : getParentPath p = some par)
    (hnd : (st.rows.map Row.path).Nodup)
    (hq : '%' ∉ p.data)
    (hparch : occursL archPat p.data = false)
    (harchd : ∀ r ∈ st.rows, strPrefixOf (p ++ "/") r.path = true →
      occursL archPat r.path.data = false)
    (hlike : ∀ r ∈ st.rows, sqlLike (p ++ "/%") r.path = strPrefixOf (p ++ "/") r.path)
    (hreadp : (fsReadNote st p).isSome = true)
    (hreadd : ∀ r ∈ st.rows, strPrefixOf (p ++ "/") r.path = true →
      (fsReadNote st r.path).isSome = true)
    (harchfree : ∀ r ∈ st.rows, r.path ≠ p → strPrefixOf (p ++ "/") r.path = false →
      sqlLike (archivePathOf p ++ "/%") r.path = false ∧ r.path ≠ archivePathOf p)
    (hAp : strPrefixOf (p ++ "/") (archivePathOf p ++ "/") = false)
    (hstArows : stA.rows = st.rows.map (fun r =>
      if r.path = p then
        { r with path := archivePathOf p,
                 parentPath := getParentPath (archivePathOf p),
                 archived := true, archivedAt := some now }
      else if strPrefixOf (p ++ "/") r.path = true then
        { r with path := strReplaceFirst r.path p (archivePathOf p),
                 parentPath := getParentPath (strReplaceFirst r.path p (archivePathOf p)),
                 archived := true, archivedAt := some now }
      else r))
    (hreadA : fsReadNote stA (archivePathOf p) = fsReadNote st p)
    (hreadAD : ∀ dp ∈ descendantPaths st p,
      fsReadNote stA (strReplaceFirst dp p (archivePathOf p)) = fsReadNote st dp) :
    ∃ stU : St,
      unarchiveNote stA (archivePathOf p) now2 = (stU, Except.ok ()) ∧
      stU.rows = st.rows.map (fun r =>
        if r.path = p then
          { r with parentPath := getParentPath p, archived := false, archivedAt := none }
        else if strPrefixOf (p ++ "/") r.path = true then
          { r with parentPath := getParentPath r.path, archived := false, archivedAt := none }
        else r) ∧
      fsReadNote stU p = fsReadNote st p ∧
      (∀ dp ∈ descendantPaths st p, fsReadNote stU dp = fsReadNote st dp) := by
  have hpne : p ≠ "" := p_ne_empty hpar
  have hpdata : p.data ≠ [] := data_ne_nil_iff.mpr hpne
  have hAne : archivePathOf p ≠ "" := archivePathOf_ne_empty hpar
  have hlen : (archivePathOf p).data.length = p.data.length + 9 := archivePathOf_length hpar
  have hslash : ("/" : String).data.length = 1 := rfl
  have hAq : '%' ∉ (archivePathOf p).data := not_mem_archivePath hpar hq (by decide)
  have hPA : ¬ (p ++ "/").data <+: (archivePathOf p ++ "/").data := by
    intro h
    have := strPrefixOf_iff.mpr h
    rw [hAp] at this
    cases this
  have hAPl : ¬ (archivePathOf p ++ "/").data <+: (p ++ "/").data := by
    intro h
    have hle := h.length_le
    rw [String.data_append, String.data_append, List.length_append, List.length_append,
      hlen, hslash] at hle
    omega
  have hnotP : ∀ t : String,
      strPrefixOf (p ++ "/") (archivePathOf p ++ "/" ++ t) = false := by
    intro t
    cases hh : strPrefixOf (p ++ "/") (archivePathOf p ++ "/" ++ t) with
    | false => rfl
    | true =>
      have h2 := strPrefixOf_iff.mp hh
      rw [String.data_append] at h2
      exact absurd h2 (not_prefix_append_of_incomp hPA hAPl t.data)
  have hnotA : ∀ t : String,
      strPrefixOf (archivePathOf p ++ "/") (p ++ "/" ++ t) = false := by
    intro t
    cases hh : strPrefixOf (archivePathOf p ++ "/") (p ++ "/" ++ t) with
    | false => rfl
    | true =>
      have h2 := strPrefixOf_iff.mp hh
      rw [String.data_append] at h2
      exact absurd h2 (not_prefix_append_of_incomp hAPl hPA t.data)
  have hDmem : ∀ dp ∈ descendantPaths st p,
      ∃ r ∈ st.rows, r.path = dp ∧ strPrefixOf (p ++ "/") dp = true := by
    intro dp hdp
    obtain ⟨r, hr, hrp⟩ := List.mem_map.mp hdp
    have hf := List.mem_filter.mp hr
    refine ⟨r, hf.1, hrp, ?_⟩
    rw [← hrp, ← hlike r hf.1]
    exact hf.2
  have hDt : ∀ dp ∈ descendantPaths st p, ∃ t : String, dp = p ++ "/" ++ t := by
    intro dp hdp
    obtain ⟨r, hr, hrp, hpre⟩ := hDmem dp hdp
    exact strPrefixOf_exists_suffix hpre
  have hDnodup : (descendantPaths st p).Nodup :=
    hnd.sublist ((List.filter_sublist _).map _)
  have hRF : ∀ dp ∈ descendantPaths st p, ∀ t : String, dp = p ++ "/" ++ t →
      strReplaceFirst dp p (archivePathOf p) = archivePathOf p ++ "/" ++ t := by
    intro dp _ t hdp
    rw [hdp]
    exact strReplaceFirst_pref hpdata
  have hdpne : ∀ dp ∈ descendantPaths st p, dp ≠ "" := by
    intro dp hdp
    obtain ⟨t, ht⟩ := hDt dp hdp
    apply data_ne_nil_iff.mp
    rw [ht, String.data_append]
    intro hnil
    obtain ⟨h1, _⟩ := List.append_eq_nil.mp hnil
    rw [String.data_append] at h1
    obtain ⟨h2, _⟩ := List.append_eq_nil.mp h1
    exact hpdata h2
  have hRFne : ∀ dp ∈ descendantPaths st p,
      strReplaceFirst dp p (archivePathOf p) ≠ "" := by
    intro dp hdp
    obtain ⟨t, ht⟩ := hDt dp hdp
    rw [hRF dp hdp t ht]
    apply data_ne_nil_iff.mp
    rw [String.data_append]
    intro hnil
    obtain ⟨h1, _⟩ := List.append_eq_nil.mp hnil
    rw [String.data_append] at h1
    obtain ⟨h2, _⟩ := List.append_eq_nil.mp h1
    exact (data_ne_nil_iff.mpr hAne) h2
  have hdp_pre : ∀ dp ∈ descendantPaths st p, strPrefixOf (p ++ "/") dp = true := by
    intro dp hdp
    exact (hDmem dp hdp).choose_spec.2.2
  have hRFnotp : ∀ dp ∈ descendantPaths st p,
      strPrefixOf (p ++ "/") (strReplaceFirst dp p (archivePathOf p)) = false := by
    intro dp hdp
    obtain ⟨t, ht⟩ := hDt dp hdp
    rw [hRF dp hdp t ht]
    exact hnotP t
  have hRFneq : ∀ dp ∈ descendantPaths st p, ∀ dp' ∈ descendantPaths st p,
      strReplaceFirst dp' p (archivePathOf p) ≠ dp := by
    intro dp hdp dp' hdp' he
    have h1 := hRFnotp dp' hdp'
    rw [he] at h1
    rw [hdp_pre dp hdp] at h1
    cases h1
  have hUP : strReplaceAll (archivePathOf p) "/_archive/" "/" = p := by
    apply String.ext
    show replaceAllL archPat ['/'] (archivePathOf p).data = p.data
    rw [archivePathOf_data hpar]
    rw [replaceAll_archive par.data (lastSegment p).data
      (by rw [← (getParentPath_decomp hpar).1]; exact hparch)]
    exact ((getParentPath_decomp hpar).1).symm
  have hcontA : strContains (archivePathOf p) "/_archive/" = true := by
    show occursL archPat (archivePathOf p).data = true
    rw [archivePathOf_data hpar]
    exact occursL_mid archPat par.data (lastSegment p).data
  have hRA : ∀ dp ∈ descendantPaths st p,
      strReplaceAll (strReplaceFirst dp p (archivePathOf p)) "/_archive/" "/" = dp := by
    intro dp hdp
    obtain ⟨t, ht⟩ := hDt dp hdp
    rw [hRF dp hdp t ht]
    apply String.ext
    show replaceAllL archPat ['/'] (archivePathOf p ++ "/" ++ t).data = dp.data
    have hdata : (archivePathOf p ++ "/" ++ t).data =
        par.data ++ archPat ++ ((lastSegment p).data ++ '/' :: t.data) := by
      rw [String.data_append, String.data_append, archivePathOf_data hpar]
      simp [List.append_assoc]
    have hocc : occursL archPat
        (par.data ++ '/' :: ((lastSegment p).data ++ '/' :: t.data)) = false := by
      have hdp2 : dp.data = par.data ++ '/' :: ((lastSegment p).data ++ '/' :: t.data) := by
        rw [ht, String.data_append, String.data_append, (getParentPath_decomp hpar).1]
        simp [List.append_assoc]
      rw [← hdp2]
      obtain ⟨r, hrm, hrp, hpre2⟩ := hDmem dp hdp
      rw [← hrp]
      exact harchd r hrm (by rw [hrp]; exact hpre2)
    rw [hdata, replaceAll_archive par.data _ hocc]
    rw [ht, String.data_append, String.data_append, (getParentPath_decomp hpar).1]
    simp [List.append_assoc]
  have hD' : descendantPaths stA (archivePathOf p) =
      (descendantPaths st p).map (fun dp => strReplaceFirst dp p (archivePathOf p)) := by
    unfold descendantPaths
    rw [hstArows, filter_of_map, List.map_map, List.map_map]
    have hfeq : st.rows.filter (fun r =>
        sqlLike (archivePathOf p ++ "/%")
          ((fun r : Row =>
            if r.path = p then
              { r with path := archivePathOf p,
                       parentPath := getParentPath (archivePathOf p),
                       archived := true, archivedAt := some now }
            else if strPrefixOf (p ++ "/") r.path = true then
              { r with path := strReplaceFirst r.path p (archivePathOf p),
                       parentPath := getParentPath (strReplaceFirst r.path p (archivePathOf p)),
                       archived := true, archivedAt := some now }
            else r) r).path) =
        st.rows.filter (fun r => sqlLike (p ++ "/%") r.path) := by
      refine List.filter_congr (fun r hr => ?_)
      show sqlLike (archivePathOf p ++ "/%")
        (if r.path = p then
          ({ r with
            path := archivePathOf p,
            parentPath := getParentPath (archivePathOf p),
            archived := true, archivedAt := some now } : Row)
        else if strPrefixOf (p ++ "/") r.path = true then
          { r with
            path := strReplaceFirst r.path p (archivePathOf p),
            parentPath := getParentPath (strReplaceFirst r.path p (archivePathOf p)),
            archived := true, archivedAt := some now }
        else r).path = sqlLike (p ++ "/%") r.path
      by_cases hrp : r.path = p
      · rw [if_pos hrp]
        show sqlLike (archivePathOf p ++ "/%") (archivePathOf p) = _
        rw [sqlLike_slash_self_false' hAq, hrp, sqlLike_slash_self_false' hq]
      · by_cases hpre : strPrefixOf (p ++ "/") r.path = true
        · rw [if_neg hrp, if_pos hpre]
          obtain ⟨t, ht⟩ := strPrefixOf_exists_suffix hpre
          show sqlLike (archivePathOf p ++ "/%")
            (strReplaceFirst r.path p (archivePathOf p)) = _
          rw [ht, strReplaceFirst_pref hpdata, sqlLike_slash_prefix_true' hAq t,
            sqlLike_slash_prefix_true' hq t]
        · rw [if_neg hrp, if_neg hpre]
          show sqlLike (archivePathOf p ++ "/%") r.path = _
          rw [(harchfree r hr hrp (by
            cases hh : strPrefixOf (p ++ "/") r.path with
            | false => rfl
            | true => exact absurd hh hpre)).1]
          rw [hlike r hr]
          cases hh : strPrefixOf (p ++ "/") r.path with
          | false => rfl
          | true => exact absurd hh hpre
    rw [hfeq]
    refine List.map_congr_left (fun r hr => ?_)
    have hf := List.mem_filter.mp hr
    have hpre : strPrefixOf (p ++ "/") r.path = true := by
      rw [← hlike r hf.1]
      exact hf.2
    have hrp : r.path ≠ p := by
      intro he
      have h0 := strPrefixOf_slash_self_false p
      rw [he] at hpre
      rw [hpre] at h0
      cases h0
    show (if r.path = p then
        ({ r with
          path := archivePathOf p,
          parentPath := getParentPath (archivePathOf p),
          archived := true, archivedAt := some now } : Row)
      else if strPrefixOf (p ++ "/") r.path = true then
        { r with
          path := strReplaceFirst r.path p (archivePathOf p),
          parentPath := getParentPath (strReplaceFirst r.path p (archivePathOf p)),
          archived := true, archivedAt := some now }
      else r).path = strReplaceFirst r.path p (archivePathOf p)
    rw [if_neg hrp, if_pos hpre]
  have hlist : ((descendantPaths stA (archivePathOf p)).map
      (fun dp => (dp, strReplaceAll dp "/_archive/" "/"))) =
      (descendantPaths st p).map
        (fun dp => (strReplaceFirst dp p (archivePathOf p), dp)) := by
    rw [hD', List.map_map]
    refine List.map_congr_left (fun dp hdp => ?_)
    show (strReplaceFirst dp p (archivePathOf p),
      strReplaceAll (strReplaceFirst dp p (archivePathOf p)) "/_archive/" "/") = _
    rw [hRA dp hdp]
  obtain ⟨content, hcontent⟩ := Option.isSome_iff_exists.mp hreadp
  have hreadA0 : fsReadNote stA (archivePathOf p) = some content := by
    rw [hreadA, hcontent]
  have hmvread' : ∀ pr ∈ (descendantPaths st p).map
      (fun dp => (strReplaceFirst dp p (archivePathOf p), dp)),
      (fsReadNote stA pr.1).isSome = true := by
    intro pr hpr
    obtain ⟨dp, hdp, hbe⟩ := List.mem_map.mp hpr
    rw [← hbe]
    show (fsReadNote stA (strReplaceFirst dp p (archivePathOf p))).isSome = true
    rw [hreadAD dp hdp]
    obtain ⟨r, hrm, hrp, hpre2⟩ := hDmem dp hdp
    rw [← hrp]
    exact hreadd r hrm (by rw [hrp]; exact hpre2)
  have hmvnc' : ∀ pr ∈ (descendantPaths st p).map
      (fun dp => (strReplaceFirst dp p (archivePathOf p), dp)),
      ∀ pr' ∈ (descendantPaths st p).map
      (fun dp => (strReplaceFirst dp p (archivePathOf p), dp)),
      fsIndexFile pr'.2 ≠ fsIndexFile pr.1 := by
    intro pr hpr pr' hpr' he
    obtain ⟨dp, hdp, hbe⟩ := List.mem_map.mp hpr
    obtain ⟨dp', hdp', hbe'⟩ := List.mem_map.mp hpr'
    rw [← hbe, ← hbe'] at he
    have heq : dp' = strReplaceFirst dp p (archivePathOf p) :=
      fsIndexFile_inj (hdpne dp' hdp') (hRFne dp hdp) he
    exact hRFneq dp' hdp' dp hdp heq.symm
  have hmv' : moveDescendants stA now2 ((descendantPaths stA (archivePathOf p)).map
      (fun dp => (dp, strReplaceAll dp "/_archive/" "/"))) =
      ((((descendantPaths st p).map
      (fun dp => (strReplaceFirst dp p (archivePathOf p), dp))).foldl
      (fun s pr => fsWriteNote s pr.2 ((fsReadNote stA pr.1).getD "") now2) stA), Except.ok ()) := by
    rw [hlist]
    exact moveDescendants_ok _ stA now2 hmvread' hmvnc'
  have hT'nodup : ((((descendantPaths st p).map
      (fun dp => (strReplaceFirst dp p (archivePathOf p), dp))).map
        (fun b => fsIndexFile (Prod.snd b)))).Nodup := by
    rw [List.map_map]
    refine hDnodup.map_on ?_
    intro dp hdp dp' hdp' he
    exact fsIndexFile_inj (hdpne dp hdp) (hdpne dp' hdp') he
  have hST1'hit : ∀ dp ∈ descendantPaths st p,
      fsLookup ((((descendantPaths st p).map
      (fun dp => (strReplaceFirst dp p (archivePathOf p), dp))).foldl
      (fun s pr => fsWriteNote s pr.2 ((fsReadNote stA pr.1).getD "") now2) stA)).files (fsIndexFile dp) =
      some ⟨fsIndexFile dp,
        (fsReadNote stA (strReplaceFirst dp p (archivePathOf p))).getD "", now2⟩ := by
    intro dp hdp
    exact foldl_write_lookup_hit Prod.snd
      (fun pr => (fsReadNote stA pr.1).getD "") now2 _ stA
      (strReplaceFirst dp p (archivePathOf p), dp)
      (List.mem_map_of_mem _ hdp) hT'nodup
  have hST1'miss : ∀ q : String, (∀ dp ∈ descendantPaths st p, q ≠ fsIndexFile dp) →
      fsLookup ((((descendantPaths st p).map
      (fun dp => (strReplaceFirst dp p (archivePathOf p), dp))).foldl
      (fun s pr => fsWriteNote s pr.2 ((fsReadNote stA pr.1).getD "") now2) stA)).files q = fsLookup stA.files q := by
    intro q hq'
    refine foldl_write_lookup Prod.snd
      (fun pr => (fsReadNote stA pr.1).getD "") now2 _ stA q ?_
    intro b hb
    obtain ⟨dp, hdp, hbe⟩ := List.mem_map.mp hb
    rw [← hbe]
    exact hq' dp hdp
  have hidxPA : fsIndexFile p ≠ fsIndexFile (archivePathOf p) := by
    intro he
    have h1 := fsIndexFile_inj hpne hAne he
    have h3 := congrArg (fun s : String => s.data.length) h1
    simp only at h3
    rw [hlen] at h3
    omega
  have hidxAD : ∀ dp ∈ descendantPaths st p,
      fsIndexFile (archivePathOf p) ≠ fsIndexFile dp := by
    intro dp hdp he
    have h1 := fsIndexFile_inj hAne (hdpne dp hdp) he
    have h2 := hdp_pre dp hdp
    rw [← h1] at h2
    have hext : (p ++ "/").data <+: (archivePathOf p ++ "/").data := by
      have h5 := strPrefixOf_iff.mp h2
      rw [String.data_append]
      exact h5.trans (List.prefix_append _ _)
    exact hPA hext
  have hidxPD : ∀ dp ∈ descendantPaths st p, fsIndexFile p ≠ fsIndexFile dp := by
    intro dp hdp he
    have h1 := fsIndexFile_inj hpne (hdpne dp hdp) he
    obtain ⟨t, ht⟩ := hDt dp hdp
    rw [ht] at h1
    have h3 := congrArg (fun s : String => s.data.length) h1
    simp only [String.data_append, List.length_append] at h3
    rw [hslash] at h3
    omega
  obtain ⟨fQ, hfQ⟩ : ∃ fQ, fsLookup stA.files (fsIndexFile (archivePathOf p)) = some fQ := by
    cases hl : fsLookup stA.files (fsIndexFile (archivePathOf p)) with
    | none =>
      have h0 : fsReadNote stA (archivePathOf p) = none := by
        unfold fsReadNote
        rw [hl]
        rfl
      rw [hreadA0] at h0
      cases h0
    | some f1 => exact ⟨f1, rfl⟩
  have hlookW2A : fsLookup (fsWriteNote (((descendantPaths st p).map
      (fun dp => (strReplaceFirst dp p (archivePathOf p), dp))).foldl
      (fun s pr => fsWriteNote s pr.2 ((fsReadNote stA pr.1).getD "") now2) stA)
      (strReplaceAll (archivePathOf p) "/_archive/" "/") content now2).files
      (fsIndexFile (archivePathOf p)) = some fQ := by
    show fsLookup (fsWrite _
      (fsIndexFile (strReplaceAll (archivePathOf p) "/_archive/" "/")) content now2)
      (fsIndexFile (archivePathOf p)) = _
    rw [hUP, fsLookup_fsWrite, if_neg (fun he => hidxPA he.symm), hST1'miss _ hidxAD]
    exact hfQ
  have hany' : ((fsWriteNote (((descendantPaths st p).map
      (fun dp => (strReplaceFirst dp p (archivePathOf p), dp))).foldl
      (fun s pr => fsWriteNote s pr.2 ((fsReadNote stA pr.1).getD "") now2) stA)
      (strReplaceAll (archivePathOf p) "/_archive/" "/") content now2).files.any
      (fun f => strPrefixOf (archivePathOf p ++ "/") f.path)) = true := by
    obtain ⟨hmem, hpath⟩ := fsLookup_mem hlookW2A
    refine List.any_eq_true.mpr ⟨fQ, hmem, ?_⟩
    rw [hpath, fsIndexFile_eq_append hAne]
    exact strPrefixOf_self_append (archivePathOf p ++ "/") "_index.md"
  have hdel' : fsDeleteDir (fsWriteNote (((descendantPaths st p).map
      (fun dp => (strReplaceFirst dp p (archivePathOf p), dp))).foldl
      (fun s pr => fsWriteNote s pr.2 ((fsReadNote stA pr.1).getD "") now2) stA)
      (strReplaceAll (archivePathOf p) "/_archive/" "/") content now2).files (archivePathOf p) =
      some ((fsWriteNote (((descendantPaths st p).map
      (fun dp => (strReplaceFirst dp p (archivePathOf p), dp))).foldl
      (fun s pr => fsWriteNote s pr.2 ((fsReadNote stA pr.1).getD "") now2) stA)
      (strReplaceAll (archivePathOf p) "/_archive/" "/") content now2).files.filter
        (fun f => !strPrefixOf (archivePathOf p ++ "/") f.path)) := by
    unfold fsDeleteDir
    rw [if_neg hAne, if_pos hany']
  have hunarch := unarchiveNote_shape hcontA hreadA0 hmv' hdel'
  have hstUfiles : ((((descendantPaths stA (archivePathOf p)).map
      (fun dp => (dp, strReplaceAll dp "/_archive/" "/"))).foldl
        (fun s pr => dbUnarchive s pr.1 pr.2)
        (dbUnarchive { (fsWriteNote (((descendantPaths st p).map
      (fun dp => (strReplaceFirst dp p (archivePathOf p), dp))).foldl
      (fun s pr => fsWriteNote s pr.2 ((fsReadNote stA pr.1).getD "") now2) stA)
      (strReplaceAll (archivePathOf p) "/_archive/" "/") content now2) with
          files := (fsWriteNote (((descendantPaths st p).map
      (fun dp => (strReplaceFirst dp p (archivePathOf p), dp))).foldl
      (fun s pr => fsWriteNote s pr.2 ((fsReadNote stA pr.1).getD "") now2) stA)
      (strReplaceAll (archivePathOf p) "/_archive/" "/") content now2).files.filter
            (fun f => !strPrefixOf (archivePathOf p ++ "/") f.path) }
          (archivePathOf p) (strReplaceAll (archivePathOf p) "/_archive/" "/")))).files =
      (fsWriteNote (((descendantPaths st p).map
      (fun dp => (strReplaceFirst dp p (archivePathOf p), dp))).foldl
      (fun s pr => fsWriteNote s pr.2 ((fsReadNote stA pr.1).getD "") now2) stA)
      (strReplaceAll (archivePathOf p) "/_archive/" "/") content now2).files.filter
        (fun f => !strPrefixOf (archivePathOf p ++ "/") f.path) :=
    foldl_files_invariant (fun s (pr : String × String) => dbUnarchive s pr.1 pr.2)
      (fun s b => rfl) _ _
  refine ⟨_, hunarch, ?_, ?_, ?_⟩
  · -- rows characterization after the round trip
    rw [hlist, hUP]
    have hbrows : (({ fsWriteNote (((descendantPaths st p).map
        (fun dp => (strReplaceFirst dp p (archivePathOf p), dp))).foldl
        (fun s pr => fsWriteNote s pr.2 ((fsReadNote stA pr.1).getD "") now2) stA) p content now2 with
        files := (fsWriteNote (((descendantPaths st p).map
        (fun dp => (strReplaceFirst dp p (archivePathOf p), dp))).foldl
        (fun s pr => fsWriteNote s pr.2 ((fsReadNote stA pr.1).getD "") now2) stA) p content now2).files.filter
          (fun f => !strPrefixOf (archivePathOf p ++ "/") f.path) } : St)).rows =
        st.rows.map (fun r =>
          if r.path = p then
            { r with
              path := archivePathOf p,
              parentPath := getParentPath (archivePathOf p),
              archived := true, archivedAt := some now }
          else if strPrefixOf (p ++ "/") r.path = true then
            { r with
              path := strReplaceFirst r.path p (archivePathOf p),
              parentPath := getParentPath (strReplaceFirst r.path p (archivePathOf p)),
              archived := true, archivedAt := some now }
          else r) := by
      show ((((descendantPaths st p).map
        (fun dp => (strReplaceFirst dp p (archivePathOf p), dp))).foldl
        (fun s pr => fsWriteNote s pr.2 ((fsReadNote stA pr.1).getD "") now2) stA)).rows = _
      rw [show ((((descendantPaths st p).map
        (fun dp => (strReplaceFirst dp p (archivePathOf p), dp))).foldl
        (fun s pr => fsWriteNote s pr.2 ((fsReadNote stA pr.1).getD "") now2) stA)).rows = stA.rows from
        foldl_fsWriteNote_rows Prod.snd (fun pr => (fsReadNote stA pr.1).getD "") now2 _ stA]
      exact hstArows
    rw [foldl_dbUnarchive_rows, dbUnarchive_rows, hbrows, List.map_map, List.map_map]
    refine List.map_congr_left (fun r hr => ?_)
    show (((descendantPaths st p).map
        (fun dp => (strReplaceFirst dp p (archivePathOf p), dp))).foldl
      (fun r pr => if r.path = pr.1 then
          { r with
            path := pr.2, parentPath := getParentPath pr.2,
            archived := false, archivedAt := none }
        else r)
      (if (if r.path = p then
          { r with
            path := archivePathOf p,
            parentPath := getParentPath (archivePathOf p),
            archived := true, archivedAt := some now }
        else if strPrefixOf (p ++ "/") r.path = true then
          { r with
            path := strReplaceFirst r.path p (archivePathOf p),
            parentPath := getParentPath (strReplaceFirst r.path p (archivePathOf p)),
            archived := true, archivedAt := some now }
        else r).path = archivePathOf p then
        { (if r.path = p then
          { r with
            path := archivePathOf p,
            parentPath := getParentPath (archivePathOf p),
            archived := true, archivedAt := some now }
        else if strPrefixOf (p ++ "/") r.path = true then
          { r with
            path := strReplaceFirst r.path p (archivePathOf p),
            parentPath := getParentPath (strReplaceFirst r.path p (archivePathOf p)),
            archived := true, archivedAt := some now }
        else r) with
          path := p, parentPath := getParentPath p,
          archived := false, archivedAt := none }
      else (if r.path = p then
          { r with
            path := archivePathOf p,
            parentPath := getParentPath (archivePathOf p),
            archived := true, archivedAt := some now }
        else if strPrefixOf (p ++ "/") r.path = true then
          { r with
            path := strReplaceFirst r.path p (archivePathOf p),
            parentPath := getParentPath (strReplaceFirst r.path p (archivePathOf p)),
            archived := true, archivedAt := some now }
        else r))) =
      (if r.path = p then
        { r with
          parentPath := getParentPath p, archived := false, archivedAt := none }
      else if strPrefixOf (p ++ "/") r.path = true then
        { r with
          parentPath := getParentPath r.path, archived := false, archivedAt := none }
      else r)
    by_cases hrp : r.path = p
    · rw [if_pos hrp]
      rw [if_pos hrp]
      rw [if_pos (show ({ r with
          path := archivePathOf p,
          parentPath := getParentPath (archivePathOf p),
          archived := true, archivedAt := some now } : Row).path = archivePathOf p from rfl)]
      refine (foldl_pathStep_skip ?_).trans ?_
      · intro pr hpr he
        obtain ⟨dp, hdp, hbe⟩ := List.mem_map.mp hpr
        have hdpp : pr.1 = strReplaceFirst dp p (archivePathOf p) := by rw [← hbe]
        rw [hdpp] at he
        obtain ⟨t, ht⟩ := hDt dp hdp
        rw [hRF dp hdp t ht] at he
        have h3 := congrArg (fun s : String => s.data.length) he
        simp only [String.data_append, List.length_append] at h3
        rw [hlen, hslash] at h3
        omega
      · rw [hrp]
    · by_cases hpre : strPrefixOf (p ++ "/") r.path = true
      · rw [if_neg hrp]
        rw [if_neg hrp]
        rw [if_pos hpre]
        rw [if_pos hpre]
        obtain ⟨t, ht⟩ := strPrefixOf_exists_suffix hpre
        have hDmem2 : r.path ∈ descendantPaths st p := by
          unfold descendantPaths
          exact List.mem_map_of_mem _
            (List.mem_filter.mpr ⟨hr, by rw [hlike r hr]; exact hpre⟩)
        have hRFneA : strReplaceFirst r.path p (archivePathOf p) ≠ archivePathOf p := by
          rw [ht, strReplaceFirst_pref hpdata]
          intro he
          have h3 := congrArg (fun s : String => s.data.length) he
          simp only [String.data_append, List.length_append] at h3
          rw [hslash] at h3
          omega
        rw [if_neg (show ¬(({ r with
            path := strReplaceFirst r.path p (archivePathOf p),
            parentPath := getParentPath (strReplaceFirst r.path p (archivePathOf p)),
            archived := true, archivedAt := some now } : Row).path = archivePathOf p) from
          fun he => hRFneA he)]
        have hpair : (strReplaceFirst r.path p (archivePathOf p), r.path) ∈
            (descendantPaths st p).map
              (fun dp => (strReplaceFirst dp p (archivePathOf p), dp)) :=
          List.mem_map_of_mem _ hDmem2
        obtain ⟨pre, post, hsplit⟩ := List.append_of_mem hpair
        have hRFinj : ((descendantPaths st p).map
            (fun dp => strReplaceFirst dp p (archivePathOf p))).Nodup := by
          refine hDnodup.map_on ?_
          intro dp hdp dp' hdp' he
          obtain ⟨t1, ht1⟩ := hDt dp hdp
          obtain ⟨t2, ht2⟩ := hDt dp' hdp'
          rw [hRF dp hdp t1 ht1, hRF dp' hdp' t2 ht2] at he
          have hd := congrArg String.data he
          rw [String.data_append, String.data_append] at hd
          have h2 : t1 = t2 := String.ext (List.append_cancel_left hd)
          rw [ht1, ht2, h2]
        have hfsts : (descendantPaths st p).map
            (fun dp => strReplaceFirst dp p (archivePathOf p)) =
            (pre.map Prod.fst) ++ strReplaceFirst r.path p (archivePathOf p) ::
              (post.map Prod.fst) := by
          have h1 : (((descendantPaths st p).map
              (fun dp => (strReplaceFirst dp p (archivePathOf p), dp))).map Prod.fst) =
              (descendantPaths st p).map
                (fun dp => strReplaceFirst dp p (archivePathOf p)) := by
            rw [List.map_map]
            exact List.map_congr_left (fun dp _ => rfl)
          rw [← h1, hsplit, List.map_append, List.map_cons]
        have hnod2 := hRFinj
        rw [hfsts] at hnod2
        obtain ⟨hnotpre, _⟩ := nodup_split_not_mem hnod2
        rw [hsplit]
        refine (foldl_pathStep_hit rfl ?_ ?_).trans ?_
        · intro pr hpr he2
          have he3 : strReplaceFirst r.path p (archivePathOf p) = pr.1 := he2
          exact hnotpre (by rw [he3]; exact List.mem_map_of_mem Prod.fst hpr)
        · intro pr hpr he2
          have hprD : pr.1 ∈ (descendantPaths st p).map
              (fun dp => strReplaceFirst dp p (archivePathOf p)) := by
            rw [hfsts]
            exact List.mem_append.mpr
              (Or.inr (List.mem_cons_of_mem _ (List.mem_map_of_mem _ hpr)))
          obtain ⟨dp2, hdp2, hbe2⟩ := List.mem_map.mp hprD
          have he3 : r.path = pr.1 := he2
          rw [← hbe2] at he3
          exact hRFneq r.path hDmem2 dp2 hdp2 he3.symm
        · rfl
      · rw [if_neg hrp]
        rw [if_neg hrp]
        rw [if_neg hpre]
        rw [if_neg hpre]
        have hpreF : strPrefixOf (p ++ "/") r.path = false := by
          cases hh : strPrefixOf (p ++ "/") r.path with
          | false => rfl
          | true => exact absurd hh hpre
        have hfree := harchfree r hr hrp hpreF
        rw [if_neg (show ¬((r : Row).path = archivePathOf p) from hfree.2)]
        refine foldl_pathStep_skip ?_
        intro pr hpr he
        obtain ⟨dp, hdp, hbe⟩ := List.mem_map.mp hpr
        have hdpp : pr.1 = strReplaceFirst dp p (archivePathOf p) := by rw [← hbe]
        rw [hdpp] at he
        obtain ⟨t, ht⟩ := hDt dp hdp
        rw [hRF dp hdp t ht] at he
        have h1 := hfree.1
        rw [he, sqlLike_slash_prefix_true' hAq t] at h1
        cases h1
  · -- the note content is back at p
    show (fsLookup _ (fsIndexFile p)).map (fun f => f.content) = fsReadNote st p
    rw [hstUfiles, hUP]
    rw [fsLookup_filter_keep (fun f hfp => by
      rw [hfp, fsIndexFile_eq_append hpne, hnotA "_index.md"]
      rfl) _]
    show (fsLookup (fsWrite (((descendantPaths st p).map
        (fun dp => (strReplaceFirst dp p (archivePathOf p), dp))).foldl
        (fun s pr => fsWriteNote s pr.2 ((fsReadNote stA pr.1).getD "") now2) stA).files (fsIndexFile p) content now2)
      (fsIndexFile p)).map (fun f => f.content) = fsReadNote st p
    rw [fsLookup_fsWrite, if_pos rfl, hcontent]
    rfl
  · -- each descendant content is back at its original path
    intro dp hdp
    obtain ⟨t, ht⟩ := hDt dp hdp
    obtain ⟨r, hrm, hrp, hpre2⟩ := hDmem dp hdp
    obtain ⟨c, hc⟩ := Option.isSome_iff_exists.mp (hreadd r hrm (by rw [hrp]; exact hpre2))
    rw [hrp] at hc
    have hidxp : fsIndexFile dp = p ++ "/" ++ (t ++ "/_index.md") := by
      rw [ht]
      unfold fsIndexFile
      rw [if_neg (ht ▸ hdpne dp hdp), String.append_assoc]
    show (fsLookup _ (fsIndexFile dp)).map (fun f => f.content) = fsReadNote st dp
    rw [hstUfiles, hUP]
    rw [fsLookup_filter_keep (fun f hfp => by
      rw [hfp, hidxp, hnotA (t ++ "/_index.md")]
      rfl) _]
    show (fsLookup (fsWrite (((descendantPaths st p).map
        (fun dp => (strReplaceFirst dp p (archivePathOf p), dp))).foldl
        (fun s pr => fsWriteNote s pr.2 ((fsReadNote stA pr.1).getD "") now2) stA).files (fsIndexFile p) content now2)
      (fsIndexFile dp)).map (fun f => f.content) = fsReadNote st dp
    rw [fsLookup_fsWrite, if_neg (fun he => hidxPD dp hdp he.symm),
      hST1'hit dp hdp, hreadAD dp hdp, hc]
    rfl

/-! ## C1: archive → unarchive round trip -/

/-- C1 (amended): for a note `p` that has a parent (`get_parent_path p = some
par`), whose index paths are duplicate-free, whose path contains no `%` and no
`/_archive/` substring (nor do its descendants), whose descendant `LIKE`
query matches exactly the `p ++ "/"`-prefixed rows, whose note file and
descendant note files exist, and whose unrelated rows neither sit at nor
match the archive path, `archive_note(p)` followed by `unarchive_note` on the
archive path succeeds and restores every row's path, content and archived
flag: the final rows differ from the originals only in the recomputed
`parent_path` and the cleared `archived`/`archived_at` fields, and the note's
and each indexed descendant's content read back unchanged.  (The unamended
claim is false for root-level notes: their archive path `"_archive/" ++ p`
lacks the substring `"/_archive/"`, so `unarchive_note` rejects it with
`NotFound` — see `archive_unarchive_root_counterexample`.) -/
theorem archive_unarchive_roundtrip (st : St) (p par : String) (now now2 : Int)
    (hpar : getParentPath p = some par)
    (hnd : (st.rows.map Row.path).Nodup)
    (hq : '%' ∉ p.data)
    (hparch : occursL archPat p.data = false)
    (harchd : ∀ r ∈ st.rows, strPrefixOf (p ++ "/") r.path = true →
      occursL archPat r.path.data = false)
    (hlike : ∀ r ∈ st.rows, sqlLike (p ++ "/%") r.path = strPrefixOf (p ++ "/") r.path)
    (hreadp : (fsReadNote st p).isSome = true)
    (hreadd : ∀ r ∈ st.rows, strPrefixOf (p ++ "/") r.path = true →
      (fsReadNote st r.path).isSome = true)
    (harchfree : ∀ r ∈ st.rows, r.path ≠ p → strPrefixOf (p ++ "/") r.path = false →
      sqlLike (archivePathOf p ++ "/%") r.path = false ∧ r.path ≠ archivePathOf p)
    (hAp : strPrefixOf (p ++ "/") (archivePathOf p ++ "/") = false) :
    ∃ stA stU : St,
      archiveNote st p now = (stA, Except.ok ()) ∧
      unarchiveNote stA (archivePathOf p) now2 = (stU, Except.ok ()) ∧
      stU.rows = st.rows.map (fun r =>
        if r.path = p then
          { r with
              parentPath := getParentPath p, archived := false, archivedAt := none }
        else if strPrefixOf (p ++ "/") r.path = true then
          { r with
              parentPath := getParentPath r.path, archived := false, archivedAt := none }
        else r) ∧
      fsReadNote stU p = fsReadNote st p ∧
      (∀ r ∈ st.rows, strPrefixOf (p ++ "/") r.path = true →
        fsReadNote stU r.path = fsReadNote st r.path) := by
  obtain ⟨stA, hA, hArows, hAread, hAreadD⟩ :=
    archiveNote_ok st p par now hpar hnd hlike hreadp hreadd hAp
  obtain ⟨stU, hU, hUrows, hUread, hUreadD⟩ :=
    unarchiveNote_ok st stA p par now now2 hpar hnd hq hparch harchd hlike hreadp
      hreadd harchfree hAp hArows hAread hAreadD
  refine ⟨stA, stU, hA, hU, hUrows, hUread, ?_⟩
  intro r hr hpre
  refine hUreadD r.path (List.mem_map.mpr ⟨r, List.mem_filter.mpr ⟨hr, ?_⟩, rfl⟩)
  rw [hlike r hr]
  exact hpre

/-- A parent note `par` with a child note `par/n` that itself has an indexed
descendant `par/n/c`; all three are backed by files. -/
def c1State : St :=
  ⟨[⟨"par/_index.md", "P", 1⟩, ⟨"par/n/_index.md", "N", 1⟩,
    ⟨"par/n/c/_index.md", "C", 1⟩],
   [⟨1, "par", none, 1, computeHash "P", false, none, 0, 0, none, 0⟩,
    ⟨2, "par/n", some "par", 1, computeHash "N", false, none, 0, 0, none, 0⟩,
    ⟨3, "par/n/c", some "par/n", 1, computeHash "C", false, none, 0, 0, none, 0⟩],
   [⟨1, "par", "P"⟩, ⟨2, "par/n", "N"⟩, ⟨3, "par/n/c", "C"⟩], 4⟩

theorem archive_unarchive_roundtrip_witness :
    ∃ stA stU : St,
      archiveNote c1State "par/n" 5 = (stA, Except.ok ()) ∧
      unarchiveNote stA (archivePathOf "par/n") 9 = (stU, Except.ok ()) ∧
      stU.rows = c1State.rows.map (fun r =>
        if r.path = "par/n" then
          { r with
              parentPath := getParentPath "par/n", archived := false, archivedAt := none }
        else if strPrefixOf ("par/n" ++ "/") r.path = true then
          { r with
              parentPath := getParentPath r.path, archived := false, archivedAt := none }
        else r) ∧
      fsReadNote stU "par/n" = fsReadNote c1State "par/n" ∧
      (∀ r ∈ c1State.rows, strPrefixOf ("par/n" ++ "/") r.path = true →
        fsReadNote stU r.path = fsReadNote c1State r.path) :=
  archive_unarchive_roundtrip c1State "par/n" "par" 5 9 (by decide) (by decide)
    (by decide) (by decide) (by decide) (by decide) (by decide) (by decide)
    (by decide) (by decide)

/-- A single root-level note: `get_parent_path "solo" = none`. -/
def c1BugState : St :=
  ⟨[⟨"solo/_index.md", "S", 1⟩],
   [⟨1, "solo", none, 1, computeHash "S", false, none, 0, 0, none, 0⟩],
   [⟨1, "solo", "S"⟩], 2⟩

/-- The unamended C1 is false: for the root-level note `"solo"` (which is
known to the index), `archive_note` succeeds and moves it to
`"_archive/solo"`, but `unarchive_note` on that archive path fails with
`NotFound` because the path does not contain the substring `"/_archive/"`. -/
theorem archive_unarchive_root_counterexample :
    (rowByPath c1BugState.rows "solo").isSome = true ∧
    (archiveNote c1BugState "solo" 7).2 = Except.ok () ∧
    unarchiveNote (archiveNote c1BugState "solo" 7).1 (archivePathOf "solo") 9 =
      ((archiveNote c1BugState "solo" 7).1,
        Except.error (Err.notFound (archivePathOf "solo"))) := by
  decide
